import Mathlib

/-!
# beacon-kit: the broadcast broker, the validator service and the byte helpers

A shallow embedding of `mod/async/pkg/broker/broker.go`, of the event
handling of `mod/beacon/validator/service.go`, of the helpers and the text
codec of `mod/primitives/pkg/bytes` and of the SSZ marshalling of
`mod/primitives-consensus/deposit_message.ssz.go`, followed by the properties
proved about them.

## Memory model

A Go channel value is a reference.  A `Client` is the index of a channel in
`World.chans`, the list of all channels made so far, which keeps the runtime
`closed` flag of each.  A reference with no cell in `chans` behaves like the
nil channel: closing it panics and a send on it is never ready.

What a goroutine outside the broker can observe of the broker's channel
operations is recorded in `World.trace`, oldest entry first: a completed
send, a send abandoned at its timer, a completed close.

## Time and scheduling

A `select` with a send case and a `time.After` case is resolved by what the
other side does during the wait.  For a subscriber mailbox (unbuffered) this
is whether the subscriber takes the value before the timer fires, given by a
`ready` oracle.  For the intake queue (buffered) it is whether the buffer has
room at some instant of the wait, given by the successive worlds of the wait.
The order in which `range` yields the keys of the registry map is chosen by
the runtime and is given by an `IterOrder` oracle.

## Allocation

`make` and `append` ask the runtime for memory.  What the runtime answers, a
block, the panic `len out of range` or the fatal error `out of memory`, is
given by a `Runtime` parameter.
-/

namespace BeaconKit

namespace broker

/-- Client is `type Client[T any] chan T`: a reference to a channel, here the
index of its cell in `World.chans`. -/
abbrev Client := Nat

/-- Error values returned by the package; `ErrTimeout` is the package's
timeout error, `other` stands for any error made elsewhere. -/
inductive Error where
  | ErrTimeout : Error
  | other : String → Error
  deriving DecidableEq, Repr

/-- Run-time panics that the channel operations of the package can raise. -/
inductive Panic where
  | closeOfClosedChannel : Panic
  | closeOfNilChannel : Panic
  | sendOnClosedChannel : Panic
  deriving DecidableEq, Repr

/-- Observable channel operations performed by the broker. -/
inductive Effect (T : Type) where
  | sent : Client → T → Effect T
  | timedOut : Client → T → Effect T
  | closed : Client → Effect T
  deriving DecidableEq, Repr

/-- Broker is the struct `Broker[T]`: `clients` holds the keys of the map
`map[Client[T]]struct{}`, `msgs` the buffer of the channel `msgs` (oldest
first) and `cap` its capacity. -/
structure Broker (T : Type) where
  name : String
  clients : List Client
  msgs : List T
  cap : Nat
  timeout : Nat
  deriving DecidableEq, Repr

/-- World is the broker together with the channels it refers to and the record
of its channel operations. -/
structure World (T : Type) where
  b : Broker T
  chans : List Bool
  trace : List (Effect T)
  deriving DecidableEq, Repr

/-- Result of a call that may panic: the panic comes with the world as it was
when the panic was raised. -/
abbrev Res (T : Type) (α : Type) := Except (Panic × World T) α

/-- New is `New[T](name)`; `defaultBufferSize` and `defaultTimeout` are
constants of the package declared in another file of the package and are taken
as parameters; `msgs` is a buffered channel. -/
def New {T : Type} (name : String) (defaultBufferSize defaultTimeout : Nat) : Broker T :=
  { name := name, clients := [], msgs := [], cap := defaultBufferSize,
    timeout := defaultTimeout }

/-- The world right after `New`: no channel has been made, nothing has been
observed. -/
def World.init {T : Type} (name : String) (defaultBufferSize defaultTimeout : Nat) : World T :=
  { b := New name defaultBufferSize defaultTimeout, chans := [], trace := [] }

/-- Name is `(*Broker).Name`. -/
def Name {T : Type} (w : World T) : String := w.b.name

/-- Whether the buffered channel `b.msgs` accepts a send right now. -/
def hasRoom {T : Type} (w : World T) : Bool := decide (w.b.msgs.length < w.b.cap)

/-- Publish is `(*Broker).Publish`:
`select { case b.msgs <- msg: return nil; case <-time.After(b.timeout): return ErrTimeout }`.
The world `w` is the one at the call and `wait` lists the worlds at the later
instants of the wait, as the other goroutines make them, up to the instant the
timer fires.  The send case fires at the first instant at which the buffer has
room; the timer case fires when there is none. -/
def Publish {T : Type} (w : World T) (msg : T) : List (World T) → World T × Option Error
  | [] =>
    if hasRoom w then ({ w with b := { w.b with msgs := w.b.msgs ++ [msg] } }, none)
    else (w, some Error.ErrTimeout)
  | next :: later =>
    if hasRoom w then ({ w with b := { w.b with msgs := w.b.msgs ++ [msg] } }, none)
    else Publish next msg later

/-- Subscribe is `(*Broker).Subscribe`: `make(Client[T])` allocates a fresh open
channel, `b.clients[client] = struct{}{}` adds the key if it is not there. -/
def Subscribe {T : Type} (w : World T) : World T × Client × Option Error :=
  let client := w.chans.length
  ({ w with b := { w.b with clients := w.b.clients.insert client },
            chans := w.chans ++ [false] }, client, none)

/-- The builtin `close(c)`. -/
def chanClose {T : Type} (w : World T) (c : Client) : Res T (World T) :=
  match w.chans[c]? with
  | none => .error (Panic.closeOfNilChannel, w)
  | some true => .error (Panic.closeOfClosedChannel, w)
  | some false => .ok { w with chans := w.chans.set c true, trace := w.trace ++ [Effect.closed c] }

/-- Unsubscribe is `(*Broker).Unsubscribe`: `delete(b.clients, client)` then
`close(client)`. -/
def Unsubscribe {T : Type} (w : World T) (client : Client) : Res T (World T) :=
  chanClose { w with b := { w.b with clients := w.b.clients.filter (fun k => k ≠ client) } } client

/-- The inner select of the loop,
`select { case client <- msg: case <-time.After(b.timeout): }`;
`ready` tells whether the subscriber takes the value before the timer fires.
A send on a closed channel panics. -/
def sendOrTimeout {T : Type} (msg : T) (ready : Client → Bool) (w : World T) (client : Client) :
    Res T (World T) :=
  match w.chans[client]? with
  | some true => .error (Panic.sendOnClosedChannel, w)
  | some false =>
    if ready client then .ok { w with trace := w.trace ++ [Effect.sent client msg] }
    else .ok { w with trace := w.trace ++ [Effect.timedOut client msg] }
  | none => .ok { w with trace := w.trace ++ [Effect.timedOut client msg] }

/-- The order in which `range b.clients` yields the keys: any rearrangement of
them, chosen by the runtime. -/
structure IterOrder where
  pick : List Client → List Client
  perm : ∀ l, (pick l).Perm l

/-- The loop `for client := range b.clients { body }` over the keys in the
order `keys`; a key deleted before it is reached is not produced. -/
def forRange {T : Type} (body : World T → Client → Res T (World T)) :
    List Client → World T → Res T (World T)
  | [], w => .ok w
  | c :: rest, w =>
    if c ∈ w.b.clients then
      match body w c with
      | .ok w1 => forRange body rest w1
      | .error e => .error e
    else forRange body rest w

/-- Which case of the outer select of `start` fires, with the scheduling
choices of the iteration it starts. -/
inductive Select where
  | ctxDone : IterOrder → Select
  | recvMsg : IterOrder → (Client → Bool) → Select

/-- Whether the loop of `start` goes on or has returned. -/
inductive Loop where
  | running : Loop
  | returned : Loop
  deriving DecidableEq, Repr

/-- One iteration of the `for` loop of `(*Broker).start`.  On `ctx.Done()` every
client left is unsubscribed and the function returns.  On a received message
the message is sent to every client.  When `b.msgs` is empty its case cannot
fire and the select keeps waiting. -/
def startIter {T : Type} (w : World T) : Select → Res T (Loop × World T)
  | .ctxDone o =>
    match forRange Unsubscribe (o.pick w.b.clients) w with
    | .ok w1 => .ok (Loop.returned, w1)
    | .error e => .error e
  | .recvMsg o ready =>
    match w.b.msgs with
    | [] => .ok (Loop.running, w)
    | msg :: rest =>
      let w0 : World T := { w with b := { w.b with msgs := rest } }
      match forRange (sendOrTimeout msg ready) (o.pick w0.b.clients) w0 with
      | .ok w1 => .ok (Loop.running, w1)
      | .error e => .error e

/-- The function `(*Broker).start` run on the successive choices `evs` of its
select: it stops at the first iteration that returns or panics. -/
def start {T : Type} : World T → List Select → Res T (Loop × World T)
  | w, [] => .ok (Loop.running, w)
  | w, ev :: evs =>
    match startIter w ev with
    | .ok (Loop.running, w1) => start w1 evs
    | .ok (Loop.returned, w1) => .ok (Loop.returned, w1)
    | .error e => .error e

/-- The values handed to the reader of mailbox `c`, oldest first. -/
def received {T : Type} (c : Client) (tr : List (Effect T)) : List T :=
  tr.filterMap (fun e => match e with
    | .sent d m => if d = c then some m else none
    | _ => none)

/-- Whether the entry is a completed send. -/
def isSent {T : Type} : Effect T → Bool
  | .sent _ _ => true
  | _ => false

/-- Whether the entry is a completed send to mailbox `c`. -/
def isSentTo {T : Type} (c : Client) : Effect T → Bool
  | .sent d _ => decide (d = c)
  | _ => false

/-- Whether the entry is a completed close of mailbox `c`. -/
def isClosed {T : Type} (c : Client) : Effect T → Bool
  | .closed d => decide (d = c)
  | _ => false

/-- Number of completed sends in a stretch of the record. -/
def deliveries {T : Type} (tr : List (Effect T)) : Nat := tr.countP isSent

/-- Number of completed sends to mailbox `c` in a stretch of the record. -/
def deliveriesTo {T : Type} (c : Client) (tr : List (Effect T)) : Nat := tr.countP (isSentTo c)

/-- Number of completed closes of mailbox `c` in a stretch of the record. -/
def closes {T : Type} (c : Client) (tr : List (Effect T)) : Nat := tr.countP (isClosed c)

/-- The entry the inner select of the loop leaves for mailbox `c`. -/
def attempt {T : Type} (msg : T) (ready : Client → Bool) (c : Client) : Effect T :=
  if ready c then Effect.sent c msg else Effect.timedOut c msg

/-- The state invariant of the registry: the keys of the map are distinct and
every registered mailbox is an open channel. -/
def Inv {T : Type} (w : World T) : Prop :=
  w.b.clients.Nodup ∧ ∀ c ∈ w.b.clients, w.chans[c]? = some false

/-- The record agrees with the channels: a channel has one close on record when
its flag is set and none otherwise. -/
def Closed1 {T : Type} (w : World T) : Prop :=
  ∀ c, closes c w.trace = if w.chans[c]? = some true then 1 else 0

/-- A call made on the broker by some goroutine, or an iteration of its loop. -/
inductive Action (T : Type) where
  | subscribe : Action T
  | unsubscribe : Client → Action T
  | publish : T → Action T
  | loop : Select → Action T

/-- Outcome of a schedule: the world reached, the messages for which `Publish`
returned nil (oldest first) and the panic that ended the schedule, if any. -/
structure Run (T : Type) where
  world : World T
  accepted : List T
  panic : Option Panic

/-- Runs the actions one after the other, each at the instant it takes effect,
and stops at the first panic.  The schedule is free to start the loop again
after it has returned. -/
def run {T : Type} : World T → List (Action T) → Run T
  | w, [] => { world := w, accepted := [], panic := none }
  | w, .subscribe :: rest => run (Subscribe w).1 rest
  | w, .unsubscribe c :: rest =>
    match Unsubscribe w c with
    | .ok w1 => run w1 rest
    | .error (p, w1) => { world := w1, accepted := [], panic := some p }
  | w, .publish msg :: rest =>
    match Publish w msg [] with
    | (w1, none) => { run w1 rest with accepted := msg :: (run w1 rest).accepted }
    | (w1, some _) => run w1 rest
  | w, .loop ev :: rest =>
    match startIter w ev with
    | .ok (_, w1) => run w1 rest
    | .error (p, w1) => { world := w1, accepted := [], panic := some p }

/-- A world with one registered open mailbox, one delivery abandoned on record
and a full intake queue of capacity one. -/
def exFullA : World Nat :=
  { b := { name := "a", clients := [0], msgs := [1], cap := 1, timeout := 5 },
    chans := [false], trace := [Effect.timedOut 0 7] }

/-- A world with no mailbox and a full intake queue of capacity one. -/
def exFullB : World Nat :=
  { b := { name := "b", clients := [], msgs := [5], cap := 1, timeout := 5 },
    chans := [], trace := [] }

/-- A world with two registered open mailboxes and one mailbox closed earlier. -/
def exThree : World Nat :=
  { b := { name := "c", clients := [2, 0], msgs := [4, 9], cap := 3, timeout := 5 },
    chans := [false, true, false], trace := [Effect.closed 1] }

/-- The order in which the keys are yielded as they are stored. -/
def orderStored : IterOrder := { pick := fun l => l, perm := fun l => List.Perm.refl l }

/-- The order in which the keys are yielded last stored first. -/
def orderReversed : IterOrder := { pick := List.reverse, perm := List.reverse_perm }

/-- The world after `New`, one Subscribe and one Unsubscribe of the mailbox it
returned. -/
def exUnsubscribed : World Nat :=
  { b := { name := "slots", clients := [], msgs := [], cap := 4, timeout := 1 },
    chans := [true], trace := [Effect.closed 0] }

/-- The registry invariant together with the agreement of the record with the
channels. -/
def Good {T : Type} (w : World T) : Prop := Inv w ∧ Closed1 w

/-- The property holds of the world a call ends in, whether it returns or
panics. -/
def Holds {T : Type} (P : World T → Prop) : Res T (World T) → Prop
  | .ok w => P w
  | .error (_, w) => P w

/-- The world `w` comes after `w0` with nothing added to the intake queue: its
queue holds messages of the queue of `w0` only, its record extends the record
of `w0`, and every send on the extension carries a message of that queue. -/
def Ext {T : Type} (w0 w : World T) : Prop :=
  (∀ m ∈ w.b.msgs, m ∈ w0.b.msgs) ∧
  ∃ seg, w.trace = w0.trace ++ seg ∧ ∀ c m, Effect.sent c m ∈ seg → m ∈ w0.b.msgs

/-- A world with three registered open mailboxes and one message queued. -/
def exFanOut : World Nat :=
  { b := { name := "blocks", clients := [0, 1, 2], msgs := [7], cap := 4, timeout := 1 },
    chans := [false, false, false], trace := [] }

/-- Readiness of the subscribers of `exFanOut`: mailbox 1 is slow. -/
def exReady : Client → Bool := fun c => decide (c ≠ 1)

/-- The action leaves subscriber `c` in place and served: it is not an
Unsubscribe of `c` nor the cancellation of the loop, and when it is a broadcast
the mailbox of `c` is ready within the timeout. -/
def Steady {T : Type} (c : Client) : Action T → Prop
  | .subscribe => True
  | .unsubscribe d => d ≠ c
  | .publish _ => True
  | .loop (.ctxDone _) => False
  | .loop (.recvMsg _ ready) => ready c = true

/-- A schedule on a broker of capacity two: two messages are accepted, a third
is refused for lack of room, the loop broadcasts one, another subscriber joins
and a fourth message is accepted. -/
def exSchedule : List (Action Nat) :=
  [.publish 10, .publish 20, .publish 30, .loop (.recvMsg orderStored (fun _ => true)),
   .subscribe, .publish 40]

/-- The broker has name `n`, capacity `k` and timeout `t`, and its intake queue
holds at most `k` messages. -/
def Framed {T : Type} (n : String) (k t : Nat) (w : World T) : Prop :=
  w.b.name = n ∧ w.b.cap = k ∧ w.b.timeout = t ∧ w.b.msgs.length ≤ k

/-- Whether the entry is an attempt of the loop to send to mailbox `c`, completed
or abandoned. -/
def isAttemptTo {T : Type} (c : Client) : Effect T → Bool
  | .sent d _ => decide (d = c)
  | .timedOut d _ => decide (d = c)
  | .closed _ => false

/-- Whether the entry is an attempt of the loop to send, completed or
abandoned. -/
def isAttempt {T : Type} : Effect T → Bool
  | .sent _ _ => true
  | .timedOut _ _ => true
  | .closed _ => false

/-- Whether the subscriber of mailbox `c`, which takes a value `delay c` after it
is offered, does so before a timer of `timeout` fires. -/
def readyWithin (timeout : Nat) (delay : Client → Nat) : Client → Bool :=
  fun c => decide (delay c < timeout)

/-- The time the loop spends in the select that left the entry: the whole
`timeout` when the timer started for this select fired, the delay of the
subscriber when the send completed first. -/
def waitOf {T : Type} (timeout : Nat) (delay : Client → Nat) : Effect T → Nat
  | .sent c _ => min (delay c) timeout
  | .timedOut _ _ => timeout
  | .closed _ => 0

/-- The time the loop spends in the selects of a stretch of the record. -/
def waited {T : Type} (timeout : Nat) (delay : Client → Nat) (seg : List (Effect T)) : Nat :=
  (seg.map (waitOf timeout delay)).sum

/-- The property holds of the world an iteration of the loop ends in, whether it
goes on, returns or panics. -/
def HoldsIter {T : Type} (P : World T → Prop) : Res T (Loop × World T) → Prop
  | .ok (_, w) => P w
  | .error (_, w) => P w

/-- The action is not an iteration of the loop. -/
def NoLoop {T : Type} : Action T → Prop
  | .loop _ => False
  | _ => True

/-- The parts of the world that Publish and a broadcast leave alone: the
registry, the channels, the closes on record, the name, the capacity and the
timeout. -/
def SameRegistry {T : Type} (w w1 : World T) : Prop :=
  w1.b.clients = w.b.clients ∧ w1.chans = w.chans ∧ (∀ c, closes c w1.trace = closes c w.trace) ∧
  w1.b.name = w.b.name ∧ w1.b.timeout = w.b.timeout ∧ w1.b.cap = w.b.cap

/-- The parts of the world that Subscribe, Unsubscribe and the cancellation
leave alone: the intake queue, the name, the capacity and the timeout. -/
def SameQueue {T : Type} (w w1 : World T) : Prop :=
  w1.b.msgs = w.b.msgs ∧ w1.b.name = w.b.name ∧ w1.b.timeout = w.b.timeout ∧
  w1.b.cap = w.b.cap

/-- Mailbox `c` has been removed from the registry and closed. -/
def Removed {T : Type} (c : Client) (w : World T) : Prop :=
  c ∉ w.b.clients ∧ w.chans[c]? = some true

/-- Every Unsubscribe of the schedule is of a mailbox that is registered when
the call is made. -/
def Registered {T : Type} : World T → List (Action T) → Prop
  | _, [] => True
  | w, .subscribe :: rest => Registered (Subscribe w).1 rest
  | w, .unsubscribe c :: rest =>
    c ∈ w.b.clients ∧
      match Unsubscribe w c with
      | .ok w1 => Registered w1 rest
      | .error _ => True
  | w, .publish msg :: rest => Registered (Publish w msg []).1 rest
  | w, .loop ev :: rest =>
    match startIter w ev with
    | .ok (_, w1) => Registered w1 rest
    | .error _ => True

/-- The broadcasts of a run of the loop: one iteration that receives from the
intake queue per entry, with the iteration order and the readiness of the
subscribers at that iteration. -/
def broadcasts {T : Type} (sched : List (IterOrder × (Client → Bool))) : List (Action T) :=
  sched.map (fun p => Action.loop (.recvMsg p.1 p.2))

/-- Number of calls of `close` on mailbox `c` made by the loop
`for client := range b.clients { b.Unsubscribe(client) }` over the keys in the
order `keys`, a call that panics included: Unsubscribe calls `close` on its
argument whatever the state of the channel. -/
def closeCallsRange {T : Type} (c : Client) : List Client → World T → Nat
  | [], _ => 0
  | k :: rest, w =>
    if k ∈ w.b.clients then
      (if k = c then 1 else 0) +
        match Unsubscribe w k with
        | .ok w1 => closeCallsRange c rest w1
        | .error _ => 0
    else closeCallsRange c rest w

/-- Number of calls of `close` on mailbox `c` made along the schedule, a call
that panics included: one by each Unsubscribe of `c`, and those of the
cancellation case of the loop. -/
def closeCalls {T : Type} (c : Client) : World T → List (Action T) → Nat
  | _, [] => 0
  | w, .subscribe :: rest => closeCalls c (Subscribe w).1 rest
  | w, .unsubscribe d :: rest =>
    (if d = c then 1 else 0) +
      match Unsubscribe w d with
      | .ok w1 => closeCalls c w1 rest
      | .error _ => 0
  | w, .publish msg :: rest => closeCalls c (Publish w msg []).1 rest
  | w, .loop (.ctxDone o) :: rest =>
    closeCallsRange c (o.pick w.b.clients) w +
      match startIter w (.ctxDone o) with
      | .ok (_, w1) => closeCalls c w1 rest
      | .error _ => 0
  | w, .loop (.recvMsg o ready) :: rest =>
    match startIter w (.recvMsg o ready) with
    | .ok (_, w1) => closeCalls c w1 rest
    | .error _ => 0

/-- A schedule without the loop on a broker with two free slots: three Publish
calls with a Subscribe and an Unsubscribe between them. -/
def exNoLoop : List (Action Nat) :=
  [.publish 10, .subscribe, .publish 20, .unsubscribe 0, .publish 30]

end broker

namespace validator

open broker (Error)

/-- Context stands for `context.Context`, an opaque handle. -/
abbrev Context := Nat

/-- Slot is `math.Slot`. -/
abbrev Slot := Nat

/-- Modelled from the spec: the kinds of event of package `events`, whose
declarations are in another module of the repository; `NewSlot`,
`BeaconBlockBuilt` and `BlobSidecarsBuilt` are the ones the service uses. -/
inductive EventID where
  | NewSlot : EventID
  | BeaconBlockBuilt : EventID
  | BlobSidecarsBuilt : EventID
  | other : String → EventID
  deriving DecidableEq, Repr

/-- Modelled from the spec: the envelope `asynctypes.Event`, declared in another
module of the repository: a causal context, a kind, a payload and an optional
error. -/
structure Event (D : Type) where
  ctx : Context
  kind : EventID
  data : D
  err : Option Error
  deriving DecidableEq, Repr

/-- Modelled from the spec: the constructor `asynctypes.NewEvent(ctx, kind, data,
err)`, declared in another module of the repository, builds the envelope that
carries its arguments. -/
def NewEvent {D : Type} (ctx : Context) (kind : EventID) (data : D) (err : Option Error) :
    Event D :=
  { ctx := ctx, kind := kind, data := data, err := err }

/-- A call made by the service on one of its collaborators. -/
inductive Call (B S : Type) where
  | build : Context → Slot → Call B S
  | logError : String → Option Error → Call B S
  | publishBlock : Event B → Call B S
  | publishSidecars : Event S → Call B S
  deriving DecidableEq, Repr

/-- The collaborators of the service as functions of their own state `σ`: the
builder `s.buildBlockAndSidecars` and the method `Publish` of the two
publishers `s.blkBroker` and `s.sidecarsBroker`. -/
structure Deps (σ B S : Type) where
  buildBlockAndSidecars : σ → Context → Slot → σ × (B × S × Option Error)
  blkBrokerPublish : σ → Event B → σ × Option Error
  sidecarsBrokerPublish : σ → Event S → σ × Option Error

/-- The calls `s.logger.Error(msg, "err", err)` made when `failed` is not nil. -/
def logIf {B S : Type} (failed : Option Error) (msg : String) (err : Option Error) :
    List (Call B S) :=
  if failed.isSome then [Call.logError msg err] else []

/-- The method `(*Service).handleNewSlot`: the state of the collaborators after
the call and the calls made on them, in order. -/
def handleNewSlot {σ B S : Type} (d : Deps σ B S) (s : σ) (req : Event Slot) :
    σ × List (Call B S) :=
  let built := d.buildBlockAndSidecars s req.ctx req.data
  let blk := built.2.1
  let sidecars := built.2.2.1
  let err := built.2.2.2
  let blkEvent := NewEvent req.ctx EventID.BeaconBlockBuilt blk err
  let blkOut := d.blkBrokerPublish built.1 blkEvent
  let sidecarsEvent := NewEvent req.ctx EventID.BlobSidecarsBuilt sidecars err
  let sidecarsOut := d.sidecarsBrokerPublish blkOut.1 sidecarsEvent
  (sidecarsOut.1,
    [Call.build req.ctx req.data] ++ logIf err "failed to build block" err ++
    [Call.publishBlock blkEvent] ++ logIf blkOut.2 "failed to publish block" err ++
    [Call.publishSidecars sidecarsEvent] ++
    logIf sidecarsOut.2 "failed to publish sidecars" err)

/-- Whether the call is a Publish on the block broker. -/
def isPublishBlock {B S : Type} : Call B S → Bool
  | .publishBlock _ => true
  | _ => false

/-- Whether the call is a Publish on the sidecars broker. -/
def isPublishSidecars {B S : Type} : Call B S → Bool
  | .publishSidecars _ => true
  | _ => false

/-- Whether the call is a call of the logger. -/
def isLog {B S : Type} : Call B S → Bool
  | .logError _ _ => true
  | _ => false

/-- Whether the call is a call of the builder. -/
def isBuild {B S : Type} : Call B S → Bool
  | .build _ _ => true
  | _ => false

/-- The three calls that handling the slot event `p.1` makes besides logging
when the builder returns `p.2`. -/
def handled {B S : Type} (p : Event Slot × (B × S × Option Error)) : List (Call B S) :=
  [Call.build p.1.ctx p.1.data,
   Call.publishBlock (NewEvent p.1.ctx EventID.BeaconBlockBuilt p.2.1 p.2.2.2),
   Call.publishSidecars (NewEvent p.1.ctx EventID.BlobSidecarsBuilt p.2.2.1 p.2.2.2)]

/-- Run-time panics of the service loop. -/
inductive Fault where
  | nilDereference : Fault
  deriving DecidableEq, Repr

/-- Which case of the select of `start` fires: `ctx.Done()`, or a receive from
`s.newSlotSub` with the pointer received, nil (`none`) when the mailbox has
been closed. -/
inductive Received where
  | ctxDone : Received
  | event : Option (Event Slot) → Received
  deriving DecidableEq, Repr

/-- One iteration of the loop of `(*Service).start`: the state of the
collaborators and the calls made on them.  Modelled from the spec: the
accessor `req.Type()` of `asynctypes.Event`, declared in another module of the
repository, reads the kind of the envelope; on a nil pointer the read is a nil
dereference. -/
def startIter {σ B S : Type} (d : Deps σ B S) (s : σ) :
    Received → Except Fault (broker.Loop × σ × List (Call B S))
  | .ctxDone => .ok (broker.Loop.returned, s, [])
  | .event none => .error Fault.nilDereference
  | .event (some req) =>
    if req.kind = EventID.NewSlot then
      .ok (broker.Loop.running, handleNewSlot d s req)
    else .ok (broker.Loop.running, s, [])

/-- The method `(*Service).start` run on the successive choices of its select:
the calls made are collected in order; it stops at the first iteration that
returns or panics, and a panic comes with the state and the calls made up to
it. -/
def start {σ B S : Type} (d : Deps σ B S) :
    σ → List Received → Except (Fault × σ × List (Call B S)) (broker.Loop × σ × List (Call B S))
  | s, [] => .ok (broker.Loop.running, s, [])
  | s, ev :: evs =>
    match startIter d s ev with
    | .error f => .error (f, s, [])
    | .ok (broker.Loop.returned, s1, calls) => .ok (broker.Loop.returned, s1, calls)
    | .ok (broker.Loop.running, s1, calls) =>
      match start d s1 evs with
      | .ok (l, s2, more) => .ok (l, s2, calls ++ more)
      | .error (f, s2, more) => .error (f, s2, calls ++ more)

/-- The collaborators of the service when the two publishers are brokers and
the builder keeps no state of its own: the state is the world of the block
broker and the world of the sidecars broker, and each Publish is taken at the
instant its select fires. -/
def brokerDeps {B S : Type} (build : Context → Slot → B × S × Option Error) :
    Deps (broker.World (Event B) × broker.World (Event S)) B S :=
  { buildBlockAndSidecars := fun s ctx slot => (s, build ctx slot),
    blkBrokerPublish := fun s ev => (((broker.Publish s.1 ev []).1, s.2), (broker.Publish s.1 ev []).2),
    sidecarsBrokerPublish := fun s ev =>
      ((s.1, (broker.Publish s.2 ev []).1), (broker.Publish s.2 ev []).2) }

/-- A builder that succeeds with block `slot + 100` and sidecars `slot + 200`. -/
def exBuild : Context → Slot → Nat × Nat × Option Error :=
  fun _ slot => (slot + 100, slot + 200, none)

/-- A feed with one subscriber, an empty queue and room for one message. -/
def exFeed : broker.World (Event Nat) :=
  { b := { name := "feed", clients := [0], msgs := [], cap := 1, timeout := 1 },
    chans := [false], trace := [] }

/-- A feed with one subscriber and a full queue. -/
def exFeedFull : broker.World (Event Nat) :=
  { b := { name := "feed", clients := [0],
           msgs := [NewEvent 1 EventID.BeaconBlockBuilt 3 none], cap := 1, timeout := 1 },
    chans := [false], trace := [] }

/-- The event of slot 7. -/
def exSlotEvent : Event Slot := NewEvent 5 EventID.NewSlot 7 none

/-- Collaborators whose builder succeeds and whose publishers both time out. -/
def exTimeoutDeps : Deps Unit Nat Nat :=
  { buildBlockAndSidecars := fun s _ slot => (s, (slot + 100, slot + 200, none)),
    blkBrokerPublish := fun s _ => (s, some Error.ErrTimeout),
    sidecarsBrokerPublish := fun s _ => (s, some Error.ErrTimeout) }

/-- Whether the event is of kind NewSlot. -/
def isNewSlot (req : Event Slot) : Bool := decide (req.kind = EventID.NewSlot)

/-- The receives of the events `reqs`, in order, as choices of the select. -/
def receives (reqs : List (Event Slot)) : List Received :=
  reqs.map (fun r => Received.event (some r))

/-- The events passed to Publish on the block broker, in order. -/
def blockEvents {B S : Type} (calls : List (Call B S)) : List (Event B) :=
  calls.filterMap (fun c => match c with
    | .publishBlock ev => some ev
    | _ => none)

/-- The events passed to Publish on the sidecars broker, in order. -/
def sidecarEvents {B S : Type} (calls : List (Call B S)) : List (Event S) :=
  calls.filterMap (fun c => match c with
    | .publishSidecars ev => some ev
    | _ => none)

/-- The event handleNewSlot publishes on the block broker for the request `req`
when the builder is `build`. -/
def blockEventOf {B S : Type} (build : Context → Slot → B × S × Option Error)
    (req : Event Slot) : Event B :=
  NewEvent req.ctx EventID.BeaconBlockBuilt (build req.ctx req.data).1 (build req.ctx req.data).2.2

/-- The event handleNewSlot publishes on the sidecars broker for the request
`req` when the builder is `build`. -/
def sidecarsEventOf {B S : Type} (build : Context → Slot → B × S × Option Error)
    (req : Event Slot) : Event S :=
  NewEvent req.ctx EventID.BlobSidecarsBuilt (build req.ctx req.data).2.1
    (build req.ctx req.data).2.2

/-- What the receive `<-s.newSlotSub` yields while the broker sends nothing: a
closed mailbox yields at once the zero value of its element type, the nil
pointer; an open mailbox yields nothing and the case does not fire. -/
def receiveIdle (w : broker.World (Event Slot)) (sub : broker.Client) : Option Received :=
  if w.chans[sub]? = some true then some (Received.event none) else none

/-- The slot broker with the mailbox of the service as its one subscriber. -/
def exSlotFeed : broker.World (Event Slot) :=
  { b := { name := "slots", clients := [0], msgs := [], cap := 1, timeout := 1 },
    chans := [false], trace := [] }

/-- The slot broker after its loop was cancelled, or after the mailbox of the
service was unsubscribed: the mailbox is closed and removed. -/
def exSlotFeedClosed : broker.World (Event Slot) :=
  { b := { name := "slots", clients := [], msgs := [], cap := 1, timeout := 1 },
    chans := [true], trace := [broker.Effect.closed 0] }

end validator

namespace bytes

/-- Byte is Go's `byte`. -/
abbrev Byte := Fin 256

/-- Text is a `[]byte` that holds text, one character for each byte. -/
abbrev Text := List Char

/-- Error values of the package and of the hex codec it calls. -/
inductive Err where
  | missingPrefix : Err
  | oddLength : Err
  | invalidDigit : Err
  | incorrectLength : Nat → Nat → Err
  deriving DecidableEq, Repr

/-- The builtin `copy(dst, src)`: the contents of `dst` after the call, the first
`min(len(dst), len(src))` elements being those of `src`. -/
def copy {α : Type} (dst src : List α) : List α :=
  src.take dst.length ++ dst.drop src.length

/-- The value of a hexadecimal digit, of either case. -/
def hexVal (c : Char) : Option Nat :=
  if 48 ≤ c.toNat ∧ c.toNat ≤ 57 then some (c.toNat - 48)
  else if 97 ≤ c.toNat ∧ c.toNat ≤ 102 then some (c.toNat - 87)
  else if 65 ≤ c.toNat ∧ c.toNat ≤ 70 then some (c.toNat - 55)
  else none

/-- Whether the character is a hexadecimal digit. -/
def isHexDigit (c : Char) : Bool := (hexVal c).isSome

/-- The lowercase hexadecimal digit of a value below sixteen. -/
def hexDigit (n : Nat) : Char :=
  if n < 10 then Char.ofNat (48 + n) else Char.ofNat (87 + n)

/-- Decodes hexadecimal digits, two for each byte, the high digit first. -/
def decodePairs : Text → Except Err (List Byte)
  | [] => .ok []
  | [_] => .error Err.oddLength
  | hi :: lo :: rest =>
    match hexVal hi, hexVal lo with
    | some h, some l =>
      match decodePairs rest with
      | .ok bs => .ok (Fin.ofNat (16 * h + l) :: bs)
      | .error e => .error e
    | _, _ => .error Err.invalidDigit

/-- Modelled from the spec: `hex.UnmarshalByteText`, declared in another module
of the repository, decodes a text made of the prefix 0x followed by
hexadecimal digits, two for each byte; it fails on a text without the prefix,
with an odd number of digits or with a character that is not a hexadecimal
digit. -/
def UnmarshalByteText : Text → Except Err (List Byte)
  | '0' :: 'x' :: raw => decodePairs raw
  | _ => .error Err.missingPrefix

/-- Modelled from the spec: `hex.EncodeToString`, declared in another module of
the repository, gives the lowercase hexadecimal digits of the bytes in order,
two for each byte, the high digit first. -/
def EncodeToString (bs : List Byte) : Text :=
  bs.flatMap (fun b => [hexDigit (b.val / 16), hexDigit (b.val % 16)])

/-- The method `(*Bytes).UnmarshalText` with the decoder `hex.UnmarshalByteText`
as `decode`: the contents of `*b` after the call and the error returned. -/
def Bytes.UnmarshalText (decode : Text → Except Err (List Byte)) (b : List Byte)
    (input : Text) : List Byte × Option Err :=
  match decode input with
  | .error err => (b, some err)
  | .ok dec => (dec, none)

/-- The function `UnmarshalTextHelper`: the contents of `target` after the call
and the error returned. -/
def UnmarshalTextHelper (decode : Text → Except Err (List Byte)) (target : List Byte)
    (text : Text) : List Byte × Option Err :=
  match Bytes.UnmarshalText decode [] text with
  | (_, some err) => (target, some err)
  | (bz, none) =>
    if bz.length ≠ target.length then
      (target, some (Err.incorrectLength target.length bz.length))
    else (copy target bz, none)

/-- B32 is `type B32 [32]byte`. -/
structure B32 where
  bytes : List Byte
  size : bytes.length = 32
  deriving DecidableEq, Repr

/-- The zero value of `B32`. -/
def B32.zero : B32 := { bytes := List.replicate 32 0, size := by simp }

/-- The method `(B32).MarshalText`. -/
def B32.MarshalText (h : B32) : Text × Option Err :=
  ('0' :: 'x' :: EncodeToString h.bytes, none)

/-- The method `(*B32).UnmarshalText`, which passes the array as the target of
`UnmarshalTextHelper`: the array after the call and the error returned. -/
def B32.UnmarshalText (h : B32) (text : Text) : B32 × Option Err :=
  ({ bytes := (UnmarshalTextHelper UnmarshalByteText h.bytes text).1,
     size := by
       have hs := h.size
       unfold UnmarshalTextHelper
       split
       · exact hs
       · split
         · exact hs
         · rename_i hlen
           simp only [ne_eq, Decidable.not_not] at hlen
           simp [copy, hlen, hs] },
   (UnmarshalTextHelper UnmarshalByteText h.bytes text).2)

/-- The array of the valid input of `TestBytes32UnmarshalText` and
`TestBytes32MarshalText`: the bytes 1 to 32. -/
def exB32 : B32 :=
  { bytes := [1, 2, 3, 4, 5, 6, 7, 8, 9, 10, 11, 12, 13, 14, 15, 16, 17, 18, 19, 20, 21, 22,
      23, 24, 25, 26, 27, 28, 29, 30, 31, 32],
    size := by decide }

/-- The text of the valid input of `TestBytes32UnmarshalText`. -/
def exB32Text : Text :=
  "0x0102030405060708090a0b0c0d0e0f101112131415161718191a1b1c1d1e1f20".toList

/-- Whether the character is a lowercase hexadecimal digit, `0` to `9` or `a`
to `f`. -/
def isLowerHex (c : Char) : Bool :=
  decide ((48 ≤ c.toNat ∧ c.toNat ≤ 57) ∨ (97 ≤ c.toNat ∧ c.toNat ≤ 102))

/-- Slice is a `[]byte` value: nil (`none`) or a slice with the given contents. -/
abbrev Slice := Option (List Byte)

/-- The builtin `len` of a `[]byte`. -/
def Slice.len : Slice → Nat
  | none => 0
  | some bs => bs.length

/-- The elements of a `[]byte`, none for nil. -/
def Slice.elems : Slice → List Byte
  | none => []
  | some bs => bs

/-- Ways a call of the helpers ends without returning: the panic of a conversion
from slice to array on a slice that is too short (`sliceTooShort len need`),
the panics `makeslice: len out of range` of `make` and
`growslice: len out of range` of `append`, and the fatal error
`runtime: out of memory`, which ends the program. -/
inductive Abort where
  | sliceTooShort : Nat → Nat → Abort
  | makesliceLenOutOfRange : Abort
  | growsliceLenOutOfRange : Abort
  | outOfMemory : Abort
  deriving DecidableEq, Repr

/-- Answer of the runtime to a request for a block of memory: the block, the
panic `len out of range`, or the fatal error `out of memory`. -/
inductive Alloc where
  | granted : Alloc
  | lenOutOfRange : Alloc
  | outOfMemory : Alloc
  deriving DecidableEq, Repr

/-- Runtime is the part of the Go runtime that `make` and `append` depend on; it
is not code of the repository and is taken as a parameter.  `maxAlloc` is the
largest size in bytes of one block.  `makes n` is the answer to
`make([]byte, n)`: the panic exactly when `n` is above `maxAlloc`, otherwise
the block or, when memory is short, the fatal error.  `grows len newLen` is the
answer when `append` extends a slice of `len` bytes to `newLen` bytes; the
runtime decides it from the capacity of the slice, the size of the block it
would take and the memory left, and it answers with the panic for every length
above `maxAlloc`.  An extension to at most 32 bytes is always granted: it is
below every limit of the runtime, and memory for a block this small is taken to
be available, as for the other allocations of the package. -/
structure Runtime where
  maxAlloc : Nat
  makes : Nat → Alloc
  grows : Nat → Nat → Alloc
  makes_range : ∀ n, makes n = Alloc.lenOutOfRange ↔ maxAlloc < n
  grows_above : ∀ len newLen, maxAlloc < newLen → grows len newLen = Alloc.lenOutOfRange
  grows_small : ∀ len newLen, newLen ≤ 32 → grows len newLen = Alloc.granted

/-- The answer of a 64-bit port, where `maxAlloc` is `1 << 48`, on a machine
with memory for blocks of up to `1 << 30` bytes, to a request for `n` bytes. -/
def exAnswer (n : Nat) : Alloc :=
  if 281474976710656 < n then Alloc.lenOutOfRange
  else if n ≤ 1073741824 then Alloc.granted
  else Alloc.outOfMemory

/-- The runtime of a 64-bit port on a machine with memory for blocks of up to
`1 << 30` bytes. -/
def exRuntime : Runtime :=
  { maxAlloc := 281474976710656,
    makes := exAnswer,
    grows := fun _ newLen => exAnswer newLen,
    makes_range := fun n => by
      unfold exAnswer
      constructor
      · intro h
        by_cases h1 : 281474976710656 < n
        · exact h1
        · rw [if_neg h1] at h
          by_cases h2 : n ≤ 1073741824
          · rw [if_pos h2] at h
            cases h
          · rw [if_neg h2] at h
            cases h
      · intro h
        rw [if_pos h],
    grows_above := fun _ newLen h => by
      show exAnswer newLen = Alloc.lenOutOfRange
      unfold exAnswer
      rw [if_pos h],
    grows_small := fun _ newLen h => by
      show exAnswer newLen = Alloc.granted
      unfold exAnswer
      rw [if_neg (by omega), if_pos (by omega)] }

/-- The builtin `make([]byte, n)`: `n` zero bytes. -/
def makeslice (rt : Runtime) (n : Nat) : Except Abort (List Byte) :=
  match rt.makes n with
  | .granted => .ok (List.replicate n 0)
  | .lenOutOfRange => .error Abort.makesliceLenOutOfRange
  | .outOfMemory => .error Abort.outOfMemory

/-- The builtin `append(s, elems...)` on byte slices: with nothing to add the
slice is returned as it is, otherwise the slice is extended by the elements. -/
def append (rt : Runtime) (s elems : List Byte) : Except Abort (List Byte) :=
  if elems.length = 0 then .ok s
  else
    match rt.grows s.length (s.length + elems.length) with
    | .granted => .ok (s ++ elems)
    | .lenOutOfRange => .error Abort.growsliceLenOutOfRange
    | .outOfMemory => .error Abort.outOfMemory

/-- The function `ExtendToSize`; `length` is an `int`.  The compiler, with its
optimisations on, turns `append(slice, make([]byte, n)...)` into one extension
of `slice` by `n` zero bytes, with no slice of its own for the zeros, so the
panic of a length out of range is that of `append`; `n` is positive here. -/
def ExtendToSize (rt : Runtime) (slice : Slice) (length : Int) : Except Abort Slice :=
  if (slice.len : Int) ≥ length then .ok slice
  else
    match rt.grows slice.len length.toNat with
    | .granted =>
      .ok (some (slice.elems ++ List.replicate (length - (slice.len : Int)).toNat 0))
    | .lenOutOfRange => .error Abort.growsliceLenOutOfRange
    | .outOfMemory => .error Abort.outOfMemory

/-- The function `PrependExtendToSize`: `make` gives the zero bytes, which come
first, and `append` extends them by the elements of `slice`. -/
def PrependExtendToSize (rt : Runtime) (slice : Slice) (length : Int) : Except Abort Slice :=
  if (slice.len : Int) ≥ length then .ok slice
  else
    match makeslice rt (length - (slice.len : Int)).toNat with
    | .error p => .error p
    | .ok zeros =>
      match append rt zeros slice.elems with
      | .error p => .error p
      | .ok bs => .ok (some bs)

/-- The conversion `B32(s)` of a slice to an array: the first 32 elements; it
panics when the slice holds fewer. -/
def toB32 (s : Slice) : Except Abort B32 :=
  if h : 32 ≤ s.elems.length then
    .ok { bytes := s.elems.take 32, size := by simp [List.length_take]; omega }
  else .error (Abort.sliceTooShort s.elems.length 32)

/-- The function `ToBytes32`: `B32(ExtendToSize(input, B32Size))`. -/
def ToBytes32 (rt : Runtime) (input : Slice) : Except Abort B32 :=
  match ExtendToSize rt input 32 with
  | .error p => .error p
  | .ok s => toB32 s

/-- The function `SafeCopy`.  A slice of 32 bytes is copied into a zeroed
`[32]byte` and the array is sliced; any other non-nil slice is copied into
`make([]byte, len(src))`. -/
def SafeCopy : Slice → Slice
  | none => none
  | some src =>
    if src.length = 32 then some (copy (List.replicate 32 0) src)
    else some (copy (List.replicate src.length 0) src)

/-- The loop `for i, s := range src { copied[i] = SafeCopy(s) }` from index `i`
on. -/
def copyRows : List Slice → Nat → List Slice → List Slice
  | [], _, copied => copied
  | s :: rest, i, copied => copyRows rest (i + 1) (copied.set i (SafeCopy s))

/-- The function `SafeCopy2D`; `make([][]byte, n)` gives `n` nil slices. -/
def SafeCopy2D : Option (List Slice) → Option (List Slice)
  | none => none
  | some src => some (copyRows src 0 (List.replicate src.length none))

/-- The exchange `copied[i], copied[j] = copied[j], copied[i]`. -/
def swap (copied : List Byte) (i j : Nat) : List Byte :=
  (copied.set i (copied.getD j 0)).set j (copied.getD i 0)

/-- The loop `for i, j := 0, len(copied)-1; i < j; i, j = i+1, j-1` of
`CopyAndReverseEndianess` from the indices `i` and `j` on. -/
def reverseLoop (copied : List Byte) (i j : Nat) : List Byte :=
  if i < j then reverseLoop (swap copied i j) (i + 1) (j - 1) else copied
termination_by j - i

/-- The function `CopyAndReverseEndianess`: the contents of `input` after the
call, which the function never writes, and the slice returned.  For an empty
input `len(copied)-1` is negative and the loop does not run, as here. -/
def CopyAndReverseEndianess (input : Slice) : Slice × Slice :=
  (input,
   some (reverseLoop (copy (List.replicate input.len 0) input.elems) 0 (input.len - 1)))

end bytes

namespace consensusprimitives

open bytes (Byte Err)

/-- Modelled from the spec: the struct `DepositMessage` is declared in another
file of the package; its fields are a `Pubkey` of 48 bytes, `Credentials` of
32 bytes and an `Amount` of 64 bits, the sizes that `UnmarshalSSZ` and
`SizeSSZ` of the generated file use. -/
structure DepositMessage where
  Pubkey : List Byte
  Credentials : List Byte
  Amount : Nat
  pubkeySize : Pubkey.length = 48
  credentialsSize : Credentials.length = 32
  amountBound : Amount < 2 ^ 64

/-- The function `ssz.MarshalUint64` of the library fastssz: it puts the eight
bytes of `i`, the least significant first, after the bytes of `dst`. -/
def MarshalUint64 (dst : List Byte) (i : Nat) : List Byte :=
  dst ++ (List.range 8).map (fun k => Fin.ofNat ((i % 2 ^ 64) / 256 ^ k % 256))

/-- The unsigned integer that bytes encode, the least significant first. -/
def littleEndian : List Byte → Nat
  | [] => 0
  | b :: rest => b.val + 256 * littleEndian rest

/-- The method `(*DepositMessage).MarshalSSZTo`. -/
def DepositMessage.MarshalSSZTo (d : DepositMessage) (buf : List Byte) :
    List Byte × Option Err :=
  (MarshalUint64 ((buf ++ d.Pubkey) ++ d.Credentials) d.Amount, none)

/-- The method `(*DepositMessage).SizeSSZ`. -/
def DepositMessage.SizeSSZ (_d : DepositMessage) : Nat := 88

/-- A deposit message with a key of bytes 1, credentials of bytes 2 and the
amount 32000000000. -/
def exDeposit : DepositMessage :=
  { Pubkey := List.replicate 48 1, Credentials := List.replicate 32 2,
    Amount := 32000000000,
    pubkeySize := by simp, credentialsSize := by simp, amountBound := by norm_num }

end consensusprimitives

/-! ## Properties of the broker -/

namespace broker

variable {T : Type}

theorem Publish_of_hasRoom (w : World T) (msg : T) (wait : List (World T))
    (h : hasRoom w = true) :
    Publish w msg wait = ({ w with b := { w.b with msgs := w.b.msgs ++ [msg] } }, none) := by
  cases wait <;> simp [Publish, h]

theorem Publish_full_nil (w : World T) (msg : T) (h : hasRoom w = false) :
    Publish w msg [] = (w, some Error.ErrTimeout) := by
  simp [Publish, h]

theorem Publish_full_cons (w : World T) (msg : T) (x : World T) (l : List (World T))
    (h : hasRoom w = false) :
    Publish w msg (x :: l) = Publish x msg l := by
  simp [Publish, h]

theorem Publish_spec (msg : T) (wait : List (World T)) (w : World T) :
    ((Publish w msg wait).2 = none ∧
      ∃ pre x post, w :: wait = pre ++ x :: post ∧ (∀ y ∈ pre, hasRoom y = false) ∧
        hasRoom x = true ∧
        (Publish w msg wait).1 = { x with b := { x.b with msgs := x.b.msgs ++ [msg] } }) ∨
    ((Publish w msg wait).2 = some Error.ErrTimeout ∧
      (∀ x ∈ w :: wait, hasRoom x = false) ∧
      (Publish w msg wait).1 = (w :: wait).getLast (List.cons_ne_nil w wait)) := by
  induction wait generalizing w with
  | nil =>
    cases h : hasRoom w
    · right
      simp [Publish_full_nil w msg h, h]
    · left
      refine ⟨by simp [Publish_of_hasRoom w msg [] h], [], w, [], rfl, by simp, h, ?_⟩
      simp [Publish_of_hasRoom w msg [] h]
  | cons x l ih =>
    cases h : hasRoom w
    · rw [Publish_full_cons w msg x l h]
      rcases ih x with ⟨h1, pre, y, post, e, hpre, hy, hr⟩ | ⟨h1, hall, hr⟩
      · left
        refine ⟨h1, w :: pre, y, post, by simp [e], ?_, hy, hr⟩
        intro z hz
        rcases List.mem_cons.mp hz with rfl | hz
        · exact h
        · exact hpre z hz
      · right
        refine ⟨h1, ?_, ?_⟩
        · intro z hz
          rcases List.mem_cons.mp hz with rfl | hz
          · exact h
          · exact hall z hz
        · rw [hr]; simp [List.getLast_cons]
    · left
      refine ⟨by simp [Publish_of_hasRoom w msg _ h], [], w, x :: l, rfl, by simp, h, ?_⟩
      simp [Publish_of_hasRoom w msg _ h]

/-- Publish over a wait is Publish at one instant of the wait: the instant its
select fires.  A schedule therefore lists each Publish at that instant. -/
theorem Publish_at_instant (msg : T) (wait : List (World T)) (w : World T) :
    ∃ x ∈ w :: wait, Publish w msg wait = Publish x msg [] := by
  induction wait generalizing w with
  | nil => exact ⟨w, by simp, rfl⟩
  | cons y l ih =>
    cases h : hasRoom w
    · obtain ⟨x, hx, e⟩ := ih y
      exact ⟨x, List.mem_cons_of_mem _ hx, by rw [Publish_full_cons w msg y l h, e]⟩
    · exact ⟨w, by simp, by
        rw [Publish_of_hasRoom w msg _ h, Publish_of_hasRoom w msg [] h]⟩

theorem Publish_result_cases (msg : T) (wait : List (World T)) (w : World T) :
    (Publish w msg wait).2 = none ∨ (Publish w msg wait).2 = some Error.ErrTimeout := by
  rcases Publish_spec msg wait w with ⟨h, _⟩ | ⟨h, _⟩
  · exact Or.inl h
  · exact Or.inr h

theorem hasRoom_eq_false_iff (w : World T) :
    hasRoom w = false ↔ w.b.cap ≤ w.b.msgs.length := by
  simp [hasRoom]

/-- C1: Publish returns nil exactly when the message was appended at the tail of
the intake queue, which happens at the first instant of the wait at which the
queue has room; it returns ErrTimeout exactly when the queue was full at every
instant of the wait, and then the world is the one the wait ended in, with the
queue untouched by Publish; a Publish made when the queue has a free slot
returns nil and appends its message. -/
theorem Publish_nil_iff_appended (w : World T) (msg : T) (wait : List (World T)) :
    ((Publish w msg wait).2 = none ∨ (Publish w msg wait).2 = some Error.ErrTimeout) ∧
    ((Publish w msg wait).2 = none ↔
      ∃ pre x post, w :: wait = pre ++ x :: post ∧ (∀ y ∈ pre, y.b.cap ≤ y.b.msgs.length) ∧
        x.b.msgs.length < x.b.cap ∧
        (Publish w msg wait).1 = { x with b := { x.b with msgs := x.b.msgs ++ [msg] } }) ∧
    ((Publish w msg wait).2 = some Error.ErrTimeout ↔
      ∀ x ∈ w :: wait, x.b.cap ≤ x.b.msgs.length) ∧
    ((Publish w msg wait).2 = some Error.ErrTimeout →
      (Publish w msg wait).1 = (w :: wait).getLast (List.cons_ne_nil w wait)) ∧
    (∀ (w2 : World T) (msg2 : T) (wait2 : List (World T)), w2.b.msgs.length < w2.b.cap →
      (Publish w2 msg2 wait2).2 = none ∧
      (Publish w2 msg2 wait2).1.b.msgs = w2.b.msgs ++ [msg2]) := by
  refine ⟨Publish_result_cases msg wait w, ?_, ?_, ?_, ?_⟩
  · constructor
    · intro h
      rcases Publish_spec msg wait w with ⟨_, pre, x, post, e, hpre, hx, hr⟩ | ⟨h2, _⟩
      · refine ⟨pre, x, post, e, ?_, ?_, hr⟩
        · intro y hy
          exact (hasRoom_eq_false_iff y).mp (hpre y hy)
        · simpa [hasRoom] using hx
      · rw [h] at h2; cases h2
    · rintro ⟨pre, x, post, e, _, hx, _⟩
      rcases Publish_spec msg wait w with ⟨h1, _⟩ | ⟨_, hall, _⟩
      · exact h1
      · have hx2 : hasRoom x = false := hall x (by rw [e]; simp)
        have := (hasRoom_eq_false_iff x).mp hx2
        omega
  · constructor
    · intro h
      rcases Publish_spec msg wait w with ⟨h1, _⟩ | ⟨_, hall, _⟩
      · rw [h] at h1; cases h1
      · intro x hx
        exact (hasRoom_eq_false_iff x).mp (hall x hx)
    · intro hall
      rcases Publish_spec msg wait w with ⟨_, pre, x, post, e, _, hx, _⟩ | ⟨h2, _⟩
      · have hx2 := hall x (by rw [e]; simp)
        have hx3 : x.b.msgs.length < x.b.cap := by simpa [hasRoom] using hx
        omega
      · exact h2
  · intro h
    rcases Publish_spec msg wait w with ⟨h1, _⟩ | ⟨_, _, hr⟩
    · rw [h] at h1; cases h1
    · exact hr
  · intro w2 msg2 wait2 h
    have hr : hasRoom w2 = true := by simpa [hasRoom] using h
    simp [Publish_of_hasRoom w2 msg2 wait2 hr]

/-- C9: the result of Publish is nil or ErrTimeout and depends on the occupancy
of the intake queue only: two waits that agree on the length and the capacity
of the queue at every instant give the same result, whatever the registries,
the channels and the record of deliveries are. -/
theorem Publish_result_of_occupancy (w1 w2 : World T) (msg : T) (wait1 wait2 : List (World T))
    (h : (w1 :: wait1).map (fun x => (x.b.msgs.length, x.b.cap)) =
      (w2 :: wait2).map (fun x => (x.b.msgs.length, x.b.cap))) :
    (Publish w1 msg wait1).2 = (Publish w2 msg wait2).2 ∧
    ((Publish w1 msg wait1).2 = none ∨ (Publish w1 msg wait1).2 = some Error.ErrTimeout) := by
  refine ⟨?_, Publish_result_cases msg wait1 w1⟩
  induction wait1 generalizing w1 w2 wait2 with
  | nil =>
    cases wait2 with
    | nil =>
      simp at h
      simp [Publish, hasRoom, h.1, h.2]
      split <;> rfl
    | cons x l => simp at h
  | cons y l1 ih =>
    cases wait2 with
    | nil => simp at h
    | cons x l2 =>
      simp only [List.map_cons, List.cons.injEq, Prod.mk.injEq] at h
      obtain ⟨⟨h1, h2⟩, h3, h4⟩ := h
      have hr : hasRoom w1 = hasRoom w2 := by simp [hasRoom, h1, h2]
      cases hw : hasRoom w2
      · rw [Publish_full_cons w1 msg y l1 (hr.trans hw), Publish_full_cons w2 msg x l2 hw]
        apply ih
        simp only [List.map_cons, List.cons.injEq, Prod.mk.injEq]
        exact ⟨h3, h4⟩
      · rw [Publish_of_hasRoom w1 msg _ (hr.trans hw), Publish_of_hasRoom w2 msg _ hw]

/-- Witness of C9: a world with a registered mailbox and an abandoned delivery on
record and a world with no mailbox, both with a full queue. -/
theorem Publish_result_of_occupancy_witness :
    (exFullA :: []).map (fun x => (x.b.msgs.length, x.b.cap)) =
      (exFullB :: []).map (fun x => (x.b.msgs.length, x.b.cap)) ∧
    ((Publish exFullA 3 []).2 = (Publish exFullB 3 []).2 ∧
      ((Publish exFullA 3 []).2 = none ∨ (Publish exFullA 3 []).2 = some Error.ErrTimeout)) :=
  ⟨by decide, Publish_result_of_occupancy exFullA exFullB 3 [] [] (by decide)⟩

/-- C4: Subscribe returns a nil error and a mailbox that is open, that was not in
the registry before the call (the registry refers only to channels made
earlier) and is in it after the call; every mailbox registered before is still
registered, no other channel changes and the intake queue is unchanged. -/
theorem Subscribe_registers_fresh (w : World T)
    (halloc : ∀ c ∈ w.b.clients, c < w.chans.length) :
    (Subscribe w).2.2 = none ∧
    (Subscribe w).1.chans[(Subscribe w).2.1]? = some false ∧
    (Subscribe w).2.1 ∉ w.b.clients ∧
    (Subscribe w).2.1 ∈ (Subscribe w).1.b.clients ∧
    (∀ c ∈ w.b.clients, c ∈ (Subscribe w).1.b.clients) ∧
    (∀ c, c ∈ (Subscribe w).1.b.clients → c = (Subscribe w).2.1 ∨ c ∈ w.b.clients) ∧
    (∀ c, c < w.chans.length → (Subscribe w).1.chans[c]? = w.chans[c]?) ∧
    (Subscribe w).1.b.msgs = w.b.msgs := by
  have hfresh : w.chans.length ∉ w.b.clients := fun h => Nat.lt_irrefl _ (halloc _ h)
  refine ⟨rfl, ?_, hfresh, ?_, ?_, ?_, ?_, rfl⟩
  · simp [Subscribe]
  · simp [Subscribe]
  · intro c hc
    simp [Subscribe, hc]
  · intro c hc
    simpa [Subscribe] using hc
  · intro c hc
    simp [Subscribe, List.getElem?_append_left hc]

/-- Witness of C4 on a world with two registered mailboxes. -/
theorem Subscribe_registers_fresh_witness :
    (∀ c ∈ exThree.b.clients, c < exThree.chans.length) ∧
    (Subscribe exThree).2.1 = 3 ∧ (Subscribe exThree).2.1 ∉ exThree.b.clients :=
  ⟨by decide, rfl, (Subscribe_registers_fresh exThree (by decide)).2.2.1⟩

theorem Unsubscribe_open (w : World T) (c : Client) (hopen : w.chans[c]? = some false) :
    Unsubscribe w c = .ok
      { b := { w.b with clients := w.b.clients.filter (fun k => k ≠ c) },
        chans := w.chans.set c true, trace := w.trace ++ [Effect.closed c] } := by
  simp [Unsubscribe, chanClose, hopen]

theorem Unsubscribe_closed (w : World T) (c : Client) (hclosed : w.chans[c]? = some true) :
    Unsubscribe w c = .error (Panic.closeOfClosedChannel,
      { w with b := { w.b with clients := w.b.clients.filter (fun k => k ≠ c) } }) := by
  simp [Unsubscribe, chanClose, hclosed]

theorem Unsubscribe_nil (w : World T) (c : Client) (hnil : w.chans[c]? = none) :
    Unsubscribe w c = .error (Panic.closeOfNilChannel,
      { w with b := { w.b with clients := w.b.clients.filter (fun k => k ≠ c) } }) := by
  simp only [Unsubscribe, chanClose]
  rw [hnil]

theorem filter_ne_of_not_mem (l : List Client) (c : Client) (h : c ∉ l) :
    l.filter (fun k => k ≠ c) = l := by
  apply List.filter_eq_self.mpr
  intro a ha
  have : a ≠ c := fun e => h (e ▸ ha)
  simp [this]

/-- C5: Unsubscribe of a registered open mailbox returns normally, leaves that
mailbox absent from the registry and closed, closes it once, and leaves the
registration and the open or closed status of every other mailbox and the
intake queue unchanged. -/
theorem Unsubscribe_registered_open (w : World T) (c : Client)
    (_hreg : c ∈ w.b.clients) (hopen : w.chans[c]? = some false) :
    ∃ w1, Unsubscribe w c = .ok w1 ∧
      c ∉ w1.b.clients ∧
      w1.chans[c]? = some true ∧
      w1.trace = w.trace ++ [Effect.closed c] ∧
      (∀ d, d ≠ c → ((d ∈ w1.b.clients ↔ d ∈ w.b.clients) ∧ w1.chans[d]? = w.chans[d]?)) ∧
      w1.b.msgs = w.b.msgs := by
  have hlt : c < w.chans.length := by
    rcases List.getElem?_eq_some_iff.mp hopen with ⟨h, _⟩
    exact h
  refine ⟨_, Unsubscribe_open w c hopen, ?_, ?_, rfl, ?_, rfl⟩
  · simp
  · simp [List.getElem?_set, hlt]
  · intro d hd
    refine ⟨?_, ?_⟩
    · simp [hd]
    · simp [List.getElem?_set, Ne.symm hd]

/-- Witness of C5: mailbox 2 of a world with two registered mailboxes. -/
theorem Unsubscribe_registered_open_witness :
    (2 ∈ exThree.b.clients ∧ exThree.chans[2]? = some false) ∧
    ∃ w1, Unsubscribe exThree 2 = .ok w1 ∧ 2 ∉ w1.b.clients ∧ w1.chans[2]? = some true :=
  ⟨by decide,
    (Unsubscribe_registered_open exThree 2 (by decide) (by decide)).imp
      (fun _ h => ⟨h.1, h.2.1, h.2.2.1⟩)⟩

theorem forRange_sendOrTimeout (msg : T) (ready : Client → Bool) (keys : List Client)
    (w : World T) (hk : ∀ c ∈ keys, c ∈ w.b.clients)
    (hopen : ∀ c ∈ w.b.clients, w.chans[c]? = some false) :
    forRange (sendOrTimeout msg ready) keys w =
      .ok { w with trace := w.trace ++ keys.map (attempt msg ready) } := by
  induction keys generalizing w with
  | nil => simp [forRange]
  | cons c rest ih =>
    have hc : c ∈ w.b.clients := hk c (by simp)
    have hs : sendOrTimeout msg ready w c =
        .ok { w with trace := w.trace ++ [attempt msg ready c] } := by
      simp only [sendOrTimeout, hopen c hc, attempt]
      split <;> rfl
    simp only [forRange, hc, if_true, hs]
    have h2 := ih { w with trace := w.trace ++ [attempt msg ready c] }
      (fun d hd => hk d (by simp [hd])) hopen
    rw [h2]
    simp

theorem forRange_Unsubscribe (keys : List Client) (w : World T) (hnd : keys.Nodup)
    (hk : ∀ c ∈ keys, c ∈ w.b.clients ∧ w.chans[c]? = some false) :
    ∃ w1, forRange Unsubscribe keys w = .ok w1 ∧
      w1.b = { w.b with clients := w.b.clients.filter (fun k => k ∉ keys) } ∧
      w1.trace = w.trace ++ keys.map Effect.closed ∧
      ∀ d, w1.chans[d]? = if d ∈ keys then some true else w.chans[d]? := by
  induction keys generalizing w with
  | nil => exact ⟨w, by simp [forRange], by simp, by simp, by simp⟩
  | cons c rest ih =>
    obtain ⟨hc, hopen⟩ := hk c (by simp)
    have hlt : c < w.chans.length := (List.getElem?_eq_some_iff.mp hopen).1
    have hcr : c ∉ rest := (List.nodup_cons.mp hnd).1
    have hk2 : ∀ d ∈ rest,
        d ∈ (w.b.clients.filter (fun k => k ≠ c)) ∧ (w.chans.set c true)[d]? = some false := by
      intro d hd
      have hne : d ≠ c := fun e => hcr (e ▸ hd)
      obtain ⟨h1, h2⟩ := hk d (by simp [hd])
      refine ⟨by simp [h1, hne], ?_⟩
      simp [List.getElem?_set, Ne.symm hne, h2]
    obtain ⟨w1, hrun, hb, htr, hch⟩ := ih
      { b := { w.b with clients := w.b.clients.filter (fun k => k ≠ c) },
        chans := w.chans.set c true, trace := w.trace ++ [Effect.closed c] }
      (List.nodup_cons.mp hnd).2 hk2
    refine ⟨w1, ?_, ?_, ?_, ?_⟩
    · simp only [forRange, hc, if_true, Unsubscribe_open w c hopen]
      exact hrun
    · rw [hb]
      simp only [List.filter_filter, List.mem_cons, not_or]
      congr 1
      apply List.filter_congr
      intro k _
      simp [Bool.and_comm]
    · rw [htr]; simp
    · intro d
      rw [hch d]
      by_cases hd : d ∈ rest
      · simp [hd]
      · by_cases hdc : d = c
        · subst hdc
          simp [hd, List.getElem?_set, hlt]
        · simp [hd, hdc, List.getElem?_set, Ne.symm hdc]

theorem closes_append (c : Client) (a b : List (Effect T)) :
    closes c (a ++ b) = closes c a + closes c b := by
  simp [closes, List.countP_append]

theorem closes_map_closed (c : Client) (keys : List Client) :
    closes c (keys.map (Effect.closed : Client → Effect T)) = keys.count c := by
  induction keys with
  | nil => simp [closes]
  | cons k rest ih =>
    simp only [closes, List.map_cons, List.countP_cons, List.count_cons] at ih ⊢
    rw [ih]
    by_cases h : k = c <;> simp [isClosed, h]

theorem startIter_ctxDone_ok (w : World T) (o : IterOrder) (hinv : Inv w) :
    ∃ w1, startIter w (.ctxDone o) = .ok (Loop.returned, w1) ∧
      w1.b = { w.b with clients := [] } ∧
      w1.trace = w.trace ++ (o.pick w.b.clients).map Effect.closed ∧
      ∀ d, w1.chans[d]? = if d ∈ w.b.clients then some true else w.chans[d]? := by
  have hp := o.perm w.b.clients
  have hnd : (o.pick w.b.clients).Nodup := hp.nodup_iff.mpr hinv.1
  have hk : ∀ c ∈ o.pick w.b.clients, c ∈ w.b.clients ∧ w.chans[c]? = some false := by
    intro c hc
    have hc2 : c ∈ w.b.clients := hp.mem_iff.mp hc
    exact ⟨hc2, hinv.2 c hc2⟩
  obtain ⟨w1, hrun, hb, htr, hch⟩ := forRange_Unsubscribe (o.pick w.b.clients) w hnd hk
  refine ⟨w1, by simp [startIter, hrun], ?_, htr, ?_⟩
  · rw [hb]
    have : w.b.clients.filter (fun k => k ∉ o.pick w.b.clients) = [] := by
      simp only [List.filter_eq_nil_iff]
      intro c hc
      simp [hp.mem_iff.mpr hc]
    rw [this]
  · intro d
    rw [hch d]
    simp only [hp.mem_iff]

/-- C7: in a world whose registered mailboxes are distinct and open, the
cancellation case of the loop returns without a panic and ends the loop; it
closes each registered mailbox once, in the order of the iteration, and leaves
the registry empty; a mailbox that is not registered, such as one unsubscribed
earlier, is not closed again and keeps its status; the intake queue is
unchanged. -/
theorem cancellation_closes_each_once (w : World T) (o : IterOrder) (evs : List Select)
    (hinv : Inv w) :
    ∃ w1, startIter w (.ctxDone o) = .ok (Loop.returned, w1) ∧
      start w (.ctxDone o :: evs) = .ok (Loop.returned, w1) ∧
      w1.b.clients = [] ∧
      w1.trace = w.trace ++ (o.pick w.b.clients).map Effect.closed ∧
      w1.trace.length = w.trace.length + w.b.clients.length ∧
      (∀ c ∈ w.b.clients, closes c w1.trace = closes c w.trace + 1 ∧ w1.chans[c]? = some true) ∧
      (∀ c, c ∉ w.b.clients → closes c w1.trace = closes c w.trace ∧ w1.chans[c]? = w.chans[c]?) ∧
      w1.b.msgs = w.b.msgs := by
  have hp := o.perm w.b.clients
  have hnd : (o.pick w.b.clients).Nodup := hp.nodup_iff.mpr hinv.1
  obtain ⟨w1, hiter, hb, htr, hch⟩ := startIter_ctxDone_ok w o hinv
  refine ⟨w1, hiter, ?_, ?_, htr, ?_, ?_, ?_, ?_⟩
  · simp [start, hiter]
  · rw [hb]
  · rw [htr]
    simp [hp.length_eq]
  · intro c hc
    have hc2 : c ∈ o.pick w.b.clients := hp.mem_iff.mpr hc
    refine ⟨?_, ?_⟩
    · rw [htr, closes_append, closes_map_closed, List.count_eq_one_of_mem hnd hc2]
    · rw [hch c]; simp [hc]
  · intro c hc
    have hc2 : c ∉ o.pick w.b.clients := fun h => hc (hp.mem_iff.mp h)
    refine ⟨?_, ?_⟩
    · rw [htr, closes_append, closes_map_closed, List.count_eq_zero_of_not_mem hc2]
      rfl
    · rw [hch c]; simp [hc]
  · rw [hb]

/-- Witness of C7: two registered mailboxes and one unsubscribed earlier. -/
theorem cancellation_closes_each_once_witness :
    Inv exThree ∧
    ∃ w1, startIter exThree (.ctxDone orderReversed) = .ok (Loop.returned, w1) ∧
      w1.b.clients = [] ∧ closes 1 w1.trace = closes 1 exThree.trace :=
  ⟨⟨by decide, by decide⟩,
    (cancellation_closes_each_once exThree orderReversed [] ⟨by decide, by decide⟩).imp
      (fun _ h => ⟨h.1, h.2.2.1, (h.2.2.2.2.2.2.1 1 (by decide)).1⟩)⟩

theorem Unsubscribe_removed_closed (w : World T) (c : Client) (hnot : c ∉ w.b.clients)
    (hclosed : w.chans[c]? = some true) :
    Unsubscribe w c = .error (Panic.closeOfClosedChannel, w) := by
  rw [Unsubscribe_closed w c hclosed, filter_ne_of_not_mem _ _ hnot]

theorem Unsubscribe_ok_elim (w0 w : World T) (c : Client) (h : Unsubscribe w0 c = .ok w) :
    w0.chans[c]? = some false ∧
    w = { b := { w0.b with clients := w0.b.clients.filter (fun k => k ≠ c) },
          chans := w0.chans.set c true, trace := w0.trace ++ [Effect.closed c] } := by
  cases hc : w0.chans[c]? with
  | none => rw [Unsubscribe_nil w0 c hc] at h; cases h
  | some flag =>
    cases flag with
    | true => rw [Unsubscribe_closed w0 c hc] at h; cases h
    | false =>
      rw [Unsubscribe_open w0 c hc] at h
      injection h with h
      exact ⟨rfl, h.symm⟩

/-- Counterexample to C6: after `New`, one Subscribe and one Unsubscribe of the
mailbox it returned, a second Unsubscribe of that mailbox panics with
`close of closed channel`. -/
theorem Unsubscribe_twice_panics :
    Unsubscribe (Subscribe (World.init "slots" 4 1 : World Nat)).1 0 = .ok exUnsubscribed ∧
    Unsubscribe exUnsubscribed 0 = .error (Panic.closeOfClosedChannel, exUnsubscribed) ∧
    Unsubscribe exUnsubscribed 0 ≠ .ok exUnsubscribed := by
  refine ⟨rfl, rfl, ?_⟩
  intro h
  cases h

theorem forRange_holds (P : World T → Prop) (body : World T → Client → Res T (World T))
    (hbody : ∀ w c, P w → Holds P (body w c)) (keys : List Client) (w : World T) (h : P w) :
    Holds P (forRange body keys w) := by
  induction keys generalizing w with
  | nil => simpa [forRange, Holds] using h
  | cons c rest ih =>
    simp only [forRange]
    split
    · have hb := hbody w c h
      cases hr : body w c with
      | ok w1 =>
        rw [hr] at hb
        exact ih w1 hb
      | error e =>
        rw [hr] at hb
        exact hb
    · exact ih w h

theorem Removed_Subscribe (c : Client) (w : World T) (h : Removed c w) :
    Removed c (Subscribe w).1 := by
  obtain ⟨h1, h2⟩ := h
  have hlt : c < w.chans.length := (List.getElem?_eq_some_iff.mp h2).1
  refine ⟨?_, ?_⟩
  · simp only [Subscribe, List.mem_insert_iff, not_or]
    exact ⟨Nat.ne_of_lt hlt, h1⟩
  · simp only [Subscribe]
    rw [List.getElem?_append_left hlt]
    exact h2

theorem Removed_Unsubscribe (c d : Client) (w : World T) (h : Removed c w) :
    Holds (Removed c) (Unsubscribe w d) := by
  obtain ⟨h1, h2⟩ := h
  have hf : c ∉ w.b.clients.filter (fun k => k ≠ d) := fun hm => h1 (List.mem_filter.mp hm).1
  cases hd : w.chans[d]? with
  | none => rw [Unsubscribe_nil w d hd]; exact ⟨hf, h2⟩
  | some flag =>
    cases flag with
    | true => rw [Unsubscribe_closed w d hd]; exact ⟨hf, h2⟩
    | false =>
      rw [Unsubscribe_open w d hd]
      have hne : d ≠ c := by
        rintro rfl
        rw [hd] at h2
        cases h2
      refine ⟨hf, ?_⟩
      simp only [List.getElem?_set, hne, if_false]
      exact h2

theorem Removed_sendOrTimeout (c : Client) (msg : T) (ready : Client → Bool) (w : World T)
    (d : Client) (h : Removed c w) : Holds (Removed c) (sendOrTimeout msg ready w d) := by
  simp only [sendOrTimeout]
  split
  · exact h
  · split
    · exact h
    · exact h
  · exact h

theorem Removed_startIter (c : Client) (w : World T) (ev : Select) (h : Removed c w) :
    HoldsIter (Removed c) (startIter w ev) := by
  cases ev with
  | ctxDone o =>
    have hf := forRange_holds (Removed c) Unsubscribe
      (fun w d hw => Removed_Unsubscribe c d w hw) (o.pick w.b.clients) w h
    simp only [startIter]
    cases hr : forRange Unsubscribe (o.pick w.b.clients) w with
    | ok w1 => rw [hr] at hf; exact hf
    | error e => rw [hr] at hf; exact hf
  | recvMsg o ready =>
    simp only [startIter]
    cases hq : w.b.msgs with
    | nil => exact h
    | cons msg rest =>
      have h0 : Removed c ({ w with b := { w.b with msgs := rest } } : World T) := h
      have hf := forRange_holds (Removed c) (sendOrTimeout msg ready)
        (fun w d hw => Removed_sendOrTimeout c msg ready w d hw) (o.pick w.b.clients) _ h0
      simp only []
      cases hr : forRange (sendOrTimeout msg ready) (o.pick w.b.clients)
          { w with b := { w.b with msgs := rest } } with
      | ok w1 => rw [hr] at hf; exact hf
      | error e => rw [hr] at hf; exact hf

theorem Removed_run (c : Client) (acts : List (Action T)) (w : World T) (h : Removed c w) :
    Removed c (run w acts).world := by
  induction acts generalizing w with
  | nil => exact h
  | cons a rest ih =>
    cases a with
    | subscribe => exact ih _ (Removed_Subscribe c w h)
    | unsubscribe d =>
      have hu := Removed_Unsubscribe c d w h
      simp only [run]
      cases hr : Unsubscribe w d with
      | ok w1 => rw [hr] at hu; exact ih w1 hu
      | error e => rw [hr] at hu; exact hu
    | publish msg =>
      have hp : Removed c (Publish w msg []).1 := by
        simp only [Publish]
        split <;> exact h
      simp only [run]
      cases hr : Publish w msg [] with
      | mk w1 err =>
        rw [hr] at hp
        cases err with
        | none => exact ih w1 hp
        | some e => exact ih w1 hp
    | loop ev =>
      have hs := Removed_startIter c w ev h
      simp only [run]
      cases hr : startIter w ev with
      | ok p => rw [hr] at hs; exact ih p.2 hs
      | error e => rw [hr] at hs; exact hs

theorem Removed_of_Unsubscribe (c : Client) (w w1 : World T) (h : Unsubscribe w c = .ok w1) :
    Removed c w1 := by
  obtain ⟨hopen, rfl⟩ := Unsubscribe_ok_elim w w1 c h
  have hlt : c < w.chans.length := (List.getElem?_eq_some_iff.mp hopen).1
  exact ⟨by simp, by simp [List.getElem?_set, hlt]⟩

theorem Removed_of_forRange (c : Client) (keys : List Client) (w w1 : World T)
    (hrun : forRange Unsubscribe keys w = .ok w1) (hk : c ∈ keys) (hc : c ∈ w.b.clients) :
    Removed c w1 := by
  induction keys generalizing w with
  | nil => cases hk
  | cons k rest ih =>
    simp only [forRange] at hrun
    by_cases hkm : k ∈ w.b.clients
    · simp only [hkm, if_true] at hrun
      cases hu : Unsubscribe w k with
      | error e => rw [hu] at hrun; cases hrun
      | ok w2 =>
        rw [hu] at hrun
        simp only at hrun
        by_cases hck : c = k
        · subst hck
          have hf := forRange_holds (Removed c) Unsubscribe
            (fun w d hw => Removed_Unsubscribe c d w hw) rest w2 (Removed_of_Unsubscribe c w w2 hu)
          rw [hrun] at hf
          exact hf
        · have hcr : c ∈ rest := by
            rcases List.mem_cons.mp hk with h | h
            · exact absurd h hck
            · exact h
          obtain ⟨_, rfl⟩ := Unsubscribe_ok_elim w w2 k hu
          exact ih _ hrun hcr (by simp [hc, hck])
    · simp only [hkm, if_false] at hrun
      have hck : c ≠ k := fun e => hkm (e ▸ hc)
      have hcr : c ∈ rest := by
        rcases List.mem_cons.mp hk with h | h
        · exact absurd h hck
        · exact h
      exact ih w hrun hcr hc

/-- C6, amended: in every broker state, Unsubscribe of a mailbox that has been
removed from the registry and closed panics with `close of closed channel`;
nothing is returned and the world at the panic is the world of the call, so the
registry, the intake queue, the channels and the record are unchanged.  A
mailbox is removed and closed once an Unsubscribe of it has returned and once
the cancellation case of the loop, which found it registered, has returned;
it stays so along every later schedule of Subscribe, Unsubscribe, Publish and
iterations of the loop, in each world of which Unsubscribe of it panics in the
same way. -/
theorem Unsubscribe_again_panics (w : World T) (c : Client) :
    (c ∉ w.b.clients → w.chans[c]? = some true →
      Unsubscribe w c = .error (Panic.closeOfClosedChannel, w)) ∧
    (∀ w1, Unsubscribe w c = .ok w1 → c ∉ w1.b.clients ∧ w1.chans[c]? = some true) ∧
    (∀ o l w1, c ∈ w.b.clients → startIter w (.ctxDone o) = .ok (l, w1) →
      c ∉ w1.b.clients ∧ w1.chans[c]? = some true) ∧
    (c ∉ w.b.clients → w.chans[c]? = some true → ∀ acts : List (Action T),
      c ∉ (run w acts).world.b.clients ∧ (run w acts).world.chans[c]? = some true ∧
      Unsubscribe (run w acts).world c =
        .error (Panic.closeOfClosedChannel, (run w acts).world)) := by
  refine ⟨Unsubscribe_removed_closed w c, fun w1 h => Removed_of_Unsubscribe c w w1 h, ?_, ?_⟩
  · intro o l w1 hc hrun
    simp only [startIter] at hrun
    cases hf : forRange Unsubscribe (o.pick w.b.clients) w with
    | error e => rw [hf] at hrun; cases hrun
    | ok w2 =>
      rw [hf] at hrun
      injection hrun with hrun
      injection hrun with _ hw
      subst hw
      exact Removed_of_forRange c _ w w2 hf ((o.perm w.b.clients).mem_iff.mpr hc) hc
  · intro hnot hclosed acts
    obtain ⟨h1, h2⟩ := Removed_run c acts w ⟨hnot, hclosed⟩
    exact ⟨h1, h2, Unsubscribe_removed_closed _ c h1 h2⟩

/-- Witness of C6 as amended: after `New`, two Subscribe calls and an Unsubscribe
of the first mailbox, a Publish and a broadcast leave that mailbox removed and
closed, and Unsubscribe of it panics. -/
theorem Unsubscribe_again_panics_witness :
    (0 ∉ (run (World.init "slots" 4 1 : World Nat)
        [.subscribe, .subscribe, .unsubscribe 0]).world.b.clients ∧
      (run (World.init "slots" 4 1 : World Nat)
        [.subscribe, .subscribe, .unsubscribe 0]).world.chans[0]? = some true) ∧
    Unsubscribe (run (run (World.init "slots" 4 1 : World Nat)
        [.subscribe, .subscribe, .unsubscribe 0]).world
        [.publish 3, .loop (.recvMsg orderStored (fun _ => true))]).world 0 =
      .error (Panic.closeOfClosedChannel, (run (run (World.init "slots" 4 1 : World Nat)
        [.subscribe, .subscribe, .unsubscribe 0]).world
        [.publish 3, .loop (.recvMsg orderStored (fun _ => true))]).world) :=
  ⟨⟨by decide, by decide⟩,
    ((Unsubscribe_again_panics (run (World.init "slots" 4 1 : World Nat)
        [.subscribe, .subscribe, .unsubscribe 0]).world 0).2.2.2 (by decide) (by decide)
      [.publish 3, .loop (.recvMsg orderStored (fun _ => true))]).2.2⟩

theorem Good_of_same (w w1 : World T) (h : Good w) (hc : w1.b.clients = w.b.clients)
    (hch : w1.chans = w.chans) (htr : ∀ c, closes c w1.trace = closes c w.trace) : Good w1 := by
  refine ⟨⟨by rw [hc]; exact h.1.1, ?_⟩, ?_⟩
  · intro c hcm
    rw [hch]
    exact h.1.2 c (hc ▸ hcm)
  · intro c
    rw [htr c, hch]
    exact h.2 c

theorem Good_init (name : String) (size timeout : Nat) :
    Good (World.init name size timeout : World T) := by
  refine ⟨⟨by simp [World.init, New], by simp [World.init, New]⟩, ?_⟩
  intro c
  simp [World.init, closes]

theorem Good_Subscribe (w : World T) (h : Good w) : Good (Subscribe w).1 := by
  obtain ⟨⟨hnd, hopen⟩, hcl⟩ := h
  have hlt : ∀ c ∈ w.b.clients, c < w.chans.length := fun c hc =>
    (List.getElem?_eq_some_iff.mp (hopen c hc)).1
  refine ⟨⟨?_, ?_⟩, ?_⟩
  · exact hnd.insert
  · intro c hc
    simp only [Subscribe, List.mem_insert_iff] at hc
    rcases hc with rfl | hc
    · simp [Subscribe]
    · simp only [Subscribe]
      rw [List.getElem?_append_left (hlt c hc)]
      exact hopen c hc
  · intro c
    have h1 := hcl c
    simp only [Subscribe]
    rw [h1]
    have hx : (w.chans ++ [false])[c]? = some true ↔ w.chans[c]? = some true := by
      by_cases hc : c < w.chans.length
      · rw [List.getElem?_append_left hc]
      · have hge : w.chans.length ≤ c := Nat.le_of_not_lt hc
        have hn : w.chans[c]? = none := List.getElem?_eq_none_iff.mpr hge
        rw [hn]
        rcases Nat.eq_or_lt_of_le hge with heq | hgt
        · subst heq; simp
        · have : (w.chans ++ [false])[c]? = none :=
            List.getElem?_eq_none_iff.mpr (by simp; omega)
          rw [this]
    simp only [hx]

theorem closes_snoc_closed (c d : Client) (tr : List (Effect T)) :
    closes c (tr ++ [Effect.closed d]) = closes c tr + if d = c then 1 else 0 := by
  rw [closes_append]
  by_cases h : d = c <;> simp [closes, isClosed, h]

theorem closes_snoc_attempt (c d : Client) (msg : T) (ready : Client → Bool)
    (tr : List (Effect T)) :
    closes c (tr ++ [attempt msg ready d]) = closes c tr := by
  rw [closes_append]
  simp only [attempt]
  split <;> simp [closes, isClosed]

theorem Good_Unsubscribe (c : Client) (w : World T) (h : Good w) :
    Holds Good (Unsubscribe w c) := by
  obtain ⟨⟨hnd, hopen⟩, hcl⟩ := h
  have hfil : ∀ d ∈ w.b.clients.filter (fun k => k ≠ c), d ∈ w.b.clients ∧ d ≠ c := by
    intro d hd
    simpa using hd
  have hg : Good { w with b := { w.b with clients := w.b.clients.filter (fun k => k ≠ c) } } :=
    ⟨⟨hnd.filter _, fun d hd => hopen d (hfil d hd).1⟩, hcl⟩
  cases hc : w.chans[c]? with
  | none => rw [Unsubscribe_nil w c hc]; exact hg
  | some flag =>
    cases flag with
    | true => rw [Unsubscribe_closed w c hc]; exact hg
    | false =>
      rw [Unsubscribe_open w c hc]
      have hlt : c < w.chans.length := (List.getElem?_eq_some_iff.mp hc).1
      refine ⟨⟨hnd.filter _, ?_⟩, ?_⟩
      · intro d hd
        obtain ⟨hd1, hd2⟩ := hfil d hd
        simp only [List.getElem?_set, Ne.symm hd2, if_false]
        exact hopen d hd1
      · intro d
        simp only [closes_snoc_closed]
        have h1 := hcl d
        by_cases hdc : c = d
        · subst hdc
          rw [h1, hc]
          simp [List.getElem?_set, hlt]
        · rw [h1]
          simp [List.getElem?_set, hdc]

theorem Good_sendOrTimeout (msg : T) (ready : Client → Bool) (w : World T) (c : Client)
    (h : Good w) : Holds Good (sendOrTimeout msg ready w c) := by
  have key : ∀ e : Effect T, (∀ d, closes d (w.trace ++ [e]) = closes d w.trace) →
      Good { w with trace := w.trace ++ [e] } :=
    fun e he => Good_of_same w _ h rfl rfl he
  have hs : ∀ d, closes d (w.trace ++ [Effect.sent c msg]) = closes d w.trace := by
    intro d; rw [closes_append]; simp [closes, isClosed]
  have ht : ∀ d, closes d (w.trace ++ [Effect.timedOut c msg]) = closes d w.trace := by
    intro d; rw [closes_append]; simp [closes, isClosed]
  simp only [sendOrTimeout]
  split
  · exact h
  · split
    · exact key _ hs
    · exact key _ ht
  · exact key _ ht

theorem Good_Publish (w : World T) (msg : T) (h : Good w) : Good (Publish w msg []).1 := by
  simp only [Publish]
  split
  · exact Good_of_same w _ h rfl rfl (fun _ => rfl)
  · exact h

theorem Good_startIter (w : World T) (ev : Select) (h : Good w) :
    match startIter w ev with
    | .ok (_, w1) => Good w1
    | .error (_, w1) => Good w1 := by
  cases ev with
  | ctxDone o =>
    have hf := forRange_holds Good Unsubscribe (fun w c hw => Good_Unsubscribe c w hw)
      (o.pick w.b.clients) w h
    simp only [startIter]
    cases hr : forRange Unsubscribe (o.pick w.b.clients) w with
    | ok w1 => rw [hr] at hf; exact hf
    | error e => rw [hr] at hf; exact hf
  | recvMsg o ready =>
    simp only [startIter]
    cases hq : w.b.msgs with
    | nil => exact h
    | cons msg rest =>
      have h0 : Good ({ w with b := { w.b with msgs := rest } } : World T) :=
        Good_of_same w _ h rfl rfl (fun _ => rfl)
      have hf := forRange_holds Good (sendOrTimeout msg ready)
        (fun w c hw => Good_sendOrTimeout msg ready w c hw) (o.pick w.b.clients) _ h0
      simp only []
      cases hr : forRange (sendOrTimeout msg ready) (o.pick w.b.clients)
          { w with b := { w.b with msgs := rest } } with
      | ok w1 => rw [hr] at hf; exact hf
      | error e => rw [hr] at hf; exact hf

theorem Good_run (acts : List (Action T)) (w : World T) (h : Good w) :
    Good (run w acts).world := by
  induction acts generalizing w with
  | nil => exact h
  | cons a rest ih =>
    cases a with
    | subscribe => exact ih _ (Good_Subscribe w h)
    | unsubscribe c =>
      have hu := Good_Unsubscribe c w h
      simp only [run]
      cases hr : Unsubscribe w c with
      | ok w1 => rw [hr] at hu; exact ih w1 hu
      | error e => rw [hr] at hu; exact hu
    | publish msg =>
      have hp := Good_Publish w msg h
      simp only [run]
      cases hr : Publish w msg [] with
      | mk w1 err =>
        rw [hr] at hp
        cases err with
        | none => exact ih w1 hp
        | some e => exact ih w1 hp
    | loop ev =>
      have hs := Good_startIter w ev h
      simp only [run]
      cases hr : startIter w ev with
      | ok p => rw [hr] at hs; exact ih p.2 hs
      | error e => rw [hr] at hs; exact hs

theorem Ext_refl (w : World T) : Ext w w :=
  ⟨fun _ h => h, [], by simp, by simp⟩

theorem Ext_snoc (w0 w : World T) (e : Effect T) (h : Ext w0 w)
    (he : ∀ c m, e = Effect.sent c m → m ∈ w0.b.msgs) :
    Ext w0 { w with trace := w.trace ++ [e] } := by
  obtain ⟨hq, seg, htr, hs⟩ := h
  refine ⟨hq, seg ++ [e], by simp [htr], ?_⟩
  intro c m hm
  rcases List.mem_append.mp hm with hm | hm
  · exact hs c m hm
  · exact he c m (List.mem_singleton.mp hm).symm

theorem Ext_Unsubscribe (w0 : World T) (c : Client) (w : World T) (h : Ext w0 w) :
    Holds (Ext w0) (Unsubscribe w c) := by
  have h1 : Ext w0 { w with b := { w.b with clients := w.b.clients.filter (fun k => k ≠ c) } } :=
    h
  cases hc : w.chans[c]? with
  | none => rw [Unsubscribe_nil w c hc]; exact h1
  | some flag =>
    cases flag with
    | true => rw [Unsubscribe_closed w c hc]; exact h1
    | false =>
      rw [Unsubscribe_open w c hc]
      obtain ⟨hq, seg, htr, hs⟩ := h
      refine ⟨hq, seg ++ [Effect.closed c], by simp [htr], ?_⟩
      intro d m hm
      rcases List.mem_append.mp hm with hm | hm
      · exact hs d m hm
      · simp at hm

theorem Ext_sendOrTimeout (w0 : World T) (msg : T) (hmsg : msg ∈ w0.b.msgs)
    (ready : Client → Bool) (w : World T) (c : Client) (h : Ext w0 w) :
    Holds (Ext w0) (sendOrTimeout msg ready w c) := by
  have hs : Ext w0 { w with trace := w.trace ++ [Effect.sent c msg] } :=
    Ext_snoc w0 w _ h (fun d m e => by cases e; exact hmsg)
  have ht : Ext w0 { w with trace := w.trace ++ [Effect.timedOut c msg] } :=
    Ext_snoc w0 w _ h (fun d m e => by cases e)
  simp only [sendOrTimeout]
  split
  · exact h
  · split
    · exact hs
    · exact ht
  · exact ht

theorem Ext_startIter (w : World T) (ev : Select) :
    match startIter w ev with
    | .ok (_, w1) => Ext w w1
    | .error (_, w1) => Ext w w1 := by
  cases ev with
  | ctxDone o =>
    have hf := forRange_holds (Ext w) Unsubscribe (fun w1 c hw => Ext_Unsubscribe w c w1 hw)
      (o.pick w.b.clients) w (Ext_refl w)
    simp only [startIter]
    cases hr : forRange Unsubscribe (o.pick w.b.clients) w with
    | ok w1 => rw [hr] at hf; exact hf
    | error e => rw [hr] at hf; exact hf
  | recvMsg o ready =>
    simp only [startIter]
    cases hq : w.b.msgs with
    | nil => exact Ext_refl w
    | cons msg rest =>
      have hmsg : msg ∈ w.b.msgs := by rw [hq]; simp
      have h0 : Ext w ({ w with b := { w.b with msgs := rest } } : World T) :=
        ⟨fun m hm => by rw [hq]; exact List.mem_cons_of_mem _ hm, [], by simp, by simp⟩
      have hf := forRange_holds (Ext w) (sendOrTimeout msg ready)
        (fun w1 c hw => Ext_sendOrTimeout w msg hmsg ready w1 c hw) (o.pick w.b.clients) _ h0
      simp only []
      cases hr : forRange (sendOrTimeout msg ready) (o.pick w.b.clients)
          { w with b := { w.b with msgs := rest } } with
      | ok w1 => rw [hr] at hf; exact hf
      | error e => rw [hr] at hf; exact hf

theorem run_ext_step (w w1 : World T) (a : Action T) (rest : List (Action T)) (h : Ext w w1)
    (ih : ∃ seg, (run w1 rest).world.trace = w1.trace ++ seg ∧
      ∀ c m, Effect.sent c m ∈ seg → m ∈ w1.b.msgs ∨ Action.publish m ∈ rest) :
    ∃ seg, (run w1 rest).world.trace = w.trace ++ seg ∧
      ∀ c m, Effect.sent c m ∈ seg → m ∈ w.b.msgs ∨ Action.publish m ∈ a :: rest := by
  obtain ⟨hq, seg1, htr1, hs1⟩ := h
  obtain ⟨seg2, htr2, hs2⟩ := ih
  refine ⟨seg1 ++ seg2, by rw [htr2, htr1, List.append_assoc], ?_⟩
  intro c m hm
  rcases List.mem_append.mp hm with hm | hm
  · exact Or.inl (hs1 c m hm)
  · rcases hs2 c m hm with h2 | h2
    · exact Or.inl (hq m h2)
    · exact Or.inr (List.mem_cons_of_mem _ h2)

theorem run_publish_room (w : World T) (msg : T) (rest : List (Action T))
    (h : hasRoom w = true) :
    run w (.publish msg :: rest) =
      { world := (run { w with b := { w.b with msgs := w.b.msgs ++ [msg] } } rest).world,
        accepted := msg ::
          (run { w with b := { w.b with msgs := w.b.msgs ++ [msg] } } rest).accepted,
        panic := (run { w with b := { w.b with msgs := w.b.msgs ++ [msg] } } rest).panic } := by
  simp [run, Publish, h]

theorem run_publish_full (w : World T) (msg : T) (rest : List (Action T))
    (h : hasRoom w = false) :
    run w (.publish msg :: rest) = run w rest := by
  simp [run, Publish, h]

theorem run_sent_origin (acts : List (Action T)) (w : World T) :
    ∃ seg, (run w acts).world.trace = w.trace ++ seg ∧
      ∀ c m, Effect.sent c m ∈ seg → m ∈ w.b.msgs ∨ Action.publish m ∈ acts := by
  induction acts generalizing w with
  | nil => exact ⟨[], by simp [run], by simp⟩
  | cons a rest ih =>
    cases a with
    | subscribe =>
      exact run_ext_step w (Subscribe w).1 _ rest
        ⟨fun _ h => h, [], by simp [Subscribe], by simp⟩ (ih _)
    | unsubscribe c =>
      have hu := Ext_Unsubscribe w c w (Ext_refl w)
      simp only [run]
      cases hr : Unsubscribe w c with
      | ok w1 =>
        rw [hr] at hu
        exact run_ext_step w w1 _ rest hu (ih w1)
      | error e =>
        rw [hr] at hu
        obtain ⟨_, seg, htr, hs⟩ := hu
        exact ⟨seg, htr, fun c m hm => Or.inl (hs c m hm)⟩
    | publish msg =>
      cases hroom : hasRoom w with
      | true =>
        rw [run_publish_room w msg rest hroom]
        obtain ⟨seg, htr, hs⟩ := ih { w with b := { w.b with msgs := w.b.msgs ++ [msg] } }
        refine ⟨seg, htr, ?_⟩
        intro c m hm
        rcases hs c m hm with h2 | h2
        · rcases List.mem_append.mp h2 with h3 | h3
          · exact Or.inl h3
          · right
            rw [List.mem_singleton.mp h3]
            exact List.mem_cons_self _ _
        · exact Or.inr (List.mem_cons_of_mem _ h2)
      | false =>
        rw [run_publish_full w msg rest hroom]
        exact run_ext_step w w _ rest (Ext_refl w) (ih w)
    | loop ev =>
      have hs := Ext_startIter w ev
      simp only [run]
      cases hr : startIter w ev with
      | ok p =>
        rw [hr] at hs
        exact run_ext_step w p.2 _ rest hs (ih p.2)
      | error e =>
        rw [hr] at hs
        obtain ⟨_, seg, htr, hs2⟩ := hs
        exact ⟨seg, htr, fun c m hm => Or.inl (hs2 c m hm)⟩

theorem received_append (c : Client) (a b : List (Effect T)) :
    received c (a ++ b) = received c a ++ received c b := by
  simp [received, List.filterMap_append]

theorem deliveries_append (a b : List (Effect T)) :
    deliveries (a ++ b) = deliveries a + deliveries b := by
  simp [deliveries, List.countP_append]

theorem deliveriesTo_append (c : Client) (a b : List (Effect T)) :
    deliveriesTo c (a ++ b) = deliveriesTo c a + deliveriesTo c b := by
  simp [deliveriesTo, List.countP_append]

theorem received_attempt_cons (c k : Client) (msg : T) (ready : Client → Bool)
    (tr : List (Effect T)) :
    received c (attempt msg ready k :: tr) =
      (if k = c ∧ ready k = true then [msg] else []) ++ received c tr := by
  by_cases hk : k = c
  · subst hk
    cases hr : ready k <;> simp [received, attempt, hr, List.filterMap_cons]
  · cases hr : ready k <;> simp [received, attempt, hr, hk, List.filterMap_cons]

theorem deliveriesTo_attempt_cons (c k : Client) (msg : T) (ready : Client → Bool)
    (tr : List (Effect T)) :
    deliveriesTo c (attempt msg ready k :: tr) =
      (if k = c ∧ ready k = true then 1 else 0) + deliveriesTo c tr := by
  by_cases hk : k = c
  · subst hk
    cases hr : ready k <;>
      simp [deliveriesTo, attempt, hr, List.countP_cons, isSentTo, Nat.add_comm]
  · cases hr : ready k <;>
      simp [deliveriesTo, attempt, hr, hk, List.countP_cons, isSentTo]

theorem received_map_attempt (c : Client) (msg : T) (ready : Client → Bool)
    (keys : List Client) (hnd : keys.Nodup) :
    received c (keys.map (attempt msg ready)) =
      if c ∈ keys ∧ ready c = true then [msg] else [] := by
  induction keys with
  | nil => simp [received]
  | cons k rest ih =>
    obtain ⟨hk, hrest⟩ := List.nodup_cons.mp hnd
    rw [List.map_cons, received_attempt_cons, ih hrest]
    by_cases hkc : k = c
    · subst hkc
      by_cases hr : ready k = true <;> simp [hk, hr]
    · have : ¬ c = k := fun e => hkc e.symm
      simp [hkc, this]

theorem deliveriesTo_map_attempt (c : Client) (msg : T) (ready : Client → Bool)
    (keys : List Client) (hnd : keys.Nodup) :
    deliveriesTo c (keys.map (attempt msg ready)) =
      if c ∈ keys ∧ ready c = true then 1 else 0 := by
  induction keys with
  | nil => simp [deliveriesTo]
  | cons k rest ih =>
    obtain ⟨hk, hrest⟩ := List.nodup_cons.mp hnd
    rw [List.map_cons, deliveriesTo_attempt_cons, ih hrest]
    by_cases hkc : k = c
    · subst hkc
      by_cases hr : ready k = true <;> simp [hk, hr]
    · have : ¬ c = k := fun e => hkc e.symm
      simp [hkc, this]

theorem deliveries_map_attempt (msg : T) (ready : Client → Bool) (keys : List Client) :
    deliveries (keys.map (attempt msg ready)) = keys.countP ready := by
  induction keys with
  | nil => simp [deliveries]
  | cons k rest ih =>
    simp only [deliveries, List.map_cons, List.countP_cons] at ih ⊢
    rw [ih]
    by_cases hr : ready k = true <;> simp [attempt, hr, isSent]

theorem startIter_recvMsg_ok (w : World T) (msg : T) (rest : List T) (o : IterOrder)
    (ready : Client → Bool) (hinv : Inv w) (hq : w.b.msgs = msg :: rest) :
    startIter w (.recvMsg o ready) = .ok (Loop.running,
      { b := { w.b with msgs := rest }, chans := w.chans,
        trace := w.trace ++ (o.pick w.b.clients).map (attempt msg ready) }) := by
  have hp := o.perm w.b.clients
  have h := forRange_sendOrTimeout msg ready (o.pick w.b.clients)
    { w with b := { w.b with msgs := rest } } (fun c hc => hp.mem_iff.mp hc) hinv.2
  simp only [startIter, hq]
  simp only [] at h ⊢
  rw [h]

theorem countP_not_add (l : List Client) (p : Client → Bool) :
    l.countP p + l.countP (fun c => !p c) = l.length := by
  induction l with
  | nil => simp
  | cons a rest ih =>
    simp only [List.countP_cons, List.length_cons]
    cases p a <;> simp <;> omega

/-- C3: in a world whose registered mailboxes are distinct and open, the
broadcast of a dequeued message returns without a panic having visited every
registered mailbox in the order of the iteration; the message is delivered
once to each registered mailbox that is ready and not at all to a mailbox that
is not ready or not registered, so the number of deliveries is the number of
ready mailboxes, two when three are registered and one is not ready; the
message leaves the queue and, unless the same message is queued or published
again, no later schedule delivers it to any mailbox. -/
theorem broadcast_best_effort (w : World T) (msg : T) (rest : List T) (o : IterOrder)
    (ready : Client → Bool) (hinv : Inv w) (hq : w.b.msgs = msg :: rest) :
    ∃ w1, startIter w (.recvMsg o ready) = .ok (Loop.running, w1) ∧
      w1.b.msgs = rest ∧ w1.b.clients = w.b.clients ∧ w1.chans = w.chans ∧
      w1.trace = w.trace ++ (o.pick w.b.clients).map (attempt msg ready) ∧
      (∀ c ∈ w.b.clients, ready c = true →
        deliveriesTo c w1.trace = deliveriesTo c w.trace + 1 ∧
        received c w1.trace = received c w.trace ++ [msg]) ∧
      (∀ c, (c ∉ w.b.clients ∨ ready c = false) →
        deliveriesTo c w1.trace = deliveriesTo c w.trace ∧
        received c w1.trace = received c w.trace) ∧
      deliveries w1.trace = deliveries w.trace + w.b.clients.countP ready ∧
      (w.b.clients.length = 3 → w.b.clients.countP (fun c => !ready c) = 1 →
        deliveries w1.trace = deliveries w.trace + 2) ∧
      (∀ (acts : List (Action T)) (c : Client), msg ∉ rest →
        (∀ m, Action.publish m ∈ acts → m ≠ msg) →
        ∃ seg, (run w1 acts).world.trace = w1.trace ++ seg ∧ Effect.sent c msg ∉ seg) := by
  have hp := o.perm w.b.clients
  have hnd : (o.pick w.b.clients).Nodup := hp.nodup_iff.mpr hinv.1
  have hdel : deliveries (w.trace ++ (o.pick w.b.clients).map (attempt msg ready)) =
      deliveries w.trace + w.b.clients.countP ready := by
    rw [deliveries_append, deliveries_map_attempt, hp.countP_eq]
  refine ⟨_, startIter_recvMsg_ok w msg rest o ready hinv hq, rfl, rfl, rfl, rfl, ?_, ?_,
    hdel, ?_, ?_⟩
  · intro c hc hr
    have hc2 : c ∈ o.pick w.b.clients := hp.mem_iff.mpr hc
    refine ⟨?_, ?_⟩
    · rw [deliveriesTo_append, deliveriesTo_map_attempt c msg ready _ hnd]
      simp [hc2, hr]
    · rw [received_append, received_map_attempt c msg ready _ hnd]
      simp [hc2, hr]
  · intro c hc
    have hno : ¬ (c ∈ o.pick w.b.clients ∧ ready c = true) := by
      rintro ⟨h1, h2⟩
      rcases hc with hc | hc
      · exact hc (hp.mem_iff.mp h1)
      · rw [hc] at h2; cases h2
    refine ⟨?_, ?_⟩
    · rw [deliveriesTo_append, deliveriesTo_map_attempt c msg ready _ hnd]
      simp [hno]
    · rw [received_append, received_map_attempt c msg ready _ hnd]
      simp [hno]
  · intro h3 h1
    have := countP_not_add w.b.clients ready
    rw [hdel]
    omega
  · intro acts c hrest hpub
    obtain ⟨seg, htr, hs⟩ := run_sent_origin acts
      ({ b := { w.b with msgs := rest }, chans := w.chans,
         trace := w.trace ++ (o.pick w.b.clients).map (attempt msg ready) } : World T)
    refine ⟨seg, htr, ?_⟩
    intro hm
    rcases hs c msg hm with h | h
    · exact hrest h
    · exact hpub msg h rfl

/-- Witness of C3: three subscribers of which the second is slow. -/
theorem broadcast_best_effort_witness :
    (Inv exFanOut ∧ exFanOut.b.msgs = 7 :: []) ∧
    ∃ w1, startIter exFanOut (.recvMsg orderReversed exReady) = .ok (Loop.running, w1) ∧
      deliveries w1.trace = deliveries exFanOut.trace + 2 ∧
      deliveriesTo 1 w1.trace = deliveriesTo 1 exFanOut.trace :=
  ⟨⟨⟨by decide, by decide⟩, rfl⟩,
    (broadcast_best_effort exFanOut 7 [] orderReversed exReady ⟨by decide, by decide⟩ rfl).imp
      (fun _ h => ⟨h.1, h.2.2.2.2.2.2.2.2.1 (by decide) (by decide),
        (h.2.2.2.2.2.2.1 1 (Or.inr (by decide))).1⟩)⟩

theorem Inv_Subscribe (w : World T) (h : Inv w) : Inv (Subscribe w).1 := by
  obtain ⟨hnd, hopen⟩ := h
  refine ⟨hnd.insert, ?_⟩
  intro c hc
  simp only [Subscribe, List.mem_insert_iff] at hc
  rcases hc with rfl | hc
  · simp [Subscribe]
  · simp only [Subscribe]
    rw [List.getElem?_append_left (List.getElem?_eq_some_iff.mp (hopen c hc)).1]
    exact hopen c hc

theorem Inv_Unsubscribe_open (w : World T) (d : Client) (h : Inv w) :
    Inv ({ b := { w.b with clients := w.b.clients.filter (fun k => k ≠ d) },
           chans := w.chans.set d true, trace := w.trace ++ [Effect.closed d] } : World T) := by
  obtain ⟨hnd, hopen⟩ := h
  refine ⟨hnd.filter _, ?_⟩
  intro c hc
  have hc2 : c ∈ w.b.clients ∧ c ≠ d := by simpa using hc
  simp only [List.getElem?_set, Ne.symm hc2.2, if_false]
  exact hopen c hc2.1

theorem received_snoc_closed (c d : Client) (tr : List (Effect T)) :
    received c (tr ++ [Effect.closed d]) = received c tr := by
  simp [received, List.filterMap_append]

theorem fifo_core (c : Client) (acts : List (Action T)) (w : World T) (hinv : Inv w)
    (hc : c ∈ w.b.clients) (hs : ∀ a ∈ acts, Steady c a) :
    received c (run w acts).world.trace ++ (run w acts).world.b.msgs =
        received c w.trace ++ w.b.msgs ++ (run w acts).accepted ∧
    ((run w acts).panic = none →
      Inv (run w acts).world ∧ c ∈ (run w acts).world.b.clients) := by
  induction acts generalizing w with
  | nil => simp [run, hinv, hc]
  | cons a rest ih =>
    have hrest : ∀ a ∈ rest, Steady c a := fun a ha => hs a (List.mem_cons_of_mem _ ha)
    have ha : Steady c a := hs a (List.mem_cons_self _ _)
    cases a with
    | subscribe =>
      have h := ih (Subscribe w).1 (Inv_Subscribe w hinv) (by simp [Subscribe, hc]) hrest
      simpa [run, Subscribe] using h
    | unsubscribe d =>
      have hdc : d ≠ c := ha
      cases hch : w.chans[d]? with
      | none => simp [run, Unsubscribe_nil w d hch]
      | some flag =>
        cases flag with
        | true => simp [run, Unsubscribe_closed w d hch]
        | false =>
          have h := ih _ (Inv_Unsubscribe_open w d hinv)
            (by simp [hc, Ne.symm hdc]) hrest
          simp only [run, Unsubscribe_open w d hch]
          simpa [received_snoc_closed] using h
    | publish msg =>
      cases hroom : hasRoom w with
      | true =>
        rw [run_publish_room w msg rest hroom]
        have h := ih { w with b := { w.b with msgs := w.b.msgs ++ [msg] } } hinv hc hrest
        simpa using h
      | false =>
        rw [run_publish_full w msg rest hroom]
        exact ih w hinv hc hrest
    | loop ev =>
      cases ev with
      | ctxDone o => exact absurd ha (by simp [Steady])
      | recvMsg o ready =>
        have hr : ready c = true := ha
        cases hq : w.b.msgs with
        | nil =>
          have hstep : startIter w (.recvMsg o ready) = .ok (Loop.running, w) := by
            simp [startIter, hq]
          have h := ih w hinv hc hrest
          simp only [run, hstep]
          rw [hq] at h
          exact h
        | cons msg tail =>
          have hstep := startIter_recvMsg_ok w msg tail o ready hinv hq
          have hp := o.perm w.b.clients
          have hnd : (o.pick w.b.clients).Nodup := hp.nodup_iff.mpr hinv.1
          have hinv1 : Inv ({ w with
              b := { w.b with msgs := tail },
              trace := w.trace ++ (o.pick w.b.clients).map (attempt msg ready) } : World T) :=
            hinv
          have h := ih _ hinv1 hc hrest
          simp only [run, hstep]
          rw [received_append, received_map_attempt c msg ready _ hnd] at h
          simpa [hp.mem_iff.mpr hc, hr] using h

theorem run_drain (o : IterOrder) (ready : Client → Bool) (n : Nat) (w : World T)
    (hinv : Inv w) :
    (run w (List.replicate n (Action.loop (.recvMsg o ready)))).panic = none ∧
    (run w (List.replicate n (Action.loop (.recvMsg o ready)))).world.b.msgs =
      w.b.msgs.drop n ∧
    (run w (List.replicate n (Action.loop (.recvMsg o ready)))).accepted = [] := by
  induction n generalizing w with
  | zero => simp [run]
  | succ n ih =>
    cases hq : w.b.msgs with
    | nil =>
      have hstep : startIter w (.recvMsg o ready) = .ok (Loop.running, w) := by
        simp [startIter, hq]
      have h := ih w hinv
      simp only [List.replicate_succ, run, hstep]
      rw [hq] at h
      simpa using h
    | cons msg tail =>
      have hstep := startIter_recvMsg_ok w msg tail o ready hinv hq
      have hinv1 : Inv ({ w with
          b := { w.b with msgs := tail },
          trace := w.trace ++ (o.pick w.b.clients).map (attempt msg ready) } : World T) :=
        hinv
      have h := ih _ hinv1
      simp only [List.replicate_succ, run, hstep]
      simpa using h

/-- C2: for a subscriber that is registered, is not unsubscribed, and whose
mailbox is ready at every broadcast, along any schedule of Publish, Subscribe,
Unsubscribe of other mailboxes and broadcasts, what the subscriber has received
followed by what is still queued is what it had received and what was queued at
the start followed by the messages Publish accepted, in the order they were
accepted; and when no panic ended the schedule, as many further broadcasts as
there are queued messages empty the queue without a panic, after which the
subscriber has received exactly that sequence. -/
theorem fifo_delivery (w : World T) (c : Client) (acts : List (Action T)) (o : IterOrder)
    (ready : Client → Bool) (hinv : Inv w) (hc : c ∈ w.b.clients)
    (hs : ∀ a ∈ acts, Steady c a) (hr : ready c = true) :
    received c (run w acts).world.trace ++ (run w acts).world.b.msgs =
      received c w.trace ++ w.b.msgs ++ (run w acts).accepted ∧
    ((run w acts).panic = none →
      (run (run w acts).world (List.replicate (run w acts).world.b.msgs.length
        (Action.loop (.recvMsg o ready)))).panic = none ∧
      (run (run w acts).world (List.replicate (run w acts).world.b.msgs.length
        (Action.loop (.recvMsg o ready)))).world.b.msgs = [] ∧
      received c (run (run w acts).world (List.replicate (run w acts).world.b.msgs.length
        (Action.loop (.recvMsg o ready)))).world.trace =
        received c w.trace ++ w.b.msgs ++ (run w acts).accepted) := by
  obtain ⟨hcons, hlive⟩ := fifo_core c acts w hinv hc hs
  refine ⟨hcons, ?_⟩
  intro hpanic
  obtain ⟨hinv1, hc1⟩ := hlive hpanic
  obtain ⟨hp, hq, hacc⟩ := run_drain o ready (run w acts).world.b.msgs.length
    (run w acts).world hinv1
  have hsteady : ∀ a ∈ List.replicate (run w acts).world.b.msgs.length
      (Action.loop (T := T) (.recvMsg o ready)), Steady c a := by
    intro a ha
    rw [(List.mem_replicate.mp ha).2]
    exact hr
  have h2 := (fifo_core c _ (run w acts).world hinv1 hc1 hsteady).1
  rw [hq, hacc] at h2
  simp only [List.drop_length, List.append_nil] at h2 hq
  exact ⟨hp, hq, h2.trans hcons⟩

/-- Witness of C2: the first subscriber of a broker of capacity two along
`exSchedule`; of the four messages published the third is refused, and the
subscriber receives the three accepted ones in order. -/
theorem fifo_delivery_witness :
    (Inv (Subscribe (World.init "slots" 2 1 : World Nat)).1 ∧
      0 ∈ (Subscribe (World.init "slots" 2 1 : World Nat)).1.b.clients ∧
      (∀ a ∈ exSchedule, Steady 0 a)) ∧
    (run (Subscribe (World.init "slots" 2 1 : World Nat)).1 exSchedule).accepted = [10, 20, 40] ∧
    received 0 (run (run (Subscribe (World.init "slots" 2 1 : World Nat)).1 exSchedule).world
      (List.replicate
        (run (Subscribe (World.init "slots" 2 1 : World Nat)).1 exSchedule).world.b.msgs.length
        (Action.loop (.recvMsg orderReversed (fun _ => true))))).world.trace =
      received 0 (Subscribe (World.init "slots" 2 1 : World Nat)).1.trace ++
        (Subscribe (World.init "slots" 2 1 : World Nat)).1.b.msgs ++
        (run (Subscribe (World.init "slots" 2 1 : World Nat)).1 exSchedule).accepted :=
  have hs : ∀ a ∈ exSchedule, Steady (T := Nat) 0 a := by
    intro a ha
    simp only [exSchedule, List.mem_cons, List.mem_singleton, List.not_mem_nil, or_false] at ha
    rcases ha with rfl | rfl | rfl | rfl | rfl | rfl <;> simp [Steady]
  ⟨⟨⟨by decide, by decide⟩, by decide, hs⟩, rfl,
    ((fifo_delivery (Subscribe (World.init "slots" 2 1 : World Nat)).1 0 exSchedule
      orderReversed (fun _ => true) ⟨by decide, by decide⟩ (by decide) hs rfl).2 rfl).2.2⟩

theorem Framed_Unsubscribe (n : String) (k t : Nat) (c : Client) (w : World T)
    (h : Framed n k t w) : Holds (Framed n k t) (Unsubscribe w c) := by
  cases hc : w.chans[c]? with
  | none => rw [Unsubscribe_nil w c hc]; exact h
  | some flag =>
    cases flag with
    | true => rw [Unsubscribe_closed w c hc]; exact h
    | false => rw [Unsubscribe_open w c hc]; exact h

theorem Framed_sendOrTimeout (n : String) (k t : Nat) (msg : T) (ready : Client → Bool)
    (w : World T) (c : Client) (h : Framed n k t w) :
    Holds (Framed n k t) (sendOrTimeout msg ready w c) := by
  simp only [sendOrTimeout]
  split
  · exact h
  · split <;> exact h
  · exact h

theorem Framed_startIter (n : String) (k t : Nat) (w : World T) (ev : Select)
    (h : Framed n k t w) :
    match startIter w ev with
    | .ok (_, w1) => Framed n k t w1
    | .error (_, w1) => Framed n k t w1 := by
  cases ev with
  | ctxDone o =>
    have hf := forRange_holds (Framed n k t) Unsubscribe
      (fun w c hw => Framed_Unsubscribe n k t c w hw) (o.pick w.b.clients) w h
    simp only [startIter]
    cases hr : forRange Unsubscribe (o.pick w.b.clients) w with
    | ok w1 => rw [hr] at hf; exact hf
    | error e => rw [hr] at hf; exact hf
  | recvMsg o ready =>
    simp only [startIter]
    cases hq : w.b.msgs with
    | nil => exact h
    | cons msg rest =>
      have h0 : Framed n k t ({ w with b := { w.b with msgs := rest } } : World T) := by
        obtain ⟨h1, h2, h3, h4⟩ := h
        rw [hq] at h4
        exact ⟨h1, h2, h3, Nat.le_of_succ_le h4⟩
      have hf := forRange_holds (Framed n k t) (sendOrTimeout msg ready)
        (fun w c hw => Framed_sendOrTimeout n k t msg ready w c hw) (o.pick w.b.clients) _ h0
      simp only []
      cases hr : forRange (sendOrTimeout msg ready) (o.pick w.b.clients)
          { w with b := { w.b with msgs := rest } } with
      | ok w1 => rw [hr] at hf; exact hf
      | error e => rw [hr] at hf; exact hf

theorem Framed_run (n : String) (k t : Nat) (acts : List (Action T)) (w : World T)
    (h : Framed n k t w) : Framed n k t (run w acts).world := by
  induction acts generalizing w with
  | nil => exact h
  | cons a rest ih =>
    cases a with
    | subscribe => exact ih (Subscribe w).1 h
    | unsubscribe c =>
      have hu := Framed_Unsubscribe n k t c w h
      simp only [run]
      cases hr : Unsubscribe w c with
      | ok w1 => rw [hr] at hu; exact ih w1 hu
      | error e => rw [hr] at hu; exact hu
    | publish msg =>
      cases hroom : hasRoom w with
      | true =>
        rw [run_publish_room w msg rest hroom]
        apply ih
        obtain ⟨h1, h2, h3, _⟩ := h
        refine ⟨h1, h2, h3, ?_⟩
        have : w.b.msgs.length < w.b.cap := by simpa [hasRoom] using hroom
        simp only [List.length_append, List.length_singleton]
        omega
      | false =>
        rw [run_publish_full w msg rest hroom]
        exact ih w h
    | loop ev =>
      have hs := Framed_startIter n k t w ev h
      simp only [run]
      cases hr : startIter w ev with
      | ok p => rw [hr] at hs; exact ih p.2 hs
      | error e => rw [hr] at hs; exact hs

/-- C16: `New(name)` returns a broker with an empty registry and an empty intake
queue of capacity `defaultBufferSize`; `Name()` returns the name given to
`New` on that broker and in every world a schedule reaches from it, where the
capacity and the timeout are also those of `New` and the queue never holds
more messages than the capacity. -/
theorem New_empty_and_named (name : String) (size timeout : Nat) (acts : List (Action T)) :
    ((New name size timeout : Broker T).clients = [] ∧
      (New name size timeout : Broker T).msgs = [] ∧
      (New name size timeout : Broker T).cap = size) ∧
    Name (World.init name size timeout : World T) = name ∧
    Name (run (World.init name size timeout : World T) acts).world = name ∧
    (run (World.init name size timeout : World T) acts).world.b.cap = size ∧
    (run (World.init name size timeout : World T) acts).world.b.timeout = timeout ∧
    (run (World.init name size timeout : World T) acts).world.b.msgs.length ≤ size := by
  have h0 : Framed name size timeout (World.init name size timeout : World T) :=
    ⟨rfl, rfl, rfl, by simp [World.init, New]⟩
  obtain ⟨h1, h2, h3, h4⟩ := Framed_run name size timeout acts _ h0
  exact ⟨⟨rfl, rfl, rfl⟩, rfl, h1, h2, h3, h4⟩

theorem waited_map_attempt (timeout : Nat) (delay : Client → Nat) (msg : T)
    (ready : Client → Bool) (keys : List Client) :
    waited timeout delay (keys.map (attempt msg ready)) ≤ keys.length * timeout := by
  induction keys with
  | nil => simp [waited]
  | cons k rest ih =>
    have h1 : waitOf timeout delay (attempt msg ready k) ≤ timeout := by
      simp only [attempt]
      split
      · exact Nat.min_le_right _ _
      · exact Nat.le_refl _
    simp only [waited, List.map_cons, List.sum_cons, List.length_cons] at ih ⊢
    rw [Nat.add_mul, Nat.one_mul]
    omega

theorem waited_map_attempt_slow (timeout : Nat) (delay : Client → Nat) (msg : T)
    (keys : List Client) (hslow : ∀ c ∈ keys, timeout ≤ delay c) :
    waited timeout delay (keys.map (attempt msg (readyWithin timeout delay))) =
      keys.length * timeout := by
  induction keys with
  | nil => simp [waited]
  | cons k rest ih =>
    have hk : readyWithin timeout delay k = false := by
      have := hslow k (by simp)
      simp [readyWithin]
      omega
    have ih2 := ih (fun c hc => hslow c (by simp [hc]))
    simp only [waited, List.map_cons, List.sum_cons, List.length_cons, attempt, hk] at ih2 ⊢
    rw [ih2, Nat.add_mul, Nat.one_mul]
    simp [waitOf, Nat.add_comm]

theorem countP_isAttemptTo_map (c : Client) (msg : T) (ready : Client → Bool)
    (keys : List Client) :
    (keys.map (attempt msg ready)).countP (isAttemptTo c) = keys.count c := by
  induction keys with
  | nil => simp
  | cons k rest ih =>
    simp only [List.map_cons, List.countP_cons, List.count_cons, ih]
    by_cases hk : k = c
    · subst hk
      cases hr : ready k <;> simp [attempt, hr, isAttemptTo]
    · cases hr : ready k <;> simp [attempt, hr, isAttemptTo, hk]

theorem isAttempt_attempt (msg : T) (ready : Client → Bool) (c : Client) :
    isAttempt (attempt msg ready c) = true := by
  cases hr : ready c <;> simp [attempt, hr, isAttempt]

/-- C28: in a world whose registered mailboxes are distinct and open, whatever
the delays of the subscribers, the broadcast of a message returns having made
one attempt for each of the `n` registered mailboxes and nothing else; each
attempt waits on its own timer for at most the timeout, so the loop waits at
most `n` times the timeout, and exactly that when every subscriber is too
slow. -/
theorem broadcast_bounded_wait (w : World T) (msg : T) (rest : List T) (o : IterOrder)
    (delay : Client → Nat) (hinv : Inv w) (hq : w.b.msgs = msg :: rest) :
    ∃ w1 seg, startIter w (.recvMsg o (readyWithin w.b.timeout delay)) =
        .ok (Loop.running, w1) ∧
      w1.trace = w.trace ++ seg ∧
      seg.length = w.b.clients.length ∧
      (∀ e ∈ seg, isAttempt e = true) ∧
      (∀ c ∈ w.b.clients, seg.countP (isAttemptTo c) = 1) ∧
      (∀ c, c ∉ w.b.clients → seg.countP (isAttemptTo c) = 0) ∧
      (∀ e ∈ seg, waitOf w.b.timeout delay e ≤ w.b.timeout) ∧
      waited w.b.timeout delay seg ≤ w.b.clients.length * w.b.timeout ∧
      ((∀ c ∈ w.b.clients, w.b.timeout ≤ delay c) →
        waited w.b.timeout delay seg = w.b.clients.length * w.b.timeout) := by
  have hp := o.perm w.b.clients
  have hnd : (o.pick w.b.clients).Nodup := hp.nodup_iff.mpr hinv.1
  refine ⟨_, (o.pick w.b.clients).map (attempt msg (readyWithin w.b.timeout delay)),
    startIter_recvMsg_ok w msg rest o _ hinv hq, rfl, ?_, ?_, ?_, ?_, ?_, ?_, ?_⟩
  · simp [hp.length_eq]
  · intro e he
    obtain ⟨c, _, rfl⟩ := List.mem_map.mp he
    exact isAttempt_attempt msg _ c
  · intro c hc
    rw [countP_isAttemptTo_map, List.count_eq_one_of_mem hnd (hp.mem_iff.mpr hc)]
  · intro c hc
    rw [countP_isAttemptTo_map,
      List.count_eq_zero_of_not_mem (fun h => hc (hp.mem_iff.mp h))]
  · intro e he
    obtain ⟨c, _, rfl⟩ := List.mem_map.mp he
    simp only [attempt]
    split
    · exact Nat.min_le_right _ _
    · exact Nat.le_refl _
  · have := waited_map_attempt w.b.timeout delay msg (readyWithin w.b.timeout delay)
      (o.pick w.b.clients)
    rw [hp.length_eq] at this
    exact this
  · intro hslow
    have := waited_map_attempt_slow w.b.timeout delay msg (o.pick w.b.clients)
      (fun c hc => hslow c (hp.mem_iff.mp hc))
    rw [hp.length_eq] at this
    exact this

/-- Witness of C28: three subscribers of which the second takes longer than the
timeout. -/
theorem broadcast_bounded_wait_witness :
    (Inv exFanOut ∧ exFanOut.b.msgs = 7 :: []) ∧
    ∃ w1, ∃ seg : List (Effect Nat), startIter exFanOut (.recvMsg orderStored
        (readyWithin exFanOut.b.timeout (fun c => if c = 1 then 5 else 0))) =
        .ok (Loop.running, w1) ∧
      seg.length = exFanOut.b.clients.length ∧
      waited exFanOut.b.timeout (fun c => if c = 1 then 5 else 0) seg ≤
        exFanOut.b.clients.length * exFanOut.b.timeout :=
  ⟨⟨⟨by decide, by decide⟩, rfl⟩,
    (broadcast_bounded_wait exFanOut 7 [] orderStored (fun c => if c = 1 then 5 else 0)
      ⟨by decide, by decide⟩ rfl).imp
      (fun _ h => h.imp (fun _ g => ⟨g.1, g.2.2.1, g.2.2.2.2.2.2.2.1⟩))⟩

theorem SameRegistry_refl (w : World T) : SameRegistry w w :=
  ⟨rfl, rfl, fun _ => rfl, rfl, rfl, rfl⟩

theorem SameRegistry_sendOrTimeout (w0 : World T) (msg : T) (ready : Client → Bool)
    (w : World T) (c : Client) (h : SameRegistry w0 w) :
    Holds (SameRegistry w0) (sendOrTimeout msg ready w c) := by
  obtain ⟨h1, h2, h3, h4, h5, h6⟩ := h
  have hs : SameRegistry w0 { w with trace := w.trace ++ [Effect.sent c msg] } := by
    refine ⟨h1, h2, ?_, h4, h5, h6⟩
    intro d
    rw [← h3 d, closes_append]
    simp [closes, isClosed]
  have ht : SameRegistry w0 { w with trace := w.trace ++ [Effect.timedOut c msg] } := by
    refine ⟨h1, h2, ?_, h4, h5, h6⟩
    intro d
    rw [← h3 d, closes_append]
    simp [closes, isClosed]
  simp only [sendOrTimeout]
  split
  · exact ⟨h1, h2, h3, h4, h5, h6⟩
  · split
    · exact hs
    · exact ht
  · exact ht

theorem SameRegistry_broadcast (w : World T) (o : IterOrder) (ready : Client → Bool) :
    HoldsIter (SameRegistry w) (startIter w (.recvMsg o ready)) := by
  simp only [startIter]
  cases hq : w.b.msgs with
  | nil => exact SameRegistry_refl w
  | cons msg rest =>
    have h0 : SameRegistry w ({ w with b := { w.b with msgs := rest } } : World T) :=
      ⟨rfl, rfl, fun _ => rfl, rfl, rfl, rfl⟩
    have hf := forRange_holds (SameRegistry w) (sendOrTimeout msg ready)
      (fun w1 c hw => SameRegistry_sendOrTimeout w msg ready w1 c hw)
      (o.pick w.b.clients) _ h0
    simp only []
    cases hr : forRange (sendOrTimeout msg ready) (o.pick w.b.clients)
        { w with b := { w.b with msgs := rest } } with
    | ok w1 => rw [hr] at hf; exact hf
    | error e => rw [hr] at hf; exact hf

theorem SameRegistry_Publish (w : World T) (msg : T) :
    SameRegistry w (Publish w msg []).1 := by
  simp only [Publish]
  split
  · exact ⟨rfl, rfl, fun _ => rfl, rfl, rfl, rfl⟩
  · exact SameRegistry_refl w

theorem SameQueue_Unsubscribe (w0 : World T) (c : Client) (w : World T)
    (h : SameQueue w0 w) : Holds (SameQueue w0) (Unsubscribe w c) := by
  cases hc : w.chans[c]? with
  | none => rw [Unsubscribe_nil w c hc]; exact h
  | some flag =>
    cases flag with
    | true => rw [Unsubscribe_closed w c hc]; exact h
    | false => rw [Unsubscribe_open w c hc]; exact h

theorem SameQueue_cancellation (w : World T) (o : IterOrder) :
    HoldsIter (SameQueue w) (startIter w (.ctxDone o)) := by
  have hf := forRange_holds (SameQueue w) Unsubscribe
    (fun w1 c hw => SameQueue_Unsubscribe w c w1 hw) (o.pick w.b.clients) w
    ⟨rfl, rfl, rfl, rfl⟩
  simp only [startIter]
  cases hr : forRange Unsubscribe (o.pick w.b.clients) w with
  | ok w1 => rw [hr] at hf; exact hf
  | error e => rw [hr] at hf; exact hf

/-- C29: Publish, at the instant of its wait at which its select fires, and a
broadcast, whether it ends or panics, leave the registry, the channels and
the closes on record as they were, so they add or remove no registry entry
and close no mailbox; Subscribe, Unsubscribe and the cancellation, whether
they end or panic, leave the intake queue as it was; and all of them leave the
name, the capacity and the timeout of the broker as they were. -/
theorem operations_frame (w : World T) :
    (∀ msg wait, ∃ x, x ∈ w :: wait ∧ SameRegistry x (Publish w msg wait).1) ∧
    (∀ msg, SameRegistry w (Publish w msg []).1) ∧
    (∀ o ready, HoldsIter (SameRegistry w) (startIter w (.recvMsg o ready))) ∧
    SameQueue w (Subscribe w).1 ∧
    (∀ c, Holds (SameQueue w) (Unsubscribe w c)) ∧
    (∀ o, HoldsIter (SameQueue w) (startIter w (.ctxDone o))) := by
  refine ⟨?_, SameRegistry_Publish w, SameRegistry_broadcast w, ⟨rfl, rfl, rfl, rfl⟩,
    fun c => SameQueue_Unsubscribe w c w ⟨rfl, rfl, rfl, rfl⟩, SameQueue_cancellation w⟩
  intro msg wait
  obtain ⟨x, hx, e⟩ := Publish_at_instant msg wait w
  refine ⟨x, hx, ?_⟩
  rw [e]
  exact SameRegistry_Publish x msg

theorem received_snoc_attemptless (c : Client) (tr : List (Effect T)) (d : Client) :
    received c (tr ++ [Effect.closed d]) = received c tr ∧
    deliveries (tr ++ [Effect.closed d]) = deliveries tr := by
  refine ⟨received_snoc_closed c d tr, ?_⟩
  rw [deliveries_append]
  simp [deliveries, isSent]

theorem run_without_loop (acts : List (Action T)) (w : World T)
    (hno : ∀ a ∈ acts, NoLoop a) :
    (run w acts).world.b.msgs = w.b.msgs ++ (run w acts).accepted ∧
    (∀ c, received c (run w acts).world.trace = received c w.trace) ∧
    deliveries (run w acts).world.trace = deliveries w.trace := by
  induction acts generalizing w with
  | nil => simp [run]
  | cons a rest ih =>
    have hrest : ∀ a ∈ rest, NoLoop a := fun a ha => hno a (List.mem_cons_of_mem _ ha)
    have ha : NoLoop a := hno a (List.mem_cons_self _ _)
    cases a with
    | subscribe =>
      have h := ih (Subscribe w).1 hrest
      simpa [run, Subscribe] using h
    | unsubscribe d =>
      cases hch : w.chans[d]? with
      | none => simp [run, Unsubscribe_nil w d hch]
      | some flag =>
        cases flag with
        | true => simp [run, Unsubscribe_closed w d hch]
        | false =>
          obtain ⟨h1, h2, h3⟩ := ih
            ({ b := { w.b with clients := w.b.clients.filter (fun k => k ≠ d) },
               chans := w.chans.set d true, trace := w.trace ++ [Effect.closed d] } : World T)
            hrest
          simp only [run, Unsubscribe_open w d hch]
          refine ⟨h1, ?_, ?_⟩
          · intro c
            rw [h2 c]
            exact (received_snoc_attemptless c w.trace d).1
          · rw [h3]
            exact (received_snoc_attemptless 0 w.trace d).2
    | publish msg =>
      cases hroom : hasRoom w with
      | true =>
        rw [run_publish_room w msg rest hroom]
        obtain ⟨h1, h2, h3⟩ := ih { w with b := { w.b with msgs := w.b.msgs ++ [msg] } } hrest
        refine ⟨?_, h2, h3⟩
        simpa using h1
      | false =>
        rw [run_publish_full w msg rest hroom]
        exact ih w hrest
    | loop ev => exact absurd ha (by simp [NoLoop])

theorem run_publishes (msgs : List T) (w : World T) :
    (run w (msgs.map Action.publish)).accepted = msgs.take (w.b.cap - w.b.msgs.length) ∧
    (run w (msgs.map Action.publish)).panic = none := by
  induction msgs generalizing w with
  | nil => simp [run]
  | cons m rest ih =>
    cases hroom : hasRoom w with
    | true =>
      have hlt : w.b.msgs.length < w.b.cap := by simpa [hasRoom] using hroom
      obtain ⟨h1, h2⟩ := ih { w with b := { w.b with msgs := w.b.msgs ++ [m] } }
      rw [List.map_cons, run_publish_room w m _ hroom]
      refine ⟨?_, h2⟩
      simp only [h1, List.length_append, List.length_singleton]
      have : w.b.cap - w.b.msgs.length = (w.b.cap - (w.b.msgs.length + 1)) + 1 := by omega
      rw [this, List.take_succ_cons]
    | false =>
      have hge : w.b.cap ≤ w.b.msgs.length := by simpa [hasRoom] using hroom
      obtain ⟨h1, h2⟩ := ih w
      rw [List.map_cons, run_publish_full w m _ hroom]
      refine ⟨?_, h2⟩
      have : w.b.cap - w.b.msgs.length = 0 := by omega
      rw [h1, this]
      simp

/-- C30: when no iteration of the loop takes place, because the loop was never
started or has returned, a Publish on a queue with a free slot returns nil and
appends the message, and Publish returns ErrTimeout exactly when the queue is
full; along a schedule of Publish, Subscribe and Unsubscribe the queue is the
queue of the start followed by the accepted messages and no mailbox receives
anything; of the messages published in a row, those accepted are the first
ones, as many as there were free slots. -/
theorem Publish_without_loop (w : World T) (acts : List (Action T))
    (hno : ∀ a ∈ acts, NoLoop a) :
    (∀ msg, w.b.msgs.length < w.b.cap →
      Publish w msg [] = ({ w with b := { w.b with msgs := w.b.msgs ++ [msg] } }, none)) ∧
    (∀ msg, (Publish w msg []).2 = some Error.ErrTimeout ↔ w.b.cap ≤ w.b.msgs.length) ∧
    (run w acts).world.b.msgs = w.b.msgs ++ (run w acts).accepted ∧
    (∀ c, received c (run w acts).world.trace = received c w.trace) ∧
    deliveries (run w acts).world.trace = deliveries w.trace ∧
    (∀ msgs : List T,
      (run w (msgs.map Action.publish)).accepted = msgs.take (w.b.cap - w.b.msgs.length) ∧
      (run w (msgs.map Action.publish)).world.b.msgs =
        w.b.msgs ++ msgs.take (w.b.cap - w.b.msgs.length) ∧
      (run w (msgs.map Action.publish)).panic = none) := by
  obtain ⟨h1, h2, h3⟩ := run_without_loop acts w hno
  refine ⟨?_, ?_, h1, h2, h3, ?_⟩
  · intro msg hlt
    exact Publish_of_hasRoom w msg [] (by simpa [hasRoom] using hlt)
  · intro msg
    cases hroom : hasRoom w with
    | true =>
      have hlt : w.b.msgs.length < w.b.cap := by simpa [hasRoom] using hroom
      rw [Publish_of_hasRoom w msg [] hroom]
      constructor
      · intro h; cases h
      · intro h; omega
    | false =>
      have hge : w.b.cap ≤ w.b.msgs.length := by simpa [hasRoom] using hroom
      rw [Publish_full_nil w msg hroom]
      exact ⟨fun _ => hge, fun _ => rfl⟩
  · intro msgs
    obtain ⟨g1, g2⟩ := run_publishes msgs w
    have hnl : ∀ a ∈ msgs.map Action.publish, NoLoop a := by
      intro a ha
      obtain ⟨m, _, rfl⟩ := List.mem_map.mp ha
      trivial
    refine ⟨g1, ?_, g2⟩
    rw [(run_without_loop _ w hnl).1, g1]

/-- Witness of C30: a broker never started, with one subscriber and two free
slots; of three messages published the first two stay queued and the third is
refused, and nothing is delivered. -/
theorem Publish_without_loop_witness :
    (∀ a ∈ exNoLoop, NoLoop a) ∧
    (run (Subscribe (World.init "slots" 2 1 : World Nat)).1 exNoLoop).world.b.msgs =
      (Subscribe (World.init "slots" 2 1 : World Nat)).1.b.msgs ++
        (run (Subscribe (World.init "slots" 2 1 : World Nat)).1 exNoLoop).accepted ∧
    (run (Subscribe (World.init "slots" 2 1 : World Nat)).1 exNoLoop).accepted = [10, 20] :=
  have hno : ∀ a ∈ exNoLoop, NoLoop (T := Nat) a := by
    intro a ha
    simp only [exNoLoop, List.mem_cons, List.mem_singleton, List.not_mem_nil, or_false] at ha
    rcases ha with rfl | rfl | rfl | rfl | rfl <;> trivial
  ⟨hno, (Publish_without_loop (Subscribe (World.init "slots" 2 1 : World Nat)).1 exNoLoop
    hno).2.2.1, rfl⟩

theorem Inv_Unsubscribe (d : Client) (w : World T) (h : Inv w) :
    Holds Inv (Unsubscribe w d) := by
  obtain ⟨hnd, hopen⟩ := h
  have hfil : ∀ c ∈ w.b.clients.filter (fun k => k ≠ d), c ∈ w.b.clients ∧ c ≠ d := by
    intro c hc
    simpa using hc
  have hi : Inv ({ w with b := { w.b with clients := w.b.clients.filter (fun k => k ≠ d) } } :
      World T) := ⟨hnd.filter _, fun c hc => hopen c (hfil c hc).1⟩
  cases hd : w.chans[d]? with
  | none => rw [Unsubscribe_nil w d hd]; exact hi
  | some flag =>
    cases flag with
    | true => rw [Unsubscribe_closed w d hd]; exact hi
    | false => rw [Unsubscribe_open w d hd]; exact Inv_Unsubscribe_open w d ⟨hnd, hopen⟩

theorem Inv_sendOrTimeout (msg : T) (ready : Client → Bool) (w : World T) (c : Client)
    (h : Inv w) : Holds Inv (sendOrTimeout msg ready w c) := by
  simp only [sendOrTimeout]
  split
  · exact h
  · split
    · exact h
    · exact h
  · exact h

theorem Inv_startIter (w : World T) (ev : Select) (h : Inv w) :
    HoldsIter Inv (startIter w ev) := by
  cases ev with
  | ctxDone o =>
    have hf := forRange_holds Inv Unsubscribe (fun w d hw => Inv_Unsubscribe d w hw)
      (o.pick w.b.clients) w h
    simp only [startIter]
    cases hr : forRange Unsubscribe (o.pick w.b.clients) w with
    | ok w1 => rw [hr] at hf; exact hf
    | error e => rw [hr] at hf; exact hf
  | recvMsg o ready =>
    simp only [startIter]
    cases hq : w.b.msgs with
    | nil => exact h
    | cons msg rest =>
      have h0 : Inv ({ w with b := { w.b with msgs := rest } } : World T) := h
      have hf := forRange_holds Inv (sendOrTimeout msg ready)
        (fun w d hw => Inv_sendOrTimeout msg ready w d hw) (o.pick w.b.clients) _ h0
      simp only []
      cases hr : forRange (sendOrTimeout msg ready) (o.pick w.b.clients)
          { w with b := { w.b with msgs := rest } } with
      | ok w1 => rw [hr] at hf; exact hf
      | error e => rw [hr] at hf; exact hf

theorem Inv_run (acts : List (Action T)) (w : World T) (h : Inv w) :
    Inv (run w acts).world := by
  induction acts generalizing w with
  | nil => exact h
  | cons a rest ih =>
    cases a with
    | subscribe => exact ih _ (Inv_Subscribe w h)
    | unsubscribe d =>
      have hu := Inv_Unsubscribe d w h
      simp only [run]
      cases hr : Unsubscribe w d with
      | ok w1 => rw [hr] at hu; exact ih w1 hu
      | error e => rw [hr] at hu; exact hu
    | publish msg =>
      cases hroom : hasRoom w with
      | true =>
        rw [run_publish_room w msg rest hroom]
        exact ih _ h
      | false =>
        rw [run_publish_full w msg rest hroom]
        exact ih w h
    | loop ev =>
      have hs := Inv_startIter w ev h
      simp only [run]
      cases hr : startIter w ev with
      | ok p => rw [hr] at hs; exact ih p.2 hs
      | error e => rw [hr] at hs; exact hs

theorem broadcast_skips_slow (w : World T) (ev : T) (rest : List T) (hinv : Inv w)
    (hq : w.b.msgs = ev :: rest) (c : Client) (o : IterOrder) (ready : Client → Bool)
    (hr : ready c = false) :
    ∃ w2, startIter w (.recvMsg o ready) = .ok (Loop.running, w2) ∧ w2.b.msgs = rest ∧
      received c w2.trace = received c w.trace ∧
      deliveriesTo c w2.trace = deliveriesTo c w.trace := by
  have hp1 := o.perm w.b.clients
  have hnd : (o.pick w.b.clients).Nodup := hp1.nodup_iff.mpr hinv.1
  refine ⟨_, startIter_recvMsg_ok w ev rest o ready hinv hq, rfl, ?_, ?_⟩
  · simp only [received_append, received_map_attempt c ev ready _ hnd, hr]
    simp
  · simp only [deliveriesTo_append, deliveriesTo_map_attempt c ev ready _ hnd, hr]
    simp

theorem Publish_room_skips_slow (w : World T) (ev : T) (hinv : Inv w)
    (acts : List (Action T)) (rest : List T) (c : Client) (o : IterOrder)
    (ready : Client → Bool) (hq : (run (Publish w ev []).1 acts).world.b.msgs = ev :: rest)
    (hr : ready c = false) :
    ∃ w2, startIter (run (Publish w ev []).1 acts).world (.recvMsg o ready) =
        .ok (Loop.running, w2) ∧
      w2.b.msgs = rest ∧
      received c w2.trace = received c (run (Publish w ev []).1 acts).world.trace ∧
      deliveriesTo c w2.trace =
        deliveriesTo c (run (Publish w ev []).1 acts).world.trace := by
  have hinv1 : Inv (Publish w ev []).1 := by
    simp only [Publish]
    split
    · exact hinv
    · exact hinv
  exact broadcast_skips_slow _ ev rest (Inv_run acts _ hinv1) hq c o ready hr

theorem run_broadcasts (sched : List (IterOrder × (Client → Bool))) (w : World T)
    (hinv : Inv w) :
    (run w (broadcasts sched)).panic = none ∧
    (run w (broadcasts sched)).world.b.msgs = w.b.msgs.drop sched.length ∧
    (run w (broadcasts sched)).accepted = [] ∧
    Inv (run w (broadcasts sched)).world := by
  induction sched generalizing w with
  | nil => simp [broadcasts, run, hinv]
  | cons p rest ih =>
    cases hq : w.b.msgs with
    | nil =>
      have hstep : startIter w (.recvMsg p.1 p.2) = .ok (Loop.running, w) := by
        simp [startIter, hq]
      have h := ih w hinv
      simp only [broadcasts, List.map_cons, run, hstep] at h ⊢
      rw [hq] at h
      simpa using h
    | cons msg tail =>
      have hstep := startIter_recvMsg_ok w msg tail p.1 p.2 hinv hq
      have hinv1 : Inv ({ w with
          b := { w.b with msgs := tail },
          trace := w.trace ++ (p.1.pick w.b.clients).map (attempt msg p.2) } : World T) :=
        hinv
      have h := ih _ hinv1
      simp only [broadcasts, List.map_cons, run, hstep] at h ⊢
      simpa using h

theorem Publish_full_dropped (w : World T) (ev : T) (hfull : hasRoom w = false) :
    (Publish w ev []).2 = some Error.ErrTimeout ∧ (Publish w ev []).1 = w ∧
    ∀ (acts : List (Action T)) (c : Client), ev ∉ w.b.msgs →
      (∀ m, Action.publish m ∈ acts → m ≠ ev) →
      ∃ seg, (run (Publish w ev []).1 acts).world.trace = w.trace ++ seg ∧
        Effect.sent c ev ∉ seg := by
  rw [Publish_full_nil w ev hfull]
  refine ⟨rfl, rfl, ?_⟩
  intro acts c hq hpub
  obtain ⟨seg, htr, hs⟩ := run_sent_origin acts w
  refine ⟨seg, htr, ?_⟩
  intro hm
  rcases hs c ev hm with h | h
  · exact hq h
  · exact hpub ev h rfl

theorem Publish_room_ready (w : World T) (ev : T) (hinv : Inv w) (hroom : hasRoom w = true)
    (c : Client) (hc : c ∈ w.b.clients) (sched : List (IterOrder × (Client → Bool)))
    (hlen : sched.length = w.b.msgs.length + 1) (hr : ∀ p ∈ sched, p.2 c = true) :
    (run (Publish w ev []).1 (broadcasts sched)).panic = none ∧
    (run (Publish w ev []).1 (broadcasts sched)).world.b.msgs = [] ∧
    received c (run (Publish w ev []).1 (broadcasts sched)).world.trace =
      received c w.trace ++ w.b.msgs ++ [ev] := by
  rw [Publish_of_hasRoom w ev [] hroom]
  have hinv1 : Inv ({ w with b := { w.b with msgs := w.b.msgs ++ [ev] } } : World T) := hinv
  obtain ⟨hp, hq, hacc, _⟩ := run_broadcasts sched _ hinv1
  have hq0 : (run ({ w with b := { w.b with msgs := w.b.msgs ++ [ev] } } : World T)
      (broadcasts sched)).world.b.msgs = [] := by
    rw [hq]
    apply List.drop_eq_nil_of_le
    simp [hlen]
  have hsteady : ∀ a ∈ broadcasts (T := T) sched, Steady c a := by
    intro a ha
    obtain ⟨p, hp1, rfl⟩ := List.mem_map.mp ha
    exact hr p hp1
  have h2 := (fifo_core c _ _ hinv1 hc hsteady).1
  rw [hq0, hacc] at h2
  simp only [List.append_nil] at h2
  rw [← List.append_assoc] at h2
  exact ⟨hp, hq0, h2⟩

theorem Publish_room_slow (w : World T) (ev : T) (hinv : Inv w) (hroom : hasRoom w = true)
    (c : Client) (sched : List (IterOrder × (Client → Bool)))
    (hlen : sched.length = w.b.msgs.length) (o : IterOrder) (ready : Client → Bool)
    (hr : ready c = false) :
    (run (Publish w ev []).1 (broadcasts sched)).panic = none ∧
    (run (Publish w ev []).1 (broadcasts sched)).world.b.msgs = [ev] ∧
    ∃ w2, startIter (run (Publish w ev []).1 (broadcasts sched)).world (.recvMsg o ready) =
        .ok (Loop.running, w2) ∧
      w2.b.msgs = [] ∧
      received c w2.trace =
        received c (run (Publish w ev []).1 (broadcasts sched)).world.trace ∧
      deliveriesTo c w2.trace =
        deliveriesTo c (run (Publish w ev []).1 (broadcasts sched)).world.trace ∧
      ∀ acts : List (Action T), (∀ m, Action.publish m ∈ acts → m ≠ ev) →
        ∃ seg, (run w2 acts).world.trace = w2.trace ++ seg ∧ Effect.sent c ev ∉ seg := by
  rw [Publish_of_hasRoom w ev [] hroom]
  have hinv1 : Inv ({ w with b := { w.b with msgs := w.b.msgs ++ [ev] } } : World T) := hinv
  obtain ⟨hp, hq, _, hinv2⟩ := run_broadcasts sched _ hinv1
  have hq1 : (run ({ w with b := { w.b with msgs := w.b.msgs ++ [ev] } } : World T)
      (broadcasts sched)).world.b.msgs = ev :: [] := by
    rw [hq, hlen]
    simp
  generalize (run ({ w with b := { w.b with msgs := w.b.msgs ++ [ev] } } : World T)
    (broadcasts sched)).world = w1 at hq1 hinv2
  have hp1 := o.perm w1.b.clients
  have hnd : (o.pick w1.b.clients).Nodup := hp1.nodup_iff.mpr hinv2.1
  refine ⟨hp, hq1, _, startIter_recvMsg_ok w1 ev [] o ready hinv2 hq1, rfl, ?_, ?_, ?_⟩
  · simp only [received_append, received_map_attempt c ev ready _ hnd, hr]
    simp
  · simp only [deliveriesTo_append, deliveriesTo_map_attempt c ev ready _ hnd, hr]
    simp
  · intro acts hpub
    obtain ⟨seg, htr, hs⟩ := run_sent_origin acts
      ({ b := { w1.b with msgs := [] }, chans := w1.chans,
         trace := w1.trace ++ (o.pick w1.b.clients).map (attempt ev ready) } : World T)
    refine ⟨seg, htr, ?_⟩
    intro hm
    rcases hs c ev hm with h | h
    · cases h
    · exact hpub ev h rfl

theorem startIter_ok_of_Inv (w : World T) (ev : Select) (hinv : Inv w) :
    ∃ l w1, startIter w ev = .ok (l, w1) := by
  cases ev with
  | ctxDone o =>
    obtain ⟨w1, h, _⟩ := startIter_ctxDone_ok w o hinv
    exact ⟨_, w1, h⟩
  | recvMsg o ready =>
    cases hq : w.b.msgs with
    | nil => exact ⟨Loop.running, w, by simp [startIter, hq]⟩
    | cons msg rest => exact ⟨_, _, startIter_recvMsg_ok w msg rest o ready hinv hq⟩

theorem run_Registered (acts : List (Action T)) (w : World T) (hg : Good w)
    (hr : Registered w acts) : (run w acts).panic = none := by
  induction acts generalizing w with
  | nil => rfl
  | cons a rest ih =>
    cases a with
    | subscribe => exact ih _ (Good_Subscribe w hg) hr
    | unsubscribe c =>
      obtain ⟨hc, hrest⟩ := hr
      have hopen : w.chans[c]? = some false := hg.1.2 c hc
      have hu := Good_Unsubscribe c w hg
      rw [Unsubscribe_open w c hopen] at hu hrest
      simp only [run, Unsubscribe_open w c hopen]
      exact ih _ hu hrest
    | publish msg =>
      have hp := Good_Publish w msg hg
      have hr2 : Registered (Publish w msg []).1 rest := hr
      simp only [run]
      cases hq : Publish w msg [] with
      | mk w1 err =>
        rw [hq] at hp hr2
        cases err with
        | none => exact ih w1 hp hr2
        | some e => exact ih w1 hp hr2
    | loop ev =>
      obtain ⟨l, w1, hstep⟩ := startIter_ok_of_Inv w ev hg.1
      have hs := Good_startIter w ev hg
      have hr2 : match startIter w ev with
          | .ok (_, w1) => Registered w1 rest
          | .error _ => True := hr
      rw [hstep] at hs hr2
      simp only [run, hstep]
      exact ih w1 hs hr2

theorem closeCallsRange_count (c : Client) (keys : List Client) (w : World T)
    (hnd : keys.Nodup) (hk : ∀ k ∈ keys, k ∈ w.b.clients ∧ w.chans[k]? = some false) :
    closeCallsRange c keys w = keys.count c := by
  induction keys generalizing w with
  | nil => rfl
  | cons k rest ih =>
    obtain ⟨hc, hopen⟩ := hk k (by simp)
    have hkr : k ∉ rest := (List.nodup_cons.mp hnd).1
    have hk2 : ∀ d ∈ rest,
        d ∈ (w.b.clients.filter (fun x => x ≠ k)) ∧ (w.chans.set k true)[d]? = some false := by
      intro d hd
      have hne : d ≠ k := fun e => hkr (e ▸ hd)
      obtain ⟨h1, h2⟩ := hk d (by simp [hd])
      refine ⟨by simp [h1, hne], ?_⟩
      simp [List.getElem?_set, Ne.symm hne, h2]
    have h := ih
      { b := { w.b with clients := w.b.clients.filter (fun x => x ≠ k) },
        chans := w.chans.set k true, trace := w.trace ++ [Effect.closed k] }
      (List.nodup_cons.mp hnd).2 hk2
    simp only [closeCallsRange, hc, if_true, Unsubscribe_open w k hopen, h, List.count_cons]
    by_cases hkc : k = c
    · simp [hkc, Nat.add_comm]
    · simp [hkc]

theorem closes_closeCalls (c : Client) (acts : List (Action T)) (w : World T) (hg : Good w)
    (hr : Registered w acts) :
    closes c (run w acts).world.trace = closes c w.trace + closeCalls c w acts := by
  induction acts generalizing w with
  | nil => rfl
  | cons a rest ih =>
    cases a with
    | subscribe => exact ih _ (Good_Subscribe w hg) hr
    | unsubscribe d =>
      obtain ⟨hd, hrest⟩ := hr
      have hopen : w.chans[d]? = some false := hg.1.2 d hd
      have hu := Good_Unsubscribe d w hg
      obtain ⟨w1, hw1, htr⟩ : ∃ w1, Unsubscribe w d = .ok w1 ∧
          w1.trace = w.trace ++ [Effect.closed d] := ⟨_, Unsubscribe_open w d hopen, rfl⟩
      rw [hw1] at hu hrest
      have h := ih w1 hu hrest
      simp only [run, closeCalls, hw1]
      rw [h, htr, closes_snoc_closed]
      omega
    | publish msg =>
      have hp := Good_Publish w msg hg
      have hr2 : Registered (Publish w msg []).1 rest := hr
      have htr : (Publish w msg []).1.trace = w.trace := by
        simp only [Publish]
        split <;> rfl
      have h := ih _ hp hr2
      rw [htr] at h
      simp only [run, closeCalls]
      cases hq : Publish w msg [] with
      | mk w1 err =>
        rw [hq] at h
        cases err with
        | none => exact h
        | some e => exact h
    | loop ev =>
      have hs := Good_startIter w ev hg
      have hr2 : match startIter w ev with
          | .ok (_, w1) => Registered w1 rest
          | .error _ => True := hr
      cases ev with
      | ctxDone o =>
        obtain ⟨w1, hstep, _, htr, _⟩ := startIter_ctxDone_ok w o hg.1
        rw [hstep] at hs hr2
        have h := ih w1 hs hr2
        have hp := o.perm w.b.clients
        have hcount := closeCallsRange_count c (o.pick w.b.clients) w
          (hp.nodup_iff.mpr hg.1.1)
          (fun k hk => ⟨hp.mem_iff.mp hk, hg.1.2 k (hp.mem_iff.mp hk)⟩)
        simp only [run, closeCalls, hstep]
        rw [h, htr, closes_append, closes_map_closed, hcount]
        omega
      | recvMsg o ready =>
        obtain ⟨l, w1, hstep⟩ := startIter_ok_of_Inv w (.recvMsg o ready) hg.1
        have hsame := SameRegistry_broadcast w o ready
        rw [hstep] at hs hr2 hsame
        have h := ih w1 hs hr2
        simp only [run, closeCalls, hstep]
        rw [h, hsame.2.2.1 c]

/-- Counterexample to C8: from `New`, the schedule Subscribe, Unsubscribe of the
mailbox returned, Unsubscribe of it again.  After the first two steps the
mailbox has one close on record and `close` has been called on it once; the
third step calls `close` on it a second time, which panics.  The first two
steps unsubscribe a registered mailbox, the third does not. -/
theorem second_close_is_called :
    (run (World.init "slots" 4 1 : World Nat) [.subscribe, .unsubscribe 0]).panic = none ∧
    (run (World.init "slots" 4 1 : World Nat) [.subscribe, .unsubscribe 0]).world =
      exUnsubscribed ∧
    closes 0 exUnsubscribed.trace = 1 ∧
    closeCalls 0 (World.init "slots" 4 1 : World Nat) [.subscribe, .unsubscribe 0] = 1 ∧
    chanClose exUnsubscribed 0 = .error (Panic.closeOfClosedChannel, exUnsubscribed) ∧
    (run (World.init "slots" 4 1 : World Nat)
      [.subscribe, .unsubscribe 0, .unsubscribe 0]).panic = some Panic.closeOfClosedChannel ∧
    closeCalls 0 (World.init "slots" 4 1 : World Nat)
      [.subscribe, .unsubscribe 0, .unsubscribe 0] = 2 ∧
    Registered (World.init "slots" 4 1 : World Nat) [.subscribe, .unsubscribe 0] ∧
    ¬ Registered (World.init "slots" 4 1 : World Nat)
      [.subscribe, .unsubscribe 0, .unsubscribe 0] := by
  refine ⟨rfl, rfl, rfl, rfl, rfl, rfl, rfl, ?_, ?_⟩
  · exact ⟨by decide, trivial⟩
  · rintro ⟨_, h⟩
    exact absurd h.1 (by decide)

/-- C8, amended: in every world reached from `New` by a schedule of Subscribe,
Unsubscribe, Publish and iterations of the loop (broadcast or cancellation),
whether the schedule ran to its end or was ended by a panic, every mailbox has
at most one completed close on record, the registered mailboxes are distinct,
open and have no close on record, a closed mailbox is not registered and has
one close on record, and the mailbox the next Subscribe returns has no close
on record and is not registered.  The broker does not keep `close` from being
called a second time: in every such world Unsubscribe of a closed mailbox
panics with `close of closed channel` and leaves the world as it was.  When
every Unsubscribe of the schedule is of a mailbox registered at the time of the
call, no step panics and `close` is called at most once on every mailbox: the
calls of `close` on a mailbox are as many as its completed closes on record. -/
theorem mailbox_invariant (name : String) (size timeout : Nat) (acts : List (Action T)) :
    (∀ c, closes c (run (World.init name size timeout) acts).world.trace ≤ 1) ∧
    (run (World.init name size timeout) acts).world.b.clients.Nodup ∧
    (∀ c ∈ (run (World.init name size timeout) acts).world.b.clients,
      (run (World.init name size timeout) acts).world.chans[c]? = some false ∧
      closes c (run (World.init name size timeout) acts).world.trace = 0) ∧
    closes (Subscribe (run (World.init name size timeout) acts).world).2.1
      (run (World.init name size timeout) acts).world.trace = 0 ∧
    (Subscribe (run (World.init name size timeout) acts).world).2.1 ∉
      (run (World.init name size timeout) acts).world.b.clients ∧
    (∀ c, (run (World.init name size timeout) acts).world.chans[c]? = some true →
      c ∉ (run (World.init name size timeout) acts).world.b.clients ∧
      closes c (run (World.init name size timeout) acts).world.trace = 1 ∧
      Unsubscribe (run (World.init name size timeout) acts).world c =
        .error (Panic.closeOfClosedChannel, (run (World.init name size timeout) acts).world)) ∧
    (Registered (World.init name size timeout) acts →
      (run (World.init name size timeout) acts).panic = none ∧
      ∀ c, closeCalls c (World.init name size timeout) acts =
          closes c (run (World.init name size timeout) acts).world.trace ∧
        closeCalls c (World.init name size timeout) acts ≤ 1) := by
  have hpanic := run_Registered acts (World.init name size timeout : World T)
    (Good_init name size timeout)
  have hcalls := fun c => closes_closeCalls c acts (World.init name size timeout : World T)
    (Good_init name size timeout)
  have hg := Good_run acts (World.init name size timeout) (Good_init name size timeout)
  have hle : ∀ c, closes c (run (World.init name size timeout : World T) acts).world.trace ≤ 1 := by
    intro c
    rw [hg.2 c]
    split <;> omega
  refine ⟨hle, hg.1.1, ?_, ?_, ?_, ?_, ?_⟩
  · intro c hc
    refine ⟨hg.1.2 c hc, ?_⟩
    rw [hg.2 c, hg.1.2 c hc]
    simp
  · rw [hg.2]
    simp [Subscribe]
  · intro hmem
    have := (List.getElem?_eq_some_iff.mp (hg.1.2 _ hmem)).1
    simp [Subscribe] at this
  · intro c hc
    have hnot : c ∉ (run (World.init name size timeout : World T) acts).world.b.clients := by
      intro hm
      rw [hg.1.2 c hm] at hc
      cases hc
    refine ⟨hnot, ?_, Unsubscribe_removed_closed _ c hnot hc⟩
    rw [hg.2 c, hc]
    simp
  · intro hreg
    refine ⟨hpanic hreg, ?_⟩
    intro c
    have h := hcalls c hreg
    have h0 : closes c (World.init name size timeout : World T).trace = 0 := by
      simp [World.init, closes]
    rw [h0, Nat.zero_add] at h
    exact ⟨h.symm, h ▸ hle c⟩

end broker

/-! ## Properties of the validator service -/

namespace validator

open broker (Error)

variable {σ B S : Type}

theorem countP_logIf_block (failed : Option Error) (msg : String) (err : Option Error) :
    (logIf failed msg err : List (Call B S)).countP isPublishBlock = 0 := by
  cases failed <;> simp [logIf, isPublishBlock]

theorem countP_logIf_sidecars (failed : Option Error) (msg : String) (err : Option Error) :
    (logIf failed msg err : List (Call B S)).countP isPublishSidecars = 0 := by
  cases failed <;> simp [logIf, isPublishSidecars]

theorem publishBlock_not_mem_logIf (failed : Option Error) (msg : String) (err : Option Error)
    (ev : Event B) : Call.publishBlock ev ∉ (logIf failed msg err : List (Call B S)) := by
  cases failed <;> simp [logIf]

theorem publishSidecars_not_mem_logIf (failed : Option Error) (msg : String)
    (err : Option Error) (ev : Event S) :
    Call.publishSidecars ev ∉ (logIf failed msg err : List (Call B S)) := by
  cases failed <;> simp [logIf]

/-- C10: whatever the builder returns and whatever the two Publish calls return,
handleNewSlot calls Publish once on the block broker and once on the sidecars
broker, each on the state the previous call left, and the event passed to each
carries the error the builder returned, nil when the build succeeded. -/
theorem handleNewSlot_paired_emission (d : Deps σ B S) (s : σ) (req : Event Slot) :
    ((handleNewSlot d s req).2.countP isPublishBlock = 1 ∧
      (handleNewSlot d s req).2.countP isPublishSidecars = 1) ∧
    (∀ ev, Call.publishBlock ev ∈ (handleNewSlot d s req).2 →
      ev.err = (d.buildBlockAndSidecars s req.ctx req.data).2.2.2 ∧
      ev.data = (d.buildBlockAndSidecars s req.ctx req.data).2.1) ∧
    (∀ ev, Call.publishSidecars ev ∈ (handleNewSlot d s req).2 →
      ev.err = (d.buildBlockAndSidecars s req.ctx req.data).2.2.2 ∧
      ev.data = (d.buildBlockAndSidecars s req.ctx req.data).2.2.1) ∧
    (∃ evB evS, Call.publishBlock evB ∈ (handleNewSlot d s req).2 ∧
      Call.publishSidecars evS ∈ (handleNewSlot d s req).2 ∧
      (handleNewSlot d s req).1 =
        (d.sidecarsBrokerPublish
          (d.blkBrokerPublish (d.buildBlockAndSidecars s req.ctx req.data).1 evB).1 evS).1) := by
  refine ⟨⟨?_, ?_⟩, ?_, ?_, ?_⟩
  · simp [handleNewSlot, List.countP_append, countP_logIf_block, isPublishBlock]
  · simp [handleNewSlot, List.countP_append, countP_logIf_sidecars, isPublishSidecars]
  · intro ev hev
    simp only [handleNewSlot, List.mem_append, List.mem_singleton] at hev
    rcases hev with ((((h | h) | h) | h) | h) | h
    · cases h
    · exact absurd h (publishBlock_not_mem_logIf _ _ _ ev)
    · cases h; exact ⟨rfl, rfl⟩
    · exact absurd h (publishBlock_not_mem_logIf _ _ _ ev)
    · cases h
    · exact absurd h (publishBlock_not_mem_logIf _ _ _ ev)
  · intro ev hev
    simp only [handleNewSlot, List.mem_append, List.mem_singleton] at hev
    rcases hev with ((((h | h) | h) | h) | h) | h
    · cases h
    · exact absurd h (publishSidecars_not_mem_logIf _ _ _ ev)
    · cases h
    · exact absurd h (publishSidecars_not_mem_logIf _ _ _ ev)
    · cases h; exact ⟨rfl, rfl⟩
    · exact absurd h (publishSidecars_not_mem_logIf _ _ _ ev)
  · refine ⟨_, _, ?_, ?_, rfl⟩
    · simp [handleNewSlot]
    · simp [handleNewSlot]

theorem filter_notLog_logIf (failed : Option Error) (msg : String) (err : Option Error) :
    (logIf failed msg err : List (Call B S)).filter (fun c => !isLog c) = [] := by
  cases failed <;> simp [logIf, isLog]

theorem countP_isBuild_logIf (failed : Option Error) (msg : String) (err : Option Error) :
    (logIf failed msg err : List (Call B S)).countP isBuild = 0 := by
  cases failed <;> simp [logIf, isBuild]

theorem filter_notLog_handleNewSlot (d : Deps σ B S) (s : σ) (req : Event Slot) :
    (handleNewSlot d s req).2.filter (fun c => !isLog c) =
      handled (req, (d.buildBlockAndSidecars s req.ctx req.data).2) := by
  simp only [handleNewSlot, List.filter_append, filter_notLog_logIf]
  simp [List.filter, isLog, handled]

/-- C12, the code at a failing input: the builder succeeds and both Publish calls
return ErrTimeout; the logger is called for each failed Publish with the nil
error of the builder, and is never called with ErrTimeout. -/
theorem handleNewSlot_logs_builder_error :
    (handleNewSlot exTimeoutDeps () exSlotEvent).2 =
      [Call.build 5 7,
       Call.publishBlock (NewEvent 5 EventID.BeaconBlockBuilt 107 none),
       Call.logError "failed to publish block" none,
       Call.publishSidecars (NewEvent 5 EventID.BlobSidecarsBuilt 207 none),
       Call.logError "failed to publish sidecars" none] ∧
    (exTimeoutDeps.blkBrokerPublish ()
      (NewEvent 5 EventID.BeaconBlockBuilt 107 none)).2 = some Error.ErrTimeout ∧
    (exTimeoutDeps.sidecarsBrokerPublish ()
      (NewEvent 5 EventID.BlobSidecarsBuilt 207 none)).2 = some Error.ErrTimeout ∧
    (∀ msg, Call.logError msg (some Error.ErrTimeout) ∉
      (handleNewSlot exTimeoutDeps () exSlotEvent).2) := by
  have h : (handleNewSlot exTimeoutDeps () exSlotEvent).2 =
      [Call.build 5 7,
       Call.publishBlock (NewEvent 5 EventID.BeaconBlockBuilt 107 none),
       Call.logError "failed to publish block" none,
       Call.publishSidecars (NewEvent 5 EventID.BlobSidecarsBuilt 207 none),
       Call.logError "failed to publish sidecars" none] := rfl
  refine ⟨h, rfl, rfl, ?_⟩
  intro msg hmem
  rw [h] at hmem
  simp at hmem

/-- C13: handleNewSlot calls the builder once, first, with the context and the
slot of the event; besides logging it then makes exactly two calls, in this
order: Publish on the block broker of the event with the context of the
request, kind BeaconBlockBuilt and the block the builder returned, and Publish
on the sidecars broker of the event with the context of the request, kind
BlobSidecarsBuilt and the sidecars the builder returned. -/
theorem handleNewSlot_build_then_publish (d : Deps σ B S) (s : σ) (req : Event Slot) :
    (handleNewSlot d s req).2.head? = some (Call.build req.ctx req.data) ∧
    (handleNewSlot d s req).2.countP isBuild = 1 ∧
    (handleNewSlot d s req).2.filter (fun c => !isLog c) =
      [Call.build req.ctx req.data,
       Call.publishBlock
         { ctx := req.ctx, kind := EventID.BeaconBlockBuilt,
           data := (d.buildBlockAndSidecars s req.ctx req.data).2.1,
           err := (d.buildBlockAndSidecars s req.ctx req.data).2.2.2 },
       Call.publishSidecars
         { ctx := req.ctx, kind := EventID.BlobSidecarsBuilt,
           data := (d.buildBlockAndSidecars s req.ctx req.data).2.2.1,
           err := (d.buildBlockAndSidecars s req.ctx req.data).2.2.2 }] := by
  refine ⟨?_, ?_, ?_⟩
  · simp [handleNewSlot]
  · simp [handleNewSlot, List.countP_append, countP_isBuild_logIf, isBuild]
  · rw [filter_notLog_handleNewSlot]
    rfl

/-- C14: an event received from the slot mailbox whose kind is not NewSlot makes
the loop call nothing at all, neither the builder nor a publisher, and leaves
the collaborators as they were; an event of kind NewSlot is handled by
handleNewSlot; so the builder is called if and only if the kind is NewSlot. -/
theorem startIter_handles_iff_NewSlot (d : Deps σ B S) (s : σ) (req : Event Slot) :
    (req.kind ≠ EventID.NewSlot →
      startIter d s (.event (some req)) = .ok (broker.Loop.running, s, [])) ∧
    (req.kind = EventID.NewSlot →
      startIter d s (.event (some req)) = .ok (broker.Loop.running, handleNewSlot d s req)) ∧
    ∃ s1 calls, startIter d s (.event (some req)) = .ok (broker.Loop.running, s1, calls) ∧
      (calls.countP isBuild = if req.kind = EventID.NewSlot then 1 else 0) ∧
      (calls.countP isPublishBlock = if req.kind = EventID.NewSlot then 1 else 0) ∧
      (calls.countP isPublishSidecars = if req.kind = EventID.NewSlot then 1 else 0) ∧
      (Call.build req.ctx req.data ∈ calls ↔ req.kind = EventID.NewSlot) := by
  by_cases hk : req.kind = EventID.NewSlot
  · refine ⟨fun h => absurd hk h, fun _ => by simp [startIter, hk], ?_⟩
    refine ⟨(handleNewSlot d s req).1, (handleNewSlot d s req).2, by simp [startIter, hk], ?_⟩
    simp only [hk, if_true, iff_true]
    refine ⟨?_, ?_, ?_, ?_⟩
    · simp [handleNewSlot, List.countP_append, countP_isBuild_logIf, isBuild]
    · simp [handleNewSlot, List.countP_append, countP_logIf_block, isPublishBlock]
    · simp [handleNewSlot, List.countP_append, countP_logIf_sidecars, isPublishSidecars]
    · simp [handleNewSlot]
  · refine ⟨fun _ => by simp [startIter, hk], fun h => absurd h hk, ?_⟩
    exact ⟨s, [], by simp [startIter, hk], by simp [hk]⟩

theorem counts_handleNewSlot (d : Deps σ B S) (s : σ) (req : Event Slot) :
    (handleNewSlot d s req).2.countP isBuild = 1 ∧
    (handleNewSlot d s req).2.countP isPublishBlock = 1 ∧
    (handleNewSlot d s req).2.countP isPublishSidecars = 1 := by
  refine ⟨?_, ?_, ?_⟩
  · simp [handleNewSlot, List.countP_append, countP_isBuild_logIf, isBuild]
  · simp [handleNewSlot, List.countP_append, countP_logIf_block, isPublishBlock]
  · simp [handleNewSlot, List.countP_append, countP_logIf_sidecars, isPublishSidecars]

theorem start_cons_of_running (d : Deps σ B S) (s s1 s2 : σ) (ev : Received)
    (evs : List Received) (calls more : List (Call B S)) (l : broker.Loop)
    (hstep : startIter d s ev = .ok (broker.Loop.running, s1, calls))
    (hrest : start d s1 evs = .ok (l, s2, more)) :
    start d s (ev :: evs) = .ok (l, s2, calls ++ more) := by
  simp [start, hstep, hrest]

theorem start_receives (d : Deps σ B S) (reqs : List (Event Slot)) (later : List Received)
    (s : σ) :
    ∃ s1 calls outs,
      start d s (receives reqs) = .ok (broker.Loop.running, s1, calls) ∧
      start d s (receives reqs ++ Received.ctxDone :: later) =
        .ok (broker.Loop.returned, s1, calls) ∧
      outs.length = (reqs.filter isNewSlot).length ∧
      calls.filter (fun c => !isLog c) =
        (List.zip (reqs.filter isNewSlot) outs).flatMap handled ∧
      calls.countP isBuild = (reqs.filter isNewSlot).length ∧
      calls.countP isPublishBlock = (reqs.filter isNewSlot).length ∧
      calls.countP isPublishSidecars = (reqs.filter isNewSlot).length := by
  induction reqs generalizing s with
  | nil =>
    exact ⟨s, [], [], by simp [receives, start], by simp [receives, start, startIter],
      by simp, by simp, by simp, by simp, by simp⟩
  | cons r rest ih =>
    by_cases hk : r.kind = EventID.NewSlot
    · obtain ⟨s1, calls, outs, h1, h2, hlen, hfil, hb, hpb, hps⟩ :=
        ih (handleNewSlot d s r).1
      have hstep : startIter d s (.event (some r)) =
          .ok (broker.Loop.running, (handleNewSlot d s r).1, (handleNewSlot d s r).2) := by
        simp [startIter, hk]
      have hnew : isNewSlot r = true := by simp [isNewSlot, hk]
      obtain ⟨c1, c2, c3⟩ := counts_handleNewSlot d s r
      refine ⟨s1, (handleNewSlot d s r).2 ++ calls,
        (d.buildBlockAndSidecars s r.ctx r.data).2 :: outs, ?_, ?_, ?_, ?_, ?_, ?_, ?_⟩
      · exact start_cons_of_running d s _ s1 _ _ _ calls _ hstep h1
      · exact start_cons_of_running d s _ s1 _ _ _ calls _ hstep h2
      · simp [List.filter_cons, hnew, hlen]
      · rw [List.filter_append, filter_notLog_handleNewSlot, hfil]
        simp [List.filter_cons, hnew, List.flatMap_cons]
      · simp [List.countP_append, c1, hb, List.filter_cons, hnew, Nat.add_comm]
      · simp [List.countP_append, c2, hpb, List.filter_cons, hnew, Nat.add_comm]
      · simp [List.countP_append, c3, hps, List.filter_cons, hnew, Nat.add_comm]
    · obtain ⟨s1, calls, outs, h1, h2, hlen, hfil, hb, hpb, hps⟩ := ih s
      have hstep : startIter d s (.event (some r)) = .ok (broker.Loop.running, s, []) := by
        simp [startIter, hk]
      have hnew : isNewSlot r = false := by simp [isNewSlot, hk]
      refine ⟨s1, calls, outs, ?_, ?_, ?_, ?_, ?_, ?_, ?_⟩
      · exact start_cons_of_running d s _ s1 _ _ [] calls _ hstep h1
      · exact start_cons_of_running d s _ s1 _ _ [] calls _ hstep h2
      · simp [List.filter_cons, hnew, hlen]
      · simp [List.filter_cons, hnew, hfil]
      · simp [List.filter_cons, hnew, hb]
      · simp [List.filter_cons, hnew, hpb]
      · simp [List.filter_cons, hnew, hps]

theorem blockEvents_filter_notLog (calls : List (Call B S)) :
    blockEvents (calls.filter (fun c => !isLog c)) = blockEvents calls := by
  induction calls with
  | nil => rfl
  | cons c rest ih =>
    cases c <;> simp_all [blockEvents, List.filter_cons, isLog, List.filterMap_cons]

theorem sidecarEvents_filter_notLog (calls : List (Call B S)) :
    sidecarEvents (calls.filter (fun c => !isLog c)) = sidecarEvents calls := by
  induction calls with
  | nil => rfl
  | cons c rest ih =>
    cases c <;> simp_all [sidecarEvents, List.filter_cons, isLog, List.filterMap_cons]

theorem blockEvents_handled (zs : List (Event Slot × (B × S × Option Error))) :
    blockEvents (zs.flatMap handled) =
      zs.map (fun p => NewEvent p.1.ctx EventID.BeaconBlockBuilt p.2.1 p.2.2.2) := by
  induction zs with
  | nil => rfl
  | cons z rest ih =>
    simp only [List.flatMap_cons, List.map_cons]
    simp only [blockEvents, List.filterMap_append] at ih ⊢
    rw [ih]
    simp [handled, List.filterMap_cons]

theorem sidecarEvents_handled (zs : List (Event Slot × (B × S × Option Error))) :
    sidecarEvents (zs.flatMap handled) =
      zs.map (fun p => NewEvent p.1.ctx EventID.BlobSidecarsBuilt p.2.2.1 p.2.2.2) := by
  induction zs with
  | nil => rfl
  | cons z rest ih =>
    simp only [List.flatMap_cons, List.map_cons]
    simp only [sidecarEvents, List.filterMap_append] at ih ⊢
    rw [ih]
    simp [handled, List.filterMap_cons]

theorem map_ctx_zip {D : Type} (news : List (Event Slot))
    (outs : List (B × S × Option Error)) (kind : EventID) (pick : B × S × Option Error → D)
    (h : outs.length = news.length) :
    ((List.zip news outs).map (fun p => NewEvent p.1.ctx kind (pick p.2) p.2.2.2)).map
      (fun ev => ev.ctx) = news.map (fun r => r.ctx) := by
  induction news generalizing outs with
  | nil => simp
  | cons r rest ih =>
    cases outs with
    | nil => simp at h
    | cons o os =>
      simp only [List.length_cons, Nat.add_right_cancel_iff] at h
      simp only [List.zip_cons_cons, List.map_cons, NewEvent, List.cons.injEq, true_and]
      exact ih os h

/-- C15: when the events `reqs` are received from the slot mailbox, in that
order, and then the context is cancelled, the loop returns without a panic;
it has called the builder and each publisher once per event of kind NewSlot;
besides logging, its calls are, for each such event in the order of arrival,
the builder, then Publish on the block broker, then Publish on the sidecars
broker, all for that event, before any call for the next; and the events
published on each broker carry the contexts of those events in that order. -/
theorem start_one_per_NewSlot (d : Deps σ B S) (s : σ) (reqs : List (Event Slot))
    (later : List Received) :
    ∃ s1 calls outs,
      start d s (receives reqs ++ Received.ctxDone :: later) =
        .ok (broker.Loop.returned, s1, calls) ∧
      outs.length = (reqs.filter isNewSlot).length ∧
      calls.filter (fun c => !isLog c) =
        (List.zip (reqs.filter isNewSlot) outs).flatMap handled ∧
      calls.countP isBuild = (reqs.filter isNewSlot).length ∧
      (blockEvents calls).length = (reqs.filter isNewSlot).length ∧
      (sidecarEvents calls).length = (reqs.filter isNewSlot).length ∧
      (blockEvents calls).map (fun ev => ev.ctx) =
        (reqs.filter isNewSlot).map (fun r => r.ctx) ∧
      (sidecarEvents calls).map (fun ev => ev.ctx) =
        (reqs.filter isNewSlot).map (fun r => r.ctx) := by
  obtain ⟨s1, calls, outs, _, h2, hlen, hfil, hb, _, _⟩ := start_receives d reqs later s
  have hB : blockEvents calls = (List.zip (reqs.filter isNewSlot) outs).map
      (fun p => NewEvent p.1.ctx EventID.BeaconBlockBuilt p.2.1 p.2.2.2) := by
    rw [← blockEvents_filter_notLog, hfil, blockEvents_handled]
  have hS : sidecarEvents calls = (List.zip (reqs.filter isNewSlot) outs).map
      (fun p => NewEvent p.1.ctx EventID.BlobSidecarsBuilt p.2.2.1 p.2.2.2) := by
    rw [← sidecarEvents_filter_notLog, hfil, sidecarEvents_handled]
  refine ⟨s1, calls, outs, h2, hlen, hfil, hb, ?_, ?_, ?_, ?_⟩
  · rw [hB]; simp [hlen]
  · rw [hS]; simp [hlen]
  · rw [hB]
    exact map_ctx_zip _ outs EventID.BeaconBlockBuilt (fun o => o.1) hlen
  · rw [hS]
    exact map_ctx_zip _ outs EventID.BlobSidecarsBuilt (fun o => o.2.1) hlen

theorem handleNewSlot_brokerDeps (build : Context → Slot → B × S × Option Error)
    (wB : broker.World (Event B)) (wS : broker.World (Event S)) (req : Event Slot) :
    (handleNewSlot (brokerDeps build) (wB, wS) req).1 =
      ((broker.Publish wB (blockEventOf build req) []).1,
       (broker.Publish wS (sidecarsEventOf build req) []).1) := by
  simp [handleNewSlot, brokerDeps, blockEventOf, sidecarsEventOf]

/-- Counterexample to C11: a block feed with one subscriber.  When the mailbox of
the subscriber is not ready at the broadcast of the block-built event, the
subscriber receives nothing and the event has left the queue; when the queue
of the feed is full, Publish drops the event and the feed is unchanged. -/
theorem subscriber_misses_event :
    (∃ w2, broker.startIter (handleNewSlot (brokerDeps exBuild) (exFeed, exFeed) exSlotEvent).1.1
        (.recvMsg broker.orderStored (fun _ => false)) = .ok (broker.Loop.running, w2) ∧
      0 ∈ w2.b.clients ∧ broker.received 0 w2.trace = [] ∧ w2.b.msgs = []) ∧
    (handleNewSlot (brokerDeps exBuild) (exFeedFull, exFeed) exSlotEvent).1.1 = exFeedFull := by
  refine ⟨⟨_, rfl, by decide, rfl, rfl⟩, rfl⟩

theorem events_handleNewSlot (d : Deps σ B S) (s : σ) (req : Event Slot) :
    blockEvents (handleNewSlot d s req).2 =
      [NewEvent req.ctx EventID.BeaconBlockBuilt (d.buildBlockAndSidecars s req.ctx req.data).2.1
        (d.buildBlockAndSidecars s req.ctx req.data).2.2.2] ∧
    sidecarEvents (handleNewSlot d s req).2 =
      [NewEvent req.ctx EventID.BlobSidecarsBuilt
        (d.buildBlockAndSidecars s req.ctx req.data).2.2.1
        (d.buildBlockAndSidecars s req.ctx req.data).2.2.2] := by
  refine ⟨?_, ?_⟩
  · rw [← blockEvents_filter_notLog, filter_notLog_handleNewSlot]
    rfl
  · rw [← sidecarEvents_filter_notLog, filter_notLog_handleNewSlot]
    rfl

/-- C11, amended: for a slot event handled with two brokers as publishers, each in
a state with distinct open registered mailboxes, the service calls Publish once
on each broker, with the block-built event on the block feed and the
sidecars-built event on the sidecars feed, and leaves each feed as its Publish
left it.  On each feed delivery is best effort.  When the queue is full,
Publish returns ErrTimeout and the event is dropped: the feed is unchanged and,
unless an equal event is queued or published again, no later schedule delivers
it to any subscriber.  When the queue has room, Publish returns nil and the
event is queued last; a subscriber whose mailbox is ready at every broadcast
has received, once the broadcasts have emptied the queue, what it had
received, then the events queued before, then this event once; a subscriber
whose mailbox is not ready at the broadcast of the event, whatever happened at
the broadcasts of the events queued before, receives nothing at that
broadcast, after which the event has left the queue and, unless it is
published again, no later schedule delivers it to that subscriber.  More
generally, after any schedule that leaves the event at the head of the queue,
a subscriber whose mailbox is not ready at the next broadcast receives nothing
at it, and the event has left the queue. -/
theorem handleNewSlot_feeds_best_effort (build : Context → Slot → B × S × Option Error)
    (wB : broker.World (Event B)) (wS : broker.World (Event S)) (req : Event Slot)
    (hB : broker.Inv wB) (hS : broker.Inv wS) :
    ((handleNewSlot (brokerDeps build) (wB, wS) req).2.countP isPublishBlock = 1 ∧
      (handleNewSlot (brokerDeps build) (wB, wS) req).2.countP isPublishSidecars = 1 ∧
      blockEvents (handleNewSlot (brokerDeps build) (wB, wS) req).2 =
        [blockEventOf build req] ∧
      sidecarEvents (handleNewSlot (brokerDeps build) (wB, wS) req).2 =
        [sidecarsEventOf build req] ∧
      (handleNewSlot (brokerDeps build) (wB, wS) req).1 =
        ((broker.Publish wB (blockEventOf build req) []).1,
         (broker.Publish wS (sidecarsEventOf build req) []).1)) ∧
    ((broker.hasRoom wB = false →
        (broker.Publish wB (blockEventOf build req) []).2 = some Error.ErrTimeout ∧
        (handleNewSlot (brokerDeps build) (wB, wS) req).1.1 = wB ∧
        ∀ (acts : List (broker.Action (Event B))) (c : broker.Client),
          blockEventOf build req ∉ wB.b.msgs →
          (∀ m, broker.Action.publish m ∈ acts → m ≠ blockEventOf build req) →
          ∃ seg, (broker.run (handleNewSlot (brokerDeps build) (wB, wS) req).1.1
              acts).world.trace = wB.trace ++ seg ∧
            broker.Effect.sent c (blockEventOf build req) ∉ seg) ∧
      (broker.hasRoom wB = true →
        (broker.Publish wB (blockEventOf build req) []).2 = none ∧
        (handleNewSlot (brokerDeps build) (wB, wS) req).1.1.b.msgs =
          wB.b.msgs ++ [blockEventOf build req]) ∧
      (broker.hasRoom wB = true → ∀ c ∈ wB.b.clients,
        ∀ sched : List (broker.IterOrder × (broker.Client → Bool)),
        sched.length = wB.b.msgs.length + 1 → (∀ p ∈ sched, p.2 c = true) →
        (broker.run (handleNewSlot (brokerDeps build) (wB, wS) req).1.1
          (broker.broadcasts sched)).panic = none ∧
        (broker.run (handleNewSlot (brokerDeps build) (wB, wS) req).1.1
          (broker.broadcasts sched)).world.b.msgs = [] ∧
        broker.received c (broker.run (handleNewSlot (brokerDeps build) (wB, wS) req).1.1
          (broker.broadcasts sched)).world.trace =
          broker.received c wB.trace ++ wB.b.msgs ++ [blockEventOf build req]) ∧
      (broker.hasRoom wB = true → ∀ (c : broker.Client)
        (sched : List (broker.IterOrder × (broker.Client → Bool))),
        sched.length = wB.b.msgs.length → ∀ o ready, ready c = false →
        (broker.run (handleNewSlot (brokerDeps build) (wB, wS) req).1.1
          (broker.broadcasts sched)).panic = none ∧
        (broker.run (handleNewSlot (brokerDeps build) (wB, wS) req).1.1
          (broker.broadcasts sched)).world.b.msgs = [blockEventOf build req] ∧
        ∃ w2, broker.startIter (broker.run (handleNewSlot (brokerDeps build) (wB, wS) req).1.1
            (broker.broadcasts sched)).world (.recvMsg o ready) = .ok (broker.Loop.running, w2) ∧
          w2.b.msgs = [] ∧
          broker.received c w2.trace =
            broker.received c (broker.run (handleNewSlot (brokerDeps build) (wB, wS) req).1.1
              (broker.broadcasts sched)).world.trace ∧
          broker.deliveriesTo c w2.trace =
            broker.deliveriesTo c (broker.run
              (handleNewSlot (brokerDeps build) (wB, wS) req).1.1
              (broker.broadcasts sched)).world.trace ∧
          ∀ acts : List (broker.Action (Event B)),
            (∀ m, broker.Action.publish m ∈ acts → m ≠ blockEventOf build req) →
            ∃ seg, (broker.run w2 acts).world.trace = w2.trace ++ seg ∧
              broker.Effect.sent c (blockEventOf build req) ∉ seg) ∧
      (∀ (acts : List (broker.Action (Event B))) (rest : List (Event B)) (c : broker.Client)
        (o : broker.IterOrder) (ready : broker.Client → Bool),
        (broker.run (handleNewSlot (brokerDeps build) (wB, wS) req).1.1 acts).world.b.msgs =
          blockEventOf build req :: rest → ready c = false →
        ∃ w2, broker.startIter
            (broker.run (handleNewSlot (brokerDeps build) (wB, wS) req).1.1 acts).world
            (.recvMsg o ready) = .ok (broker.Loop.running, w2) ∧
          w2.b.msgs = rest ∧
          broker.received c w2.trace = broker.received c
            (broker.run (handleNewSlot (brokerDeps build) (wB, wS) req).1.1 acts).world.trace ∧
          broker.deliveriesTo c w2.trace = broker.deliveriesTo c
            (broker.run (handleNewSlot (brokerDeps build) (wB, wS) req).1.1 acts).world.trace)) ∧
    ((broker.hasRoom wS = false →
        (broker.Publish wS (sidecarsEventOf build req) []).2 = some Error.ErrTimeout ∧
        (handleNewSlot (brokerDeps build) (wB, wS) req).1.2 = wS ∧
        ∀ (acts : List (broker.Action (Event S))) (c : broker.Client),
          sidecarsEventOf build req ∉ wS.b.msgs →
          (∀ m, broker.Action.publish m ∈ acts → m ≠ sidecarsEventOf build req) →
          ∃ seg, (broker.run (handleNewSlot (brokerDeps build) (wB, wS) req).1.2
              acts).world.trace = wS.trace ++ seg ∧
            broker.Effect.sent c (sidecarsEventOf build req) ∉ seg) ∧
      (broker.hasRoom wS = true →
        (broker.Publish wS (sidecarsEventOf build req) []).2 = none ∧
        (handleNewSlot (brokerDeps build) (wB, wS) req).1.2.b.msgs =
          wS.b.msgs ++ [sidecarsEventOf build req]) ∧
      (broker.hasRoom wS = true → ∀ c ∈ wS.b.clients,
        ∀ sched : List (broker.IterOrder × (broker.Client → Bool)),
        sched.length = wS.b.msgs.length + 1 → (∀ p ∈ sched, p.2 c = true) →
        (broker.run (handleNewSlot (brokerDeps build) (wB, wS) req).1.2
          (broker.broadcasts sched)).panic = none ∧
        (broker.run (handleNewSlot (brokerDeps build) (wB, wS) req).1.2
          (broker.broadcasts sched)).world.b.msgs = [] ∧
        broker.received c (broker.run (handleNewSlot (brokerDeps build) (wB, wS) req).1.2
          (broker.broadcasts sched)).world.trace =
          broker.received c wS.trace ++ wS.b.msgs ++ [sidecarsEventOf build req]) ∧
      (broker.hasRoom wS = true → ∀ (c : broker.Client)
        (sched : List (broker.IterOrder × (broker.Client → Bool))),
        sched.length = wS.b.msgs.length → ∀ o ready, ready c = false →
        (broker.run (handleNewSlot (brokerDeps build) (wB, wS) req).1.2
          (broker.broadcasts sched)).panic = none ∧
        (broker.run (handleNewSlot (brokerDeps build) (wB, wS) req).1.2
          (broker.broadcasts sched)).world.b.msgs = [sidecarsEventOf build req] ∧
        ∃ w2, broker.startIter (broker.run (handleNewSlot (brokerDeps build) (wB, wS) req).1.2
            (broker.broadcasts sched)).world (.recvMsg o ready) = .ok (broker.Loop.running, w2) ∧
          w2.b.msgs = [] ∧
          broker.received c w2.trace =
            broker.received c (broker.run (handleNewSlot (brokerDeps build) (wB, wS) req).1.2
              (broker.broadcasts sched)).world.trace ∧
          broker.deliveriesTo c w2.trace =
            broker.deliveriesTo c (broker.run
              (handleNewSlot (brokerDeps build) (wB, wS) req).1.2
              (broker.broadcasts sched)).world.trace ∧
          ∀ acts : List (broker.Action (Event S)),
            (∀ m, broker.Action.publish m ∈ acts → m ≠ sidecarsEventOf build req) →
            ∃ seg, (broker.run w2 acts).world.trace = w2.trace ++ seg ∧
              broker.Effect.sent c (sidecarsEventOf build req) ∉ seg) ∧
      (∀ (acts : List (broker.Action (Event S))) (rest : List (Event S)) (c : broker.Client)
        (o : broker.IterOrder) (ready : broker.Client → Bool),
        (broker.run (handleNewSlot (brokerDeps build) (wB, wS) req).1.2 acts).world.b.msgs =
          sidecarsEventOf build req :: rest → ready c = false →
        ∃ w2, broker.startIter
            (broker.run (handleNewSlot (brokerDeps build) (wB, wS) req).1.2 acts).world
            (.recvMsg o ready) = .ok (broker.Loop.running, w2) ∧
          w2.b.msgs = rest ∧
          broker.received c w2.trace = broker.received c
            (broker.run (handleNewSlot (brokerDeps build) (wB, wS) req).1.2 acts).world.trace ∧
          broker.deliveriesTo c w2.trace = broker.deliveriesTo c
            (broker.run (handleNewSlot (brokerDeps build) (wB, wS) req).1.2 acts).world.trace)) := by
  obtain ⟨_, c2, c3⟩ := counts_handleNewSlot (brokerDeps build) (wB, wS) req
  obtain ⟨e1, e2⟩ := events_handleNewSlot (brokerDeps build) (wB, wS) req
  have hst := handleNewSlot_brokerDeps build wB wS req
  rw [hst]
  refine ⟨⟨c2, c3, e1, e2, rfl⟩, ⟨?_, ?_, ?_, ?_, ?_⟩, ⟨?_, ?_, ?_, ?_, ?_⟩⟩
  · intro h
    obtain ⟨h1, h2, h3⟩ := broker.Publish_full_dropped wB (blockEventOf build req) h
    refine ⟨h1, h2, ?_⟩
    intro acts c hq hpub
    exact h3 acts c hq hpub
  · intro h
    rw [broker.Publish_of_hasRoom wB _ [] h]
    exact ⟨rfl, rfl⟩
  · intro h c hc sched hlen hr
    exact broker.Publish_room_ready wB _ hB h c hc sched hlen hr
  · intro h c sched hlen o ready hr
    exact broker.Publish_room_slow wB _ hB h c sched hlen o ready hr
  · intro acts rest c o ready hq hr
    exact broker.Publish_room_skips_slow wB _ hB acts rest c o ready hq hr
  · intro h
    obtain ⟨h1, h2, h3⟩ := broker.Publish_full_dropped wS (sidecarsEventOf build req) h
    refine ⟨h1, h2, ?_⟩
    intro acts c hq hpub
    exact h3 acts c hq hpub
  · intro h
    rw [broker.Publish_of_hasRoom wS _ [] h]
    exact ⟨rfl, rfl⟩
  · intro h c hc sched hlen hr
    exact broker.Publish_room_ready wS _ hS h c hc sched hlen hr
  · intro h c sched hlen o ready hr
    exact broker.Publish_room_slow wS _ hS h c sched hlen o ready hr
  · intro acts rest c o ready hq hr
    exact broker.Publish_room_skips_slow wS _ hS acts rest c o ready hq hr

/-- Witness of C11 as amended: two feeds with one subscriber each and room for
the event; the ready subscriber of the block feed receives the event once. -/
theorem handleNewSlot_feeds_best_effort_witness :
    (broker.Inv exFeed ∧ broker.hasRoom exFeed = true ∧ 0 ∈ exFeed.b.clients) ∧
    broker.received 0 (broker.run
        (handleNewSlot (brokerDeps exBuild) (exFeed, exFeed) exSlotEvent).1.1
        (broker.broadcasts [(broker.orderStored, fun _ => true)])).world.trace =
      broker.received 0 exFeed.trace ++ exFeed.b.msgs ++ [blockEventOf exBuild exSlotEvent] :=
  ⟨⟨⟨by decide, by decide⟩, by decide, by decide⟩,
    ((handleNewSlot_feeds_best_effort exBuild exFeed exFeed exSlotEvent
      ⟨by decide, by decide⟩ ⟨by decide, by decide⟩).2.1.2.2.1 (by decide) 0 (by decide)
      [(broker.orderStored, fun _ => true)] rfl (by simp)).2.2⟩

theorem startIter_nil (d : Deps σ B S) (s : σ) :
    startIter d s (.event none) = .error Fault.nilDereference := rfl

theorem startIter_event_ok (d : Deps σ B S) (s : σ) (req : Event Slot) :
    ∃ r, startIter d s (.event (some req)) = .ok r := by
  by_cases hk : req.kind = EventID.NewSlot
  · exact ⟨(broker.Loop.running, handleNewSlot d s req), by simp [startIter, hk]⟩
  · exact ⟨(broker.Loop.running, s, []), by simp [startIter, hk]⟩

theorem receiveIdle_closed (w : broker.World (Event Slot)) (sub : broker.Client)
    (h : w.chans[sub]? = some true) : receiveIdle w sub = some (Received.event none) := by
  simp [receiveIdle, h]

/-- C31, the code at a failing input: the slot broker has the mailbox of the
service as subscriber; once the loop of the broker is cancelled, or the mailbox
is unsubscribed, the mailbox is closed and a receive from it yields the nil
event; on the nil event the iteration of the service loop dereferences nil and
panics, and so does the loop, while a non-nil event is handled. -/
theorem start_panics_on_nil_event :
    broker.startIter exSlotFeed (.ctxDone broker.orderStored) =
      .ok (broker.Loop.returned, exSlotFeedClosed) ∧
    broker.Unsubscribe exSlotFeed 0 = .ok exSlotFeedClosed ∧
    receiveIdle exSlotFeed 0 = none ∧
    receiveIdle exSlotFeedClosed 0 = some (Received.event none) ∧
    startIter exTimeoutDeps () (.event none) = .error Fault.nilDereference ∧
    start exTimeoutDeps () [.event none] = .error (Fault.nilDereference, (), []) ∧
    start exTimeoutDeps () [.event (some exSlotEvent), .event none] =
      .error (Fault.nilDereference, (), (handleNewSlot exTimeoutDeps () exSlotEvent).2) ∧
    (∃ r, startIter exTimeoutDeps () (.event (some exSlotEvent)) = .ok r) := by
  refine ⟨rfl, rfl, rfl, rfl, rfl, rfl, rfl, _, rfl⟩

end validator

/-! ## Properties of the byte helpers -/

namespace bytes

theorem copy_same_length {α : Type} (dst src : List α) (h : src.length = dst.length) :
    copy dst src = src := by
  simp [copy, ← h]

theorem length_copy {α : Type} (dst src : List α) : (copy dst src).length = dst.length := by
  simp only [copy, List.length_append, List.length_take, List.length_drop]
  omega

theorem UnmarshalTextHelper_error (decode : Text → Except Err (List Byte))
    (target : List Byte) (text : Text) (e : Err) (h : decode text = .error e) :
    UnmarshalTextHelper decode target text = (target, some e) := by
  simp [UnmarshalTextHelper, Bytes.UnmarshalText, h]

theorem UnmarshalTextHelper_length (decode : Text → Except Err (List Byte))
    (target : List Byte) (text : Text) (bz : List Byte) (h : decode text = .ok bz)
    (hlen : bz.length ≠ target.length) :
    UnmarshalTextHelper decode target text =
      (target, some (Err.incorrectLength target.length bz.length)) := by
  simp [UnmarshalTextHelper, Bytes.UnmarshalText, h, hlen]

theorem UnmarshalTextHelper_ok (decode : Text → Except Err (List Byte))
    (target : List Byte) (text : Text) (bz : List Byte) (h : decode text = .ok bz)
    (hlen : bz.length = target.length) :
    UnmarshalTextHelper decode target text = (bz, none) := by
  simp [UnmarshalTextHelper, Bytes.UnmarshalText, h, hlen, copy_same_length]

/-- C19: for a target of any length and any text, whatever the decoder,
UnmarshalTextHelper returns the error of the decoder when the text fails to
decode and an incorrect-length error when it decodes to a number of bytes
other than the length of the target; the target is unchanged whenever an error
is returned; when nil is returned the text decoded to as many bytes as the
target holds and the target holds exactly those bytes. -/
theorem UnmarshalTextHelper_all_or_nothing (decode : Text → Except Err (List Byte))
    (target : List Byte) (text : Text) :
    (∀ e, decode text = .error e →
      UnmarshalTextHelper decode target text = (target, some e)) ∧
    (∀ bz, decode text = .ok bz → bz.length ≠ target.length →
      UnmarshalTextHelper decode target text =
        (target, some (Err.incorrectLength target.length bz.length))) ∧
    (∀ bz, decode text = .ok bz → bz.length = target.length →
      UnmarshalTextHelper decode target text = (bz, none)) ∧
    ((UnmarshalTextHelper decode target text).2 ≠ none →
      (UnmarshalTextHelper decode target text).1 = target) ∧
    ((UnmarshalTextHelper decode target text).2 = none →
      decode text = .ok (UnmarshalTextHelper decode target text).1) ∧
    (UnmarshalTextHelper decode target text).1.length = target.length := by
  refine ⟨UnmarshalTextHelper_error decode target text,
    UnmarshalTextHelper_length decode target text,
    UnmarshalTextHelper_ok decode target text, ?_, ?_, ?_⟩
  · intro herr
    cases hd : decode text with
    | error e => rw [UnmarshalTextHelper_error decode target text e hd]
    | ok bz =>
      by_cases hlen : bz.length = target.length
      · rw [UnmarshalTextHelper_ok decode target text bz hd hlen] at herr
        exact absurd rfl herr
      · rw [UnmarshalTextHelper_length decode target text bz hd hlen]
  · intro hnil
    cases hd : decode text with
    | error e =>
      rw [UnmarshalTextHelper_error decode target text e hd] at hnil
      cases hnil
    | ok bz =>
      by_cases hlen : bz.length = target.length
      · rw [UnmarshalTextHelper_ok decode target text bz hd hlen]
      · rw [UnmarshalTextHelper_length decode target text bz hd hlen] at hnil
        cases hnil
  · cases hd : decode text with
    | error e => rw [UnmarshalTextHelper_error decode target text e hd]
    | ok bz =>
      by_cases hlen : bz.length = target.length
      · rw [UnmarshalTextHelper_ok decode target text bz hd hlen]
        exact hlen
      · rw [UnmarshalTextHelper_length decode target text bz hd hlen]

theorem hexVal_lt (c : Char) (v : Nat) (h : hexVal c = some v) : v < 16 := by
  unfold hexVal at h
  split at h
  · cases h; omega
  · split at h
    · cases h; omega
    · split at h
      · cases h; omega
      · cases h

theorem decodePairs_pair (hi lo : Char) (rest : Text) (bs : List Byte) :
    decodePairs (hi :: lo :: rest) = .ok bs ↔
      ∃ h l tail, hexVal hi = some h ∧ hexVal lo = some l ∧ decodePairs rest = .ok tail ∧
        bs = Fin.ofNat (16 * h + l) :: tail := by
  constructor
  · intro hd
    simp only [decodePairs] at hd
    cases hh : hexVal hi with
    | none => simp [hh] at hd
    | some h =>
      cases hl : hexVal lo with
      | none => simp [hh, hl] at hd
      | some l =>
        cases hr : decodePairs rest with
        | error e => simp [hh, hl, hr] at hd
        | ok tail =>
          simp only [hh, hl, hr, Except.ok.injEq] at hd
          exact ⟨h, l, tail, rfl, rfl, rfl, hd.symm⟩
  · rintro ⟨h, l, tail, hh, hl, hr, rfl⟩
    simp [decodePairs, hh, hl, hr]

theorem decodePairs_length : ∀ (ds : Text) (bs : List Byte),
    decodePairs ds = .ok bs → ds.length = 2 * bs.length
  | [], bs, h => by
    simp only [decodePairs, Except.ok.injEq] at h
    subst h
    rfl
  | [_], bs, h => by simp [decodePairs] at h
  | hi :: lo :: rest, bs, h => by
    obtain ⟨_, _, tail, _, _, hr, rfl⟩ := (decodePairs_pair hi lo rest bs).mp h
    have := decodePairs_length rest tail hr
    simp only [List.length_cons]
    omega

theorem decodePairs_digits : ∀ (ds : Text) (bs : List Byte),
    decodePairs ds = .ok bs → ∀ c ∈ ds, isHexDigit c = true
  | [], _, _ => by simp
  | [_], bs, h => by simp [decodePairs] at h
  | hi :: lo :: rest, bs, h => by
    obtain ⟨_, _, tail, hh, hl, hr, rfl⟩ := (decodePairs_pair hi lo rest bs).mp h
    have ih := decodePairs_digits rest tail hr
    intro c hc
    rcases List.mem_cons.mp hc with rfl | hc
    · simp [isHexDigit, hh]
    · rcases List.mem_cons.mp hc with rfl | hc
      · simp [isHexDigit, hl]
      · exact ih c hc

theorem decodePairs_of_digits : ∀ (ds : Text), (∀ c ∈ ds, isHexDigit c = true) →
    ds.length % 2 = 0 → ∃ bs, decodePairs ds = .ok bs
  | [], _, _ => ⟨[], rfl⟩
  | [_], _, h => by simp at h
  | hi :: lo :: rest, hall, hlen => by
    have h1 : isHexDigit hi = true := hall hi (by simp)
    have h2 : isHexDigit lo = true := hall lo (by simp)
    obtain ⟨h, hh⟩ := Option.isSome_iff_exists.mp h1
    obtain ⟨l, hl⟩ := Option.isSome_iff_exists.mp h2
    have hlen2 : rest.length % 2 = 0 := by
      simp only [List.length_cons] at hlen
      omega
    obtain ⟨tail, hr⟩ := decodePairs_of_digits rest
      (fun c hc => hall c (by simp [hc])) hlen2
    exact ⟨_, (decodePairs_pair hi lo rest _).mpr ⟨h, l, tail, hh, hl, hr, rfl⟩⟩

theorem decodePairs_index : ∀ (ds : Text) (bs : List Byte),
    decodePairs ds = .ok bs → ∀ i, i < bs.length →
      ∃ a b hi lo v, ds[2 * i]? = some a ∧ ds[2 * i + 1]? = some b ∧
        hexVal a = some hi ∧ hexVal b = some lo ∧ bs[i]? = some v ∧ v.val = 16 * hi + lo
  | [], bs, h => by
    simp only [decodePairs, Except.ok.injEq] at h
    subst h
    intro i hi
    simp at hi
  | [_], bs, h => by simp [decodePairs] at h
  | a :: b :: rest, bs, h => by
    obtain ⟨hi, lo, tail, hh, hl, hr, rfl⟩ := (decodePairs_pair a b rest bs).mp h
    have ih := decodePairs_index rest tail hr
    intro i hlt
    cases i with
    | zero =>
      refine ⟨a, b, hi, lo, Fin.ofNat (16 * hi + lo), by simp, by simp, hh, hl, by simp, ?_⟩
      have h1 := hexVal_lt a hi hh
      have h2 := hexVal_lt b lo hl
      simp only [Fin.ofNat, Fin.val_mk]
      omega
    | succ j =>
      have hj : j < tail.length := by simpa using hlt
      obtain ⟨a2, b2, hi2, lo2, v, e1, e2, e3, e4, e5, e6⟩ := ih j hj
      refine ⟨a2, b2, hi2, lo2, v, ?_, ?_, e3, e4, ?_, e6⟩
      · have : 2 * (j + 1) = (2 * j) + 1 + 1 := by omega
        rw [this]
        simpa using e1
      · have : 2 * (j + 1) + 1 = (2 * j + 1) + 1 + 1 := by omega
        rw [this]
        simpa using e2
      · simpa using e5

theorem UnmarshalByteText_prefixed (digits : Text) :
    UnmarshalByteText ('0' :: 'x' :: digits) = decodePairs digits := rfl

theorem UnmarshalByteText_ok (text : Text) (bz : List Byte)
    (h : UnmarshalByteText text = .ok bz) :
    ∃ digits, text = '0' :: 'x' :: digits ∧ decodePairs digits = .ok bz := by
  unfold UnmarshalByteText at h
  split at h
  · exact ⟨_, rfl, h⟩
  · cases h

theorem B32.eq_of_bytes (a b : B32) (h : a.bytes = b.bytes) : a = b := by
  cases a
  cases b
  simp only [B32.mk.injEq]
  exact h

theorem B32_UnmarshalText_nil_iff (h : B32) (text : Text) :
    (h.UnmarshalText text).2 = none ↔
      ∃ bz, UnmarshalByteText text = .ok bz ∧ bz.length = 32 ∧
        (h.UnmarshalText text).1.bytes = bz := by
  constructor
  · intro hnil
    have hnil2 : (UnmarshalTextHelper UnmarshalByteText h.bytes text).2 = none := hnil
    cases hd : UnmarshalByteText text with
    | error e =>
      rw [UnmarshalTextHelper_error UnmarshalByteText h.bytes text e hd] at hnil2
      cases hnil2
    | ok bz =>
      by_cases hlen : bz.length = h.bytes.length
      · refine ⟨bz, rfl, by rw [hlen, h.size], ?_⟩
        show (UnmarshalTextHelper UnmarshalByteText h.bytes text).1 = bz
        rw [UnmarshalTextHelper_ok UnmarshalByteText h.bytes text bz hd hlen]
      · rw [UnmarshalTextHelper_length UnmarshalByteText h.bytes text bz hd hlen] at hnil2
        cases hnil2
  · rintro ⟨bz, hd, hlen, _⟩
    show (UnmarshalTextHelper UnmarshalByteText h.bytes text).2 = none
    rw [UnmarshalTextHelper_ok UnmarshalByteText h.bytes text bz hd (by rw [hlen, h.size])]

/-- C18: with the hex decoder as modelled, `(*B32).UnmarshalText` returns nil if
and only if the text is the prefix 0x followed by exactly 64 hexadecimal
digits; the array then holds, at each index, the byte whose high and low
digits are the two digits at that place; a text without the prefix or with
another number of digits is rejected; and whenever an error is returned the
array is unchanged. -/
theorem B32_UnmarshalText_iff (h : B32) (text : Text) :
    ((h.UnmarshalText text).2 = none ↔
      ∃ digits, text = '0' :: 'x' :: digits ∧ digits.length = 64 ∧
        ∀ c ∈ digits, isHexDigit c = true) ∧
    (∀ digits, text = '0' :: 'x' :: digits → (h.UnmarshalText text).2 = none →
      ∀ i, i < 32 → ∃ a b hi lo v, digits[2 * i]? = some a ∧ digits[2 * i + 1]? = some b ∧
        hexVal a = some hi ∧ hexVal b = some lo ∧
        (h.UnmarshalText text).1.bytes[i]? = some v ∧ v.val = 16 * hi + lo) ∧
    ((∀ digits, text ≠ '0' :: 'x' :: digits) → (h.UnmarshalText text).2 ≠ none) ∧
    (∀ digits, text = '0' :: 'x' :: digits → digits.length ≠ 64 →
      (h.UnmarshalText text).2 ≠ none) ∧
    ((h.UnmarshalText text).2 ≠ none → (h.UnmarshalText text).1 = h) := by
  have hiff : (h.UnmarshalText text).2 = none ↔
      ∃ digits, text = '0' :: 'x' :: digits ∧ digits.length = 64 ∧
        ∀ c ∈ digits, isHexDigit c = true := by
    constructor
    · intro hnil
      obtain ⟨bz, hd, hlen, _⟩ := (B32_UnmarshalText_nil_iff h text).mp hnil
      obtain ⟨digits, rfl, hp⟩ := UnmarshalByteText_ok text bz hd
      refine ⟨digits, rfl, ?_, decodePairs_digits digits bz hp⟩
      rw [decodePairs_length digits bz hp, hlen]
    · rintro ⟨digits, rfl, hlen, hall⟩
      obtain ⟨bz, hp⟩ := decodePairs_of_digits digits hall (by rw [hlen])
      have hbz : bz.length = 32 := by
        have := decodePairs_length digits bz hp
        omega
      have hd : UnmarshalByteText ('0' :: 'x' :: digits) = .ok bz := hp
      show (UnmarshalTextHelper UnmarshalByteText h.bytes _).2 = none
      rw [UnmarshalTextHelper_ok UnmarshalByteText h.bytes _ bz hd (by rw [hbz, h.size])]
  refine ⟨hiff, ?_, ?_, ?_, ?_⟩
  · rintro digits rfl hnil i hi
    obtain ⟨bz, hd, hlen, hbytes⟩ := (B32_UnmarshalText_nil_iff h _).mp hnil
    rw [hbytes]
    exact decodePairs_index digits bz hd i (by rw [hlen]; exact hi)
  · intro hno hnil
    obtain ⟨digits, e, _⟩ := hiff.mp hnil
    exact hno digits e
  · rintro digits rfl hlen hnil
    obtain ⟨digits2, e, hlen2, _⟩ := hiff.mp hnil
    simp only [List.cons.injEq, true_and] at e
    exact hlen (e ▸ hlen2)
  · intro herr
    apply B32.eq_of_bytes
    show (UnmarshalTextHelper UnmarshalByteText h.bytes text).1 = h.bytes
    have herr2 : (UnmarshalTextHelper UnmarshalByteText h.bytes text).2 ≠ none := herr
    cases hd : UnmarshalByteText text with
    | error e => rw [UnmarshalTextHelper_error UnmarshalByteText h.bytes text e hd]
    | ok bz =>
      by_cases hlen : bz.length = h.bytes.length
      · rw [UnmarshalTextHelper_ok UnmarshalByteText h.bytes text bz hd hlen] at herr2
        exact absurd rfl herr2
      · rw [UnmarshalTextHelper_length UnmarshalByteText h.bytes text bz hd hlen]

/-- The cases of `TestBytes32UnmarshalText` on the model: the valid input gives
the bytes 1 to 32, the input without the prefix and the input one byte short
are rejected. -/
theorem TestBytes32UnmarshalText_cases :
    B32.UnmarshalText B32.zero exB32Text = (exB32, none) ∧
    (B32.UnmarshalText B32.zero (exB32Text.drop 2)).2 = some Err.missingPrefix ∧
    (B32.UnmarshalText B32.zero (exB32Text.take 64)).2 = some (Err.incorrectLength 32 31) := by
  decide

theorem hexDigit_lower : ∀ n : Fin 16, isLowerHex (hexDigit n.val) = true := by
  decide

theorem hexVal_hexDigit : ∀ n : Fin 16, hexVal (hexDigit n.val) = some n.val := by
  decide

theorem hexDigit_high (b : Byte) :
    isLowerHex (hexDigit (b.val / 16)) = true ∧
    hexVal (hexDigit (b.val / 16)) = some (b.val / 16) := by
  have hlt : b.val / 16 < 16 := by
    have := b.isLt
    omega
  exact ⟨hexDigit_lower ⟨b.val / 16, hlt⟩, hexVal_hexDigit ⟨b.val / 16, hlt⟩⟩

theorem hexDigit_low (b : Byte) :
    isLowerHex (hexDigit (b.val % 16)) = true ∧
    hexVal (hexDigit (b.val % 16)) = some (b.val % 16) := by
  have hlt : b.val % 16 < 16 := Nat.mod_lt _ (by decide)
  exact ⟨hexDigit_lower ⟨b.val % 16, hlt⟩, hexVal_hexDigit ⟨b.val % 16, hlt⟩⟩

theorem EncodeToString_cons (b : Byte) (bs : List Byte) :
    EncodeToString (b :: bs) =
      hexDigit (b.val / 16) :: hexDigit (b.val % 16) :: EncodeToString bs := by
  simp [EncodeToString, List.flatMap_cons]

theorem length_EncodeToString (bs : List Byte) :
    (EncodeToString bs).length = 2 * bs.length := by
  induction bs with
  | nil => rfl
  | cons b rest ih =>
    rw [EncodeToString_cons]
    simp only [List.length_cons, ih]
    omega

theorem lower_EncodeToString (bs : List Byte) :
    ∀ c ∈ EncodeToString bs, isLowerHex c = true := by
  induction bs with
  | nil => simp [EncodeToString]
  | cons b rest ih =>
    rw [EncodeToString_cons]
    intro c hc
    rcases List.mem_cons.mp hc with rfl | hc
    · exact (hexDigit_high b).1
    · rcases List.mem_cons.mp hc with rfl | hc
      · exact (hexDigit_low b).1
      · exact ih c hc

theorem decodePairs_EncodeToString (bs : List Byte) :
    decodePairs (EncodeToString bs) = .ok bs := by
  induction bs with
  | nil => rfl
  | cons b rest ih =>
    rw [EncodeToString_cons]
    refine (decodePairs_pair _ _ _ _).mpr
      ⟨b.val / 16, b.val % 16, rest, (hexDigit_high b).2, (hexDigit_low b).2, ih, ?_⟩
    congr 1
    apply Fin.ext
    have := b.isLt
    simp only [Fin.ofNat, Fin.val_mk]
    omega

/-- C20: with the hex encoder as modelled, `(B32).MarshalText` returns a nil
error and a text of 66 characters: the prefix 0x, then for each of the 32
bytes in order its high and its low hexadecimal digit, all lowercase; the
zero array gives 0x followed by 64 zeros; and the text unmarshals back to
the array. -/
theorem B32_MarshalText_hex (h : B32) :
    (h.MarshalText).2 = none ∧
    (h.MarshalText).1.length = 66 ∧
    (h.MarshalText).1 =
      '0' :: 'x' :: h.bytes.flatMap (fun b => [hexDigit (b.val / 16), hexDigit (b.val % 16)]) ∧
    (∀ c ∈ (h.MarshalText).1.drop 2, isLowerHex c = true) ∧
    (B32.zero.MarshalText).1 = '0' :: 'x' :: List.replicate 64 '0' ∧
    (∀ h0 : B32, h0.UnmarshalText (h.MarshalText).1 = (h, none)) := by
  refine ⟨rfl, ?_, rfl, ?_, by decide, ?_⟩
  · simp [B32.MarshalText, length_EncodeToString, h.size]
  · intro c hc
    exact lower_EncodeToString h.bytes c (by simpa [B32.MarshalText] using hc)
  · intro h0
    have hd : UnmarshalByteText ('0' :: 'x' :: EncodeToString h.bytes) = .ok h.bytes :=
      decodePairs_EncodeToString h.bytes
    have hlen : h.bytes.length = h0.bytes.length := by rw [h.size, h0.size]
    have hu := UnmarshalTextHelper_ok UnmarshalByteText h0.bytes _ h.bytes hd hlen
    have h2 : (h0.UnmarshalText (h.MarshalText).1).2 = none := by
      show (UnmarshalTextHelper UnmarshalByteText h0.bytes _).2 = none
      rw [B32.MarshalText, hu]
    have h1 : (h0.UnmarshalText (h.MarshalText).1).1 = h := by
      apply B32.eq_of_bytes
      show (UnmarshalTextHelper UnmarshalByteText h0.bytes _).1 = h.bytes
      rw [B32.MarshalText, hu]
    exact Prod.ext h1 h2

/-- The cases of `TestBytes32MarshalText` on the model. -/
theorem TestBytes32MarshalText_cases :
    B32.MarshalText exB32 = (exB32Text, none) ∧
    B32.MarshalText B32.zero =
      ("0x0000000000000000000000000000000000000000000000000000000000000000".toList, none) := by
  decide

theorem Slice.len_eq (s : Slice) : s.len = s.elems.length := by
  cases s <;> rfl

theorem ExtendToSize_ge (rt : Runtime) (s : Slice) (length : Int)
    (h : (s.len : Int) ≥ length) : ExtendToSize rt s length = .ok s := by
  simp [ExtendToSize, h]

theorem ExtendToSize_granted (rt : Runtime) (s : Slice) (length : Int)
    (h : (s.len : Int) < length) (hg : rt.grows s.len length.toNat = Alloc.granted) :
    ExtendToSize rt s length =
      .ok (some (s.elems ++ List.replicate (length - (s.len : Int)).toNat 0)) := by
  have : ¬ (s.len : Int) ≥ length := by omega
  simp only [ExtendToSize, if_neg this, hg]

theorem ExtendToSize_refused (rt : Runtime) (s : Slice) (length : Int)
    (h : (s.len : Int) < length) (hg : rt.grows s.len length.toNat = Alloc.lenOutOfRange) :
    ExtendToSize rt s length = .error Abort.growsliceLenOutOfRange := by
  have : ¬ (s.len : Int) ≥ length := by omega
  simp only [ExtendToSize, if_neg this, hg]

theorem ExtendToSize_exhausted (rt : Runtime) (s : Slice) (length : Int)
    (h : (s.len : Int) < length) (hg : rt.grows s.len length.toNat = Alloc.outOfMemory) :
    ExtendToSize rt s length = .error Abort.outOfMemory := by
  have : ¬ (s.len : Int) ≥ length := by omega
  simp only [ExtendToSize, if_neg this, hg]

/-- Counterexample to C22: on a 64-bit port `ExtendToSize([]byte{1}, 1<<62)`
panics with `growslice: len out of range` and returns no slice; on a machine
with memory for blocks of up to `1 << 30` bytes a length of `1 << 40` ends the
program with `out of memory`, while a length of 4 gives the slice padded with
zeros. -/
theorem ExtendToSize_panics_beyond_limit :
    ExtendToSize exRuntime (some [1]) 4611686018427387904 =
      .error Abort.growsliceLenOutOfRange ∧
    (∀ r, ExtendToSize exRuntime (some [1]) 4611686018427387904 ≠ .ok r) ∧
    ExtendToSize exRuntime (some [1]) 1099511627776 = .error Abort.outOfMemory ∧
    ExtendToSize exRuntime (some [1]) 4 = .ok (some [1, 0, 0, 0]) := by
  have h : ExtendToSize exRuntime (some [1]) 4611686018427387904 =
      .error Abort.growsliceLenOutOfRange :=
    ExtendToSize_refused exRuntime (some [1]) 4611686018427387904 (by decide) (by decide)
  refine ⟨h, ?_, ?_, ?_⟩
  · intro r hr
    rw [h] at hr
    cases hr
  · exact ExtendToSize_exhausted exRuntime (some [1]) 1099511627776 (by decide) (by decide)
  · rw [ExtendToSize_granted exRuntime (some [1]) 4 (by decide) (by decide)]
    rfl

/-- C22, amended: `ExtendToSize(s, length)` returns `s` itself when
`len(s) >= length`.  Otherwise the runtime is asked to extend `s` to `length`
bytes: when it grants the extension the result is a slice of exactly `length`
bytes whose first `len(s)` bytes are those of `s` and whose other bytes are
zero; when it answers that the length is out of range, which it does for every
`length` above its allocation limit `maxAlloc`, the call panics with
`growslice: len out of range` and returns nothing; when it has no memory for
the block the program ends with the fatal error `out of memory`.  A `length`
of at most 32 is always granted.  Whenever the call returns, the length of the
result is the larger of `len(s)` and `length`. -/
theorem ExtendToSize_pads_or_panics (rt : Runtime) (s : Slice) (length : Int) :
    ((s.len : Int) ≥ length → ExtendToSize rt s length = .ok s) ∧
    ((s.len : Int) < length → rt.grows s.len length.toNat = Alloc.granted →
      ∃ bs, ExtendToSize rt s length = .ok (some bs) ∧ (bs.length : Int) = length ∧
        bs.take s.len = s.elems ∧
        bs.drop s.len = List.replicate (length.toNat - s.len) 0 ∧
        ∀ i, s.len ≤ i → i < bs.length → bs[i]? = some 0) ∧
    ((s.len : Int) < length → rt.grows s.len length.toNat = Alloc.lenOutOfRange →
      ExtendToSize rt s length = .error Abort.growsliceLenOutOfRange) ∧
    ((s.len : Int) < length → rt.grows s.len length.toNat = Alloc.outOfMemory →
      ExtendToSize rt s length = .error Abort.outOfMemory) ∧
    ((s.len : Int) < length → (rt.maxAlloc : Int) < length →
      ExtendToSize rt s length = .error Abort.growsliceLenOutOfRange) ∧
    (length ≤ 32 → ∃ r, ExtendToSize rt s length = .ok r) ∧
    (∀ r, ExtendToSize rt s length = .ok r → (r.len : Int) = max (s.len : Int) length) := by
  refine ⟨ExtendToSize_ge rt s length, ?_, ExtendToSize_refused rt s length,
    ExtendToSize_exhausted rt s length, ?_, ?_, ?_⟩
  · intro h hg
    have hn : (length - (s.len : Int)).toNat = length.toNat - s.len := by omega
    refine ⟨_, ExtendToSize_granted rt s length h hg, ?_, ?_, ?_, ?_⟩
    · simp only [List.length_append, List.length_replicate, ← Slice.len_eq]
      omega
    · simp [Slice.len_eq]
    · simp [Slice.len_eq, hn]
    · intro i h1 h2
      rw [Slice.len_eq] at h1
      rw [List.getElem?_append_right h1]
      simp only [List.length_append, List.length_replicate] at h2
      rw [List.getElem?_replicate]
      simp
      omega
  · intro h hmax
    exact ExtendToSize_refused rt s length h
      (rt.grows_above s.len length.toNat (by omega))
  · intro h32
    by_cases h : (s.len : Int) ≥ length
    · exact ⟨s, ExtendToSize_ge rt s length h⟩
    · exact ⟨_, ExtendToSize_granted rt s length (by omega)
        (rt.grows_small s.len length.toNat (by omega))⟩
  · intro r hr
    by_cases h : (s.len : Int) ≥ length
    · rw [ExtendToSize_ge rt s length h] at hr
      injection hr with hr
      subst hr
      omega
    · have h2 : (s.len : Int) < length := by omega
      cases hg : rt.grows s.len length.toNat with
      | lenOutOfRange =>
        rw [ExtendToSize_refused rt s length h2 hg] at hr
        cases hr
      | outOfMemory =>
        rw [ExtendToSize_exhausted rt s length h2 hg] at hr
        cases hr
      | granted =>
        rw [ExtendToSize_granted rt s length h2 hg] at hr
        injection hr with hr
        subst hr
        simp only [Slice.len, List.length_append, List.length_replicate, ← Slice.len_eq]
        omega

theorem PrependExtendToSize_ge (rt : Runtime) (s : Slice) (length : Int)
    (h : (s.len : Int) ≥ length) : PrependExtendToSize rt s length = .ok s := by
  simp [PrependExtendToSize, h]

theorem makeslice_granted (rt : Runtime) (n : Nat) (h : rt.makes n = Alloc.granted) :
    makeslice rt n = .ok (List.replicate n 0) := by
  simp only [makeslice, h]

theorem makeslice_gt (rt : Runtime) (n : Nat) (h : rt.maxAlloc < n) :
    makeslice rt n = .error Abort.makesliceLenOutOfRange := by
  simp only [makeslice, (rt.makes_range n).mpr h]

theorem makeslice_exhausted (rt : Runtime) (n : Nat) (h : rt.makes n = Alloc.outOfMemory) :
    makeslice rt n = .error Abort.outOfMemory := by
  simp only [makeslice, h]

theorem append_nothing (rt : Runtime) (s : List Byte) : append rt s [] = .ok s := by
  simp [append]

theorem append_granted (rt : Runtime) (s elems : List Byte) (hne : elems.length ≠ 0)
    (hg : rt.grows s.length (s.length + elems.length) = Alloc.granted) :
    append rt s elems = .ok (s ++ elems) := by
  simp only [append, if_neg hne, hg]

theorem append_refused (rt : Runtime) (s elems : List Byte) (hne : elems.length ≠ 0)
    (hg : rt.grows s.length (s.length + elems.length) = Alloc.lenOutOfRange) :
    append rt s elems = .error Abort.growsliceLenOutOfRange := by
  simp only [append, if_neg hne, hg]

theorem append_exhausted (rt : Runtime) (s elems : List Byte) (hne : elems.length ≠ 0)
    (hg : rt.grows s.length (s.length + elems.length) = Alloc.outOfMemory) :
    append rt s elems = .error Abort.outOfMemory := by
  simp only [append, if_neg hne, hg]

theorem PrependExtendToSize_make_refused (rt : Runtime) (s : Slice) (length : Int)
    (h : (s.len : Int) < length) (hmax : (rt.maxAlloc : Int) < length - (s.len : Int)) :
    PrependExtendToSize rt s length = .error Abort.makesliceLenOutOfRange := by
  have h1 : ¬ (s.len : Int) ≥ length := by omega
  have h2 : rt.maxAlloc < (length - (s.len : Int)).toNat := by omega
  simp only [PrependExtendToSize, if_neg h1, makeslice_gt rt _ h2]

theorem PrependExtendToSize_make_exhausted (rt : Runtime) (s : Slice) (length : Int)
    (h : (s.len : Int) < length) (hm : rt.makes (length.toNat - s.len) = Alloc.outOfMemory) :
    PrependExtendToSize rt s length = .error Abort.outOfMemory := by
  have h1 : ¬ (s.len : Int) ≥ length := by omega
  have hn : (length - (s.len : Int)).toNat = length.toNat - s.len := by omega
  simp only [PrependExtendToSize, if_neg h1, hn, makeslice_exhausted rt _ hm]

theorem PrependExtendToSize_append (rt : Runtime) (s : Slice) (length : Int)
    (h : (s.len : Int) < length) (hm : rt.makes (length.toNat - s.len) = Alloc.granted) :
    PrependExtendToSize rt s length =
      match append rt (List.replicate (length.toNat - s.len) 0) s.elems with
      | .error p => .error p
      | .ok bs => .ok (some bs) := by
  have h1 : ¬ (s.len : Int) ≥ length := by omega
  have hn : (length - (s.len : Int)).toNat = length.toNat - s.len := by omega
  simp only [PrependExtendToSize, if_neg h1, hn, makeslice_granted rt _ hm]

theorem PrependExtendToSize_grow_refused (rt : Runtime) (s : Slice) (length : Int)
    (h : (s.len : Int) < length) (hm : rt.makes (length.toNat - s.len) = Alloc.granted)
    (hpos : 0 < s.len)
    (hg : rt.grows (length.toNat - s.len) length.toNat = Alloc.lenOutOfRange) :
    PrependExtendToSize rt s length = .error Abort.growsliceLenOutOfRange := by
  have hsum : length.toNat - s.len + s.elems.length = length.toNat := by
    rw [← Slice.len_eq]; omega
  have hne : s.elems.length ≠ 0 := by rw [← Slice.len_eq]; omega
  have ha : append rt (List.replicate (length.toNat - s.len) 0) s.elems =
      .error Abort.growsliceLenOutOfRange := by
    apply append_refused rt _ _ hne
    rw [List.length_replicate, hsum]
    exact hg
  rw [PrependExtendToSize_append rt s length h hm, ha]

theorem PrependExtendToSize_grow_exhausted (rt : Runtime) (s : Slice) (length : Int)
    (h : (s.len : Int) < length) (hm : rt.makes (length.toNat - s.len) = Alloc.granted)
    (hpos : 0 < s.len)
    (hg : rt.grows (length.toNat - s.len) length.toNat = Alloc.outOfMemory) :
    PrependExtendToSize rt s length = .error Abort.outOfMemory := by
  have hsum : length.toNat - s.len + s.elems.length = length.toNat := by
    rw [← Slice.len_eq]; omega
  have hne : s.elems.length ≠ 0 := by rw [← Slice.len_eq]; omega
  have ha : append rt (List.replicate (length.toNat - s.len) 0) s.elems =
      .error Abort.outOfMemory := by
    apply append_exhausted rt _ _ hne
    rw [List.length_replicate, hsum]
    exact hg
  rw [PrependExtendToSize_append rt s length h hm, ha]

theorem PrependExtendToSize_granted (rt : Runtime) (s : Slice) (length : Int)
    (h : (s.len : Int) < length) (hm : rt.makes (length.toNat - s.len) = Alloc.granted)
    (hg : s.len = 0 ∨ rt.grows (length.toNat - s.len) length.toNat = Alloc.granted) :
    PrependExtendToSize rt s length =
      .ok (some (List.replicate (length.toNat - s.len) 0 ++ s.elems)) := by
  have hsum : length.toNat - s.len + s.elems.length = length.toNat := by
    rw [← Slice.len_eq]; omega
  have ha : append rt (List.replicate (length.toNat - s.len) 0) s.elems =
      .ok (List.replicate (length.toNat - s.len) 0 ++ s.elems) := by
    by_cases hz : s.elems.length = 0
    · have he : s.elems = [] := List.length_eq_zero.mp hz
      rw [he, append_nothing, List.append_nil]
    · apply append_granted rt _ _ hz
      rw [List.length_replicate, hsum]
      rcases hg with hg | hg
      · rw [Slice.len_eq] at hg
        exact absurd hg hz
      · exact hg
  rw [PrependExtendToSize_append rt s length h hm, ha]

/-- Counterexample to C23: on a 64-bit port
`PrependExtendToSize([]byte{1}, math.MaxInt64)` panics with
`makeslice: len out of range` and returns no slice; on a machine with memory
for blocks of up to `1 << 30` bytes a length of `1 << 40` ends the program with
`out of memory`, while a length of 4 gives the slice with zeros before it. -/
theorem PrependExtendToSize_panics_beyond_limit :
    PrependExtendToSize exRuntime (some [1]) 9223372036854775807 =
      .error Abort.makesliceLenOutOfRange ∧
    (∀ r, PrependExtendToSize exRuntime (some [1]) 9223372036854775807 ≠ .ok r) ∧
    PrependExtendToSize exRuntime (some [1]) 1099511627776 = .error Abort.outOfMemory ∧
    PrependExtendToSize exRuntime (some [1]) 4 = .ok (some [0, 0, 0, 1]) := by
  have h : PrependExtendToSize exRuntime (some [1]) 9223372036854775807 =
      .error Abort.makesliceLenOutOfRange :=
    PrependExtendToSize_make_refused exRuntime (some [1]) 9223372036854775807
      (by decide) (by decide)
  refine ⟨h, ?_, ?_, ?_⟩
  · intro r hr
    rw [h] at hr
    cases hr
  · exact PrependExtendToSize_make_exhausted exRuntime (some [1]) 1099511627776
      (by decide) (by decide)
  · rw [PrependExtendToSize_granted exRuntime (some [1]) 4 (by decide) (by decide)
      (Or.inr (by decide))]
    rfl

/-- C23, amended: `PrependExtendToSize(s, length)` returns `s` itself when
`len(s) >= length`.  Otherwise it makes `length - len(s)` zero bytes and appends
the bytes of `s` to them.  When `length - len(s)` is above the allocation limit
`maxAlloc` of the runtime the call panics with `makeslice: len out of range`.
When the zero bytes are made, `s` is not empty and the runtime answers that the
extension to `length` bytes is out of range, the call panics with
`growslice: len out of range`.  When the runtime has no memory for the zero
bytes or for the extension, the program ends with the fatal error
`out of memory`.  For every `length` above `maxAlloc` the call ends in one of
these three ways and returns nothing.  In every other case, that is when the
zero bytes are made and `s` is empty or the extension is granted, the result
is a slice of exactly `length` bytes whose first `length - len(s)` bytes are
zero and whose last `len(s)` bytes are those of `s`. -/
theorem PrependExtendToSize_pads_or_panics (rt : Runtime) (s : Slice) (length : Int) :
    ((s.len : Int) ≥ length → PrependExtendToSize rt s length = .ok s) ∧
    ((s.len : Int) < length → (rt.maxAlloc : Int) < length - (s.len : Int) →
      PrependExtendToSize rt s length = .error Abort.makesliceLenOutOfRange) ∧
    ((s.len : Int) < length → rt.makes (length.toNat - s.len) = Alloc.granted → 0 < s.len →
      rt.grows (length.toNat - s.len) length.toNat = Alloc.lenOutOfRange →
      PrependExtendToSize rt s length = .error Abort.growsliceLenOutOfRange) ∧
    ((s.len : Int) < length →
      (rt.makes (length.toNat - s.len) = Alloc.outOfMemory ∨
        (rt.makes (length.toNat - s.len) = Alloc.granted ∧ 0 < s.len ∧
          rt.grows (length.toNat - s.len) length.toNat = Alloc.outOfMemory)) →
      PrependExtendToSize rt s length = .error Abort.outOfMemory) ∧
    ((s.len : Int) < length → (rt.maxAlloc : Int) < length →
      PrependExtendToSize rt s length = .error Abort.makesliceLenOutOfRange ∨
      PrependExtendToSize rt s length = .error Abort.growsliceLenOutOfRange ∨
      PrependExtendToSize rt s length = .error Abort.outOfMemory) ∧
    ((s.len : Int) < length → rt.makes (length.toNat - s.len) = Alloc.granted →
      (s.len = 0 ∨ rt.grows (length.toNat - s.len) length.toNat = Alloc.granted) →
      ∃ bs, PrependExtendToSize rt s length = .ok (some bs) ∧ (bs.length : Int) = length ∧
        bs.take (length.toNat - s.len) = List.replicate (length.toNat - s.len) 0 ∧
        bs.drop (length.toNat - s.len) = s.elems ∧
        ∀ i, i < length.toNat - s.len → bs[i]? = some 0) := by
  refine ⟨PrependExtendToSize_ge rt s length, PrependExtendToSize_make_refused rt s length,
    PrependExtendToSize_grow_refused rt s length, ?_, ?_, ?_⟩
  · intro h hm
    rcases hm with hm | ⟨hm, hpos, hg⟩
    · exact PrependExtendToSize_make_exhausted rt s length h hm
    · exact PrependExtendToSize_grow_exhausted rt s length h hm hpos hg
  · intro h hmax
    cases hm : rt.makes (length.toNat - s.len) with
    | lenOutOfRange =>
      have := (rt.makes_range _).mp hm
      exact Or.inl (PrependExtendToSize_make_refused rt s length h (by omega))
    | outOfMemory => exact Or.inr (Or.inr (PrependExtendToSize_make_exhausted rt s length h hm))
    | granted =>
      have hnot : ¬ rt.maxAlloc < length.toNat - s.len := fun hlt => by
        have := (rt.makes_range _).mpr hlt
        rw [hm] at this
        cases this
      exact Or.inr (Or.inl (PrependExtendToSize_grow_refused rt s length h hm (by omega)
        (rt.grows_above _ _ (by omega))))
  · intro h hm hg
    refine ⟨_, PrependExtendToSize_granted rt s length h hm hg, ?_, ?_, ?_, ?_⟩
    · simp only [List.length_append, List.length_replicate, ← Slice.len_eq]
      omega
    · simp
    · simp
    · intro i hi
      rw [List.getElem?_append_left (by simpa using hi), List.getElem?_replicate]
      simp [hi]

theorem toB32_ok (s : Slice) (h : 32 ≤ s.elems.length) :
    ∃ a, toB32 s = .ok a ∧ a.bytes = s.elems.take 32 := by
  refine ⟨{ bytes := s.elems.take 32, size := by simp [List.length_take]; omega }, ?_, rfl⟩
  simp [toB32, h]

theorem ExtendToSize_32 (rt : Runtime) (input : Slice) :
    ∃ r, ExtendToSize rt input 32 = .ok r ∧
      r.elems = input.elems ++ List.replicate (32 - input.len) 0 := by
  by_cases h : (input.len : Int) ≥ 32
  · refine ⟨input, ExtendToSize_ge rt input 32 h, ?_⟩
    have : 32 - input.len = 0 := by omega
    simp [this]
  · have h2 : (input.len : Int) < 32 := by omega
    refine ⟨_, ExtendToSize_granted rt input 32 h2
      (rt.grows_small input.len (32 : Int).toNat (by simp)), ?_⟩
    have : ((32 : Int) - (input.len : Int)).toNat = 32 - input.len := by omega
    simp [Slice.elems, this]

/-- C21: `ToBytes32(input)` never panics; the array it returns holds the first
`min(len(input), 32)` bytes of `input` followed by zero bytes; an input of more
than 32 bytes is cut to its first 32 bytes. -/
theorem ToBytes32_total (rt : Runtime) (input : Slice) :
    ∃ a, ToBytes32 rt input = .ok a ∧
      a.bytes = input.elems.take 32 ++ List.replicate (32 - input.len) 0 ∧
      (∀ i, i < min input.len 32 → a.bytes[i]? = input.elems[i]?) ∧
      (∀ i, min input.len 32 ≤ i → i < 32 → a.bytes[i]? = some 0) ∧
      (32 < input.len → a.bytes = input.elems.take 32) := by
  obtain ⟨r, hr, he⟩ := ExtendToSize_32 rt input
  have hlen : 32 ≤ r.elems.length := by
    rw [he, List.length_append, List.length_replicate, ← Slice.len_eq]
    omega
  obtain ⟨a, ha, hb⟩ := toB32_ok r hlen
  have hrun : ToBytes32 rt input = .ok a := by
    simp only [ToBytes32, hr]
    exact ha
  have hbytes : a.bytes = input.elems.take 32 ++ List.replicate (32 - input.len) 0 := by
    rw [hb, he, List.take_append_eq_append_take, ← Slice.len_eq]
    congr 1
    rw [List.take_replicate]
    congr 1
    omega
  refine ⟨a, hrun, hbytes, ?_, ?_, ?_⟩
  · intro i hi
    rw [hbytes, List.getElem?_append_left (by
      rw [List.length_take, ← Slice.len_eq]; omega), List.getElem?_take]
    simp
    omega
  · intro i h1 h2
    rw [hbytes, List.getElem?_append_right (by
      rw [List.length_take, ← Slice.len_eq]; omega), List.getElem?_replicate]
    simp only [List.length_take, ← Slice.len_eq]
    simp
    omega
  · intro h
    rw [hbytes]
    have : 32 - input.len = 0 := by omega
    simp [this]

theorem SafeCopy_some (src : List Byte) : SafeCopy (some src) = some src := by
  by_cases h : src.length = 32
  · simp [SafeCopy, h, copy_same_length]
  · simp [SafeCopy, h, copy_same_length]

/-- C24: `SafeCopy(src)` is nil if and only if `src` is nil; for a non-nil `src`
it is a non-nil slice with the length and the bytes of `src`; the path taken
for 32 bytes and the general path both give the bytes of `src`. -/
theorem SafeCopy_copies (src : Slice) :
    (SafeCopy src = none ↔ src = none) ∧
    (∀ bs, src = some bs → SafeCopy src = some bs) ∧
    (SafeCopy src).len = src.len ∧
    (SafeCopy src).elems = src.elems ∧
    (∀ bs : List Byte, bs.length = 32 → copy (List.replicate 32 0) bs = bs) ∧
    (∀ bs : List Byte, copy (List.replicate bs.length 0) bs = bs) := by
  refine ⟨?_, ?_, ?_, ?_, ?_, ?_⟩
  · cases src with
    | none => simp [SafeCopy]
    | some bs => simp [SafeCopy_some]
  · rintro bs rfl
    exact SafeCopy_some bs
  · cases src with
    | none => rfl
    | some bs => rw [SafeCopy_some]
  · cases src with
    | none => rfl
    | some bs => rw [SafeCopy_some]
  · intro bs h
    exact copy_same_length _ bs (by simp [h])
  · intro bs
    exact copy_same_length _ bs (by simp)

theorem SafeCopy_eq (s : Slice) : SafeCopy s = s := by
  cases s with
  | none => rfl
  | some bs => exact SafeCopy_some bs

theorem length_copyRows (rows : List Slice) (i : Nat) (copied : List Slice) :
    (copyRows rows i copied).length = copied.length := by
  induction rows generalizing i copied with
  | nil => rfl
  | cons s rest ih => simp [copyRows, ih]

theorem copyRows_index (rows : List Slice) (i : Nat) (copied : List Slice)
    (h : i + rows.length ≤ copied.length) (k : Nat) :
    (copyRows rows i copied)[k]? =
      if i ≤ k ∧ k < i + rows.length then (rows[k - i]?).map SafeCopy else copied[k]? := by
  induction rows generalizing i copied with
  | nil =>
    have hno : ¬ (i ≤ k ∧ k < i + ([] : List Slice).length) := by
      simp only [List.length_nil]; omega
    rw [if_neg hno]
    rfl
  | cons s rest ih =>
    simp only [List.length_cons] at h
    simp only [copyRows]
    rw [ih (i + 1) (copied.set i (SafeCopy s)) (by simp; omega)]
    by_cases hk : k = i
    · subst hk
      have h1 : ¬ (k + 1 ≤ k ∧ k < k + 1 + rest.length) := by omega
      have h2 : k ≤ k ∧ k < k + (s :: rest).length := by
        simp only [List.length_cons]; omega
      have h3 : k < copied.length := by omega
      rw [if_neg h1, if_pos h2]
      simp [List.getElem?_set, h3]
    · by_cases hin : i + 1 ≤ k ∧ k < i + 1 + rest.length
      · have h2 : i ≤ k ∧ k < i + (s :: rest).length := by
          simp only [List.length_cons]; omega
        have h3 : k - i = (k - (i + 1)) + 1 := by omega
        rw [if_pos hin, if_pos h2, h3]
        simp
      · have h2 : ¬ (i ≤ k ∧ k < i + (s :: rest).length) := by
          simp only [List.length_cons]; omega
        have h4 : ¬ i = k := fun e => hk e.symm
        rw [if_neg hin, if_neg h2]
        simp [List.getElem?_set, h4]

theorem copyRows_eq_map (rows : List Slice) :
    copyRows rows 0 (List.replicate rows.length none) = rows.map SafeCopy := by
  apply List.ext_getElem?
  intro k
  rw [copyRows_index rows 0 _ (by simp) k]
  by_cases hk : k < rows.length
  · have h1 : 0 ≤ k ∧ k < 0 + rows.length := by omega
    rw [if_pos h1]
    simp
  · have h1 : ¬ (0 ≤ k ∧ k < 0 + rows.length) := by omega
    have h2 : rows.length ≤ k := by omega
    rw [if_neg h1]
    simp [List.getElem?_eq_none_iff.mpr, h2]

/-- C25: `SafeCopy2D(src)` is nil when `src` is nil; for a non-nil `src` it is a
non-nil slice of the same outer length whose element at each index is
`SafeCopy` of the element of `src` at that index, so a nil inner slice stays
nil and a non-nil inner slice keeps its bytes. -/
theorem SafeCopy2D_copies_rows (src : Option (List Slice)) :
    (src = none → SafeCopy2D src = none) ∧
    (∀ rows, src = some rows →
      ∃ out, SafeCopy2D src = some out ∧ out.length = rows.length ∧
        (∀ i, i < rows.length → out[i]? = (rows[i]?).map SafeCopy) ∧
        (∀ i : Nat, rows[i]? = some none → out[i]? = some none) ∧
        (∀ (i : Nat) (bs : List Byte), rows[i]? = some (some bs) →
          out[i]? = some (some bs))) := by
  refine ⟨?_, ?_⟩
  · rintro rfl
    rfl
  · rintro rows rfl
    have hidx : ∀ i : Nat, (rows.map SafeCopy)[i]? = (rows[i]?).map SafeCopy := by
      intro i
      simp
    refine ⟨rows.map SafeCopy, by simp [SafeCopy2D, copyRows_eq_map], by simp, ?_, ?_, ?_⟩
    · intro i _
      exact hidx i
    · intro i hi
      rw [hidx i, hi]
      rfl
    · intro i bs hi
      rw [hidx i, hi]
      simp [SafeCopy_some]

theorem length_swap (l : List Byte) (i j : Nat) : (swap l i j).length = l.length := by
  simp [swap]

theorem swap_index (l : List Byte) (i j k : Nat) (hi : i < l.length) (hj : j < l.length) :
    (swap l i j)[k]? = if k = j then l[i]? else if k = i then l[j]? else l[k]? := by
  have e1 : l[i]? = some (l.getD i 0) := by
    rw [List.getD_eq_getElem l 0 hi, List.getElem?_eq_getElem hi]
  have e2 : l[j]? = some (l.getD j 0) := by
    rw [List.getD_eq_getElem l 0 hj, List.getElem?_eq_getElem hj]
  have hj2 : j < (l.set i (l.getD j 0)).length := by simpa using hj
  unfold swap
  rw [List.getElem?_set, List.getElem?_set]
  by_cases hkj : k = j
  · subst hkj
    rw [if_pos rfl, if_pos hj2, if_pos rfl, e1]
  · have h1 : ¬ j = k := fun e => hkj e.symm
    rw [if_neg h1, if_neg hkj]
    by_cases hki : k = i
    · subst hki
      rw [if_pos rfl, if_pos hi, if_pos rfl, e2]
    · have h2 : ¬ i = k := fun e => hki e.symm
      rw [if_neg h2, if_neg hki]

theorem length_reverseLoop (n : Nat) : ∀ (l : List Byte) (i j : Nat), j - i = n →
    (reverseLoop l i j).length = l.length := by
  induction n using Nat.strong_induction_on with
  | _ n ih =>
    intro l i j hn
    rw [reverseLoop]
    split
    · rw [ih (j - 1 - (i + 1)) (by omega) (swap l i j) (i + 1) (j - 1) rfl, length_swap]
    · rfl

theorem reverseLoop_index (n : Nat) : ∀ (l : List Byte) (i j k : Nat), j - i = n →
    j < l.length →
    (reverseLoop l i j)[k]? = if i ≤ k ∧ k ≤ j then l[i + j - k]? else l[k]? := by
  induction n using Nat.strong_induction_on with
  | _ n ih =>
    intro l i j k hn hj
    rw [reverseLoop]
    split
    · rename_i hij
      have hi : i < l.length := by omega
      rw [ih (j - 1 - (i + 1)) (by omega) (swap l i j) (i + 1) (j - 1) k rfl
        (by rw [length_swap]; omega)]
      by_cases hin : i + 1 ≤ k ∧ k ≤ j - 1
      · have h2 : i ≤ k ∧ k ≤ j := by omega
        have h3 : i + 1 + (j - 1) - k = i + j - k := by omega
        rw [if_pos hin, if_pos h2, h3, swap_index l i j _ hi hj]
        have h4 : ¬ i + j - k = j := by omega
        have h5 : ¬ i + j - k = i := by omega
        rw [if_neg h4, if_neg h5]
      · rw [if_neg hin, swap_index l i j k hi hj]
        by_cases hkj : k = j
        · subst hkj
          have h2 : i ≤ k ∧ k ≤ k := by omega
          have h3 : i + k - k = i := by omega
          rw [if_pos rfl, if_pos h2, h3]
        · by_cases hki : k = i
          · subst hki
            have h2 : k ≤ k ∧ k ≤ j := by omega
            have h3 : k + j - k = j := by omega
            rw [if_neg hkj, if_pos rfl, if_pos h2, h3]
          · have h2 : ¬ (i ≤ k ∧ k ≤ j) := by omega
            rw [if_neg hkj, if_neg hki, if_neg h2]
    · rename_i hij
      by_cases hin : i ≤ k ∧ k ≤ j
      · have h3 : i + j - k = k := by omega
        rw [if_pos hin, h3]
      · rw [if_neg hin]

/-- C26: `CopyAndReverseEndianess(input)` returns a slice of the length of
`input` whose byte at each index `i` is the byte of `input` at index
`len(input) - 1 - i`, that is `input` reversed, and does not change the bytes
of `input`. -/
theorem CopyAndReverseEndianess_reverses (input : Slice) :
    (CopyAndReverseEndianess input).1 = input ∧
    ∃ out, (CopyAndReverseEndianess input).2 = some out ∧
      out.length = input.len ∧
      (∀ i, i < input.len → out[i]? = input.elems[input.len - 1 - i]?) ∧
      out = input.elems.reverse := by
  have hcopy : copy (List.replicate input.len 0) input.elems = input.elems :=
    copy_same_length _ _ (by simp [Slice.len_eq])
  have hlen : (reverseLoop input.elems 0 (input.len - 1)).length = input.len := by
    rw [length_reverseLoop _ input.elems 0 (input.len - 1) rfl, Slice.len_eq]
  have hidx : ∀ i, i < input.len →
      (reverseLoop input.elems 0 (input.len - 1))[i]? = input.elems[input.len - 1 - i]? := by
    intro i hi
    rw [reverseLoop_index _ input.elems 0 (input.len - 1) i rfl
      (by rw [← Slice.len_eq]; omega)]
    have h2 : 0 ≤ i ∧ i ≤ input.len - 1 := by omega
    rw [if_pos h2]
    congr 1
    omega
  refine ⟨rfl, reverseLoop input.elems 0 (input.len - 1), ?_, hlen, hidx, ?_⟩
  · simp [CopyAndReverseEndianess, hcopy]
  · apply List.ext_getElem?
    intro k
    by_cases hk : k < input.len
    · rw [hidx k hk, List.getElem?_reverse (by rw [← Slice.len_eq]; exact hk),
        ← Slice.len_eq]
    · have h1 : input.len ≤ k := by omega
      rw [List.getElem?_eq_none_iff.mpr (by rw [hlen]; exact h1),
        List.getElem?_eq_none_iff.mpr (by rw [List.length_reverse, ← Slice.len_eq]; exact h1)]

end bytes

/-! ## Properties of the deposit message -/

namespace consensusprimitives

open bytes (Byte Err)

theorem littleEndian_MarshalUint64 (i : Nat) (h : i < 2 ^ 64) :
    littleEndian ((List.range 8).map (fun k => (Fin.ofNat ((i % 2 ^ 64) / 256 ^ k % 256) : Byte)))
      = i := by
  have e : List.range 8 = [0, 1, 2, 3, 4, 5, 6, 7] := by decide
  rw [e]
  simp only [List.map_cons, List.map_nil, littleEndian, Fin.ofNat, Fin.val_mk]
  norm_num at h ⊢
  omega

/-- C27: `MarshalSSZTo(buf)` returns a nil error and `buf` followed by 88 bytes:
the 48 bytes of `Pubkey`, the 32 bytes of `Credentials` and eight bytes that
encode `Amount` least significant byte first; 88 is `SizeSSZ()` and the bytes
of `buf` are the first bytes of the result. -/
theorem MarshalSSZTo_appends_88 (d : DepositMessage) (buf : List Byte) :
    (d.MarshalSSZTo buf).2 = none ∧
    ∃ amount, (d.MarshalSSZTo buf).1 = buf ++ (d.Pubkey ++ d.Credentials ++ amount) ∧
      d.Pubkey.length = 48 ∧ d.Credentials.length = 32 ∧ amount.length = 8 ∧
      littleEndian amount = d.Amount ∧
      (d.MarshalSSZTo buf).1.length = buf.length + 88 ∧
      d.SizeSSZ = 88 ∧
      (d.MarshalSSZTo buf).1.take buf.length = buf ∧
      ((d.MarshalSSZTo buf).1.drop buf.length).length = d.SizeSSZ := by
  refine ⟨rfl, (List.range 8).map (fun k => Fin.ofNat ((d.Amount % 2 ^ 64) / 256 ^ k % 256)),
    ?_, d.pubkeySize, d.credentialsSize, by simp, littleEndian_MarshalUint64 _ d.amountBound,
    ?_, rfl, ?_, ?_⟩
  · simp [DepositMessage.MarshalSSZTo, MarshalUint64, List.append_assoc]
  · simp [DepositMessage.MarshalSSZTo, MarshalUint64, d.pubkeySize, d.credentialsSize]
  · simp [DepositMessage.MarshalSSZTo, MarshalUint64, List.append_assoc]
  · simp [DepositMessage.MarshalSSZTo, MarshalUint64, DepositMessage.SizeSSZ,
      d.pubkeySize, d.credentialsSize]

/-- The model on an example: a deposit of 32000000000 after a buffer of one
byte. -/
theorem MarshalSSZTo_example :
    (exDeposit.MarshalSSZTo [9]).1 =
      [9] ++ List.replicate 48 1 ++ List.replicate 32 2 ++ [0, 64, 89, 115, 7, 0, 0, 0] := by
  decide

end consensusprimitives

end BeaconKit
